import Mathlib

/-!
# A shallow embedding of the sbrk-based allocator of `src/src/alloc.c`

The C code keeps its block headers inside the managed region itself, so the
embedding works on a byte-addressed memory: a header is 32 bytes
(`size_t size` at offset 0, `next` at 8, `prev` at 16, `int free` at 24,
`int padding` at 28) and `anchor`, the payload, starts at offset 32
(`BLOCK_SIZE = offsetof(struct block, anchor)`), with the x86-64 layout and
little-endian byte order.  Addresses and sizes are natural numbers; 64-bit
wrap-around is written out with `% W`.  `NULL` is address `0`.

The operating-system break (`sbrk`/`brk`) is not code of the repository; it is
modelled by the two fields `brk` (current break) and `limit` (the highest break
the system grants).

Loops that follow pointers read from memory (`find_block`, `find_last_block`,
`fusion`, the byte loop of `copy_block`) are structurally recursive on a fuel
argument and return `none` when it runs out.
-/

namespace Alloc

/-- Modulus of `size_t` and of pointers. -/
def W : Nat := 2 ^ 64

/-- The macro `BLOCK_SIZE`, that is `offsetof(struct block, anchor)`. -/
def BLOCK_SIZE : Nat := 32

/-- Byte-addressed memory. -/
abbrev Mem := Nat → Nat

/-- Read one byte. -/
def rd8 (m : Mem) (a : Nat) : Nat := m a % 256

/-- Write one byte. -/
def wr8 (m : Mem) (a v : Nat) : Mem := fun x => if x = a then v % 256 else m x

/-- Read a little-endian unsigned integer of `k` bytes at `a`. -/
def rdN : Nat → Mem → Nat → Nat
  | 0, _, _ => 0
  | k + 1, m, a => rd8 m a + 256 * rdN k m (a + 1)

/-- Write the low `k` bytes of `v` at `a`, little-endian. -/
def wrN : Nat → Mem → Nat → Nat → Mem
  | 0, m, _, _ => m
  | k + 1, m, a, v => wrN k (wr8 m a v) (a + 1) (v / 256)

/-- The field `b->size`. -/
def size_of (m : Mem) (b : Nat) : Nat := rdN 8 m b
/-- The field `b->next`. -/
def next_of (m : Mem) (b : Nat) : Nat := rdN 8 m (b + 8)
/-- The field `b->prev`. -/
def prev_of (m : Mem) (b : Nat) : Nat := rdN 8 m (b + 16)
/-- The field `b->free` (an `int`). -/
def free_of (m : Mem) (b : Nat) : Nat := rdN 4 m (b + 24)

/-- The assignment `b->size = v`. -/
def set_size (m : Mem) (b v : Nat) : Mem := wrN 8 m b v
/-- The assignment `b->next = v`. -/
def set_next (m : Mem) (b v : Nat) : Mem := wrN 8 m (b + 8) v
/-- The assignment `b->prev = v`. -/
def set_prev (m : Mem) (b v : Nat) : Mem := wrN 8 m (b + 16) v
/-- The assignment `b->free = v`. -/
def set_free (m : Mem) (b v : Nat) : Mem := wrN 4 m (b + 24) v

/-- The address `b->anchor` of the payload of the block at `b`. -/
def anchor (b : Nat) : Nat := (b + BLOCK_SIZE) % W

/-- State of the allocator: the memory, the global `base`, and the break. -/
structure Heap where
  mem : Mem
  base : Nat
  brk : Nat
  limit : Nat

/-- Conversion of a `size_t` to `ssize_t` (two's complement). -/
def toSsize (n : Nat) : Int :=
  if n % W < 2 ^ 63 then ((n % W : Nat) : Int) else ((n % W : Nat) : Int) - (W : Int)

/-- The call `sbrk(incr)`: the increment is an `intptr_t`; the result is the
new state, or `none` for the failure value `(void*)-1`. -/
def sbrk (h : Heap) (incr : Nat) : Option Heap :=
  if incr % W < 2 ^ 63 then
    if h.brk + incr % W ≤ h.limit then some { h with brk := h.brk + incr % W } else none
  else
    if W - incr % W ≤ h.brk then some { h with brk := h.brk - (W - incr % W) } else none

/-- The call `brk(addr)`, whose result the allocator ignores. -/
def brk_set (h : Heap) (addr : Nat) : Heap :=
  if addr ≤ h.limit then { h with brk := addr } else h

/-- The function `align_64b` (alloc.c:99-105); the `ssize_t` result of
`(((x-1)>>3)<<3)+8` is converted to `size_t`. -/
def align_64b (x : Int) : Nat :=
  if x ≤ 0 then 0
  else ((((x - 1).toNat >>> 3) <<< 3) + 8) % W

/-- The function `find_block` (alloc.c:114-121); returns the block and the
final value of `*last`. -/
def find_block : Nat → Mem → Nat → Nat → Nat → Option (Nat × Nat)
  | 0, _, _, _, _ => none
  | fuel + 1, m, b, last, size =>
    if b ≠ 0 ∧ ¬ (free_of m b ≠ 0 ∧ size ≤ size_of m b) then
      find_block fuel m (next_of m b) b size
    else some (b, last)

/-- The function `extend_heap` (alloc.c:128-139). -/
def extend_heap (h : Heap) (last new_size : Nat) : Heap × Nat :=
  let new_b := h.brk
  match sbrk h (new_size + BLOCK_SIZE) with
  | none => (h, 0)
  | some h1 =>
    let m := set_size h1.mem new_b new_size
    let m := set_next m new_b 0
    let m := set_free m new_b 0
    let m := set_prev m new_b last
    let m := if last ≠ 0 then set_next m last new_b else m
    ({ h1 with mem := m }, new_b)

/-- The function `split_block` (alloc.c:146-160). -/
def split_block (m : Mem) (b new_size : Nat) : Mem :=
  let new_b := anchor b + new_size
  let m := set_size m new_b ((size_of m b + (W - new_size % W) + (W - BLOCK_SIZE)) % W)
  let m := set_prev m new_b b
  let m := set_next m new_b (next_of m b)
  let m := set_free m new_b 1
  let m := if next_of m new_b ≠ 0 then set_prev m (next_of m new_b) new_b else m
  let m := set_size m b new_size
  let m := set_next m b new_b
  set_free m b 0

/-- The forward step of `fusion` (alloc.c:171-177). -/
def fusion_fwd (m : Mem) (block : Nat) : Mem × Bool :=
  if next_of m block ≠ 0 ∧ free_of m (next_of m block) ≠ 0 then
    let m := set_size m block (size_of m block + (size_of m (next_of m block) + BLOCK_SIZE))
    let m := set_next m block (next_of m (next_of m block))
    let m := if next_of m block ≠ 0 then set_prev m (next_of m block) block else m
    (m, true)
  else (m, false)

/-- The backward step of `fusion` (alloc.c:178-185). -/
def fusion_bck (m : Mem) (block : Nat) (ok : Bool) : Mem × Nat × Bool :=
  if prev_of m block ≠ 0 ∧ free_of m (prev_of m block) ≠ 0 then
    let m := set_size m (prev_of m block)
      (size_of m (prev_of m block) + (size_of m block + BLOCK_SIZE))
    let m := if next_of m block ≠ 0 then set_prev m (next_of m block) (prev_of m block) else m
    let m := set_next m (prev_of m block) (next_of m block)
    (m, prev_of m block, true)
  else (m, block, ok)

/-- The function `fusion` (alloc.c:168-190). -/
def fusion : Nat → Mem → Nat → Bool → Option (Mem × Nat)
  | 0, _, _, _ => none
  | fuel + 1, m, block, ok =>
    if ok then
      let r1 := fusion_fwd m block
      let r2 := fusion_bck r1.1 block r1.2
      if r2.2.2 then fusion fuel r2.1 r2.2.1 true else some (r2.1, r2.2.1)
    else some (m, block)

/-- The function `get_pointer_to_meta_block` (alloc.c:197-199). -/
def get_pointer_to_meta_block (p : Nat) : Nat := (p + (W - BLOCK_SIZE)) % W

/-- The function `valid_addr` (alloc.c:206-213); `sbrk(0)` is the break. -/
def valid_addr (h : Heap) (p : Nat) : Bool :=
  if h.base ≠ 0 then
    if p > h.base ∧ p < h.brk ∧ p % 8 = 0 then
      decide (p = anchor (get_pointer_to_meta_block p))
    else false
  else false

/-- The function `my_free` (alloc.c:219-235). -/
def my_free (fuel : Nat) (h : Heap) (p : Nat) : Option Heap :=
  if valid_addr h p then
    let b := get_pointer_to_meta_block p
    match fusion fuel (set_free h.mem b 1) b true with
    | none => none
    | some (m, b) =>
      if next_of m b = 0 then
        if prev_of m b ≠ 0 then
          some (brk_set { h with mem := set_next m (prev_of m b) 0 } b)
        else
          some (brk_set { h with mem := m, base := 0 } b)
      else some { h with mem := m }
  else some h

/-- The byte loop of `copy_block` (alloc.c:247-251); the bound re-reads
`original->size` on every iteration, as the C loop does. -/
def copy_loop : Nat → Mem → Nat → Nat → Nat → Option Mem
  | 0, _, _, _, _ => none
  | fuel + 1, m, original, original_p, copy_p =>
    if original_p < anchor original + size_of m original then
      copy_loop fuel (wr8 m copy_p (rd8 m original_p)) original (original_p + 1) (copy_p + 1)
    else some m

/-- The function `copy_block` (alloc.c:242-252). -/
def copy_block (fuel : Nat) (m : Mem) (original copy : Nat) : Option Mem :=
  if original = 0 ∨ copy = 0 ∨ size_of m original > size_of m copy then some m
  else copy_loop fuel m original (anchor original) (anchor copy)

/-- The loop of `find_last_block` (alloc.c:260-263). -/
def find_last_loop : Nat → Mem → Nat → Nat → Option Nat
  | 0, _, _, _ => none
  | fuel + 1, m, b, last =>
    if b ≠ 0 then find_last_loop fuel m (next_of m b) b else some last

/-- The function `find_last_block` (alloc.c:257-265); the C variable `last`
is uninitialised when the chain is empty, here it starts as `NULL`. -/
def find_last_block (fuel : Nat) (h : Heap) : Option Nat :=
  find_last_loop fuel h.mem h.base 0

/-- The function `my_malloc` (alloc.c:49-74); returns the new state and the
returned pointer. -/
def my_malloc (fuel : Nat) (h : Heap) (new_size : Nat) : Option (Heap × Nat) :=
  let new_size := align_64b (toSsize new_size)
  if new_size = 0 then some (h, 0)
  else if h.base = 0 then
    let r := extend_heap h 0 new_size
    if r.2 = 0 then some ({ r.1 with base := r.2 }, 0)
    else some ({ r.1 with base := r.2 }, anchor r.2)
  else
    match find_block fuel h.mem h.base 0 new_size with
    | none => none
    | some (block, last) =>
      if block ≠ 0 then
        let m :=
          if (size_of h.mem block + (W - new_size % W)) % W ≥ BLOCK_SIZE + 8 then
            split_block h.mem block new_size
          else h.mem
        some ({ h with mem := set_free m block 0 }, anchor block)
      else
        let r := extend_heap h last new_size
        if r.2 = 0 then some (r.1, 0) else some (r.1, anchor r.2)

/-- The zeroing loop of `my_calloc` (alloc.c:88-89): `count` words from `p`. -/
def zero_words : Nat → Mem → Nat → Mem
  | 0, m, _ => m
  | k + 1, m, p => zero_words k (wrN 8 m p 0) (p + 8)

/-- The function `my_calloc` (alloc.c:82-92). -/
def my_calloc (fuel : Nat) (h : Heap) (num size : Nat) : Option (Heap × Nat) :=
  match my_malloc fuel h ((num * size) % W) with
  | none => none
  | some (h1, new) =>
    if new ≠ 0 then
      let size_8 := align_64b (toSsize ((num * size) % W)) >>> 3
      some ({ h1 with mem := zero_words size_8 h1.mem new }, new)
    else some (h1, new)

/-- The growing branch of `my_realloc` (alloc.c:286-306), entered when
`block->size < new_size`. -/
def realloc_grow (fuel : Nat) (h : Heap) (p new_size block : Nat) : Option (Heap × Nat) :=
  match find_last_block fuel h with
  | none => none
  | some last =>
    let r := extend_heap h last (size_of h.mem block)
    let copy := r.2
    match copy_block fuel r.1.mem block copy with
    | none => none
    | some m1 =>
      match fusion fuel m1 block true with
      | none => none
      | some (m2, block) =>
        if size_of m2 block ≥ new_size then
          let m3 :=
            if size_of m2 block ≥ new_size + BLOCK_SIZE + 8 then split_block m2 block new_size
            else m2
          match copy_block fuel m3 copy block with
          | none => none
          | some m4 =>
            match my_free fuel { r.1 with mem := m4 } (anchor copy) with
            | none => none
            | some h2 => some (h2, anchor block)
        else
          match my_free fuel { r.1 with mem := m2 } (anchor copy) with
          | none => none
          | some h2 =>
            match my_malloc fuel h2 new_size with
            | none => none
            | some (h3, new_p) =>
              if new_p = 0 then some (h3, 0)
              else
                match copy_block fuel h3.mem block (get_pointer_to_meta_block new_p) with
                | none => none
                | some m5 =>
                  match my_free fuel { h3 with mem := m5 } p with
                  | none => none
                  | some h4 => some (h4, new_p)

/-- The function `my_realloc` (alloc.c:274-311). -/
def my_realloc (fuel : Nat) (h : Heap) (p new_size : Nat) : Option (Heap × Nat) :=
  if p = 0 then my_malloc fuel h new_size
  else if valid_addr h p then
    let new_size := align_64b (toSsize new_size)
    let block := get_pointer_to_meta_block p
    if size_of h.mem block ≥ new_size then
      if size_of h.mem block ≥ new_size + BLOCK_SIZE + 8 then
        some ({ h with mem := split_block h.mem block new_size }, p)
      else some (h, p)
    else realloc_grow fuel h p new_size block
  else some (h, 0)

/-- The empty heap: no block, the break at `start`, every byte zero. -/
def emptyHeap (start limit : Nat) : Heap :=
  { mem := fun _ => 0, base := 0, brk := start, limit := limit }

/-- A store of one byte by the caller (for instance `second[0] = 'a'`). -/
def poke (h : Heap) (a v : Nat) : Heap := { h with mem := wr8 h.mem a v }

/-! ## Well-formed heaps -/

/-- The blocks `bs`, in chain order, form the chain that starts at address `a`
with predecessor `prev`: the links agree with the list, every block ends where
its successor starts, and the tail ends at the break `brk`. -/
def chain (m : Mem) (brk : Nat) : Nat → Nat → List Nat → Prop
  | _, a, [] => a = 0
  | prev, a, b :: bs =>
    a = b ∧ b ≠ 0 ∧ prev_of m b = prev ∧
    (if next_of m b = 0 then b + BLOCK_SIZE + size_of m b = brk
      else next_of m b = b + BLOCK_SIZE + size_of m b) ∧
    chain m brk b (next_of m b) bs

instance chainDecidable (m : Mem) (brk : Nat) :
    ∀ (prev a : Nat) (bs : List Nat), Decidable (chain m brk prev a bs)
  | _, a, [] => inferInstanceAs (Decidable (a = 0))
  | prev, a, b :: bs =>
    have := chainDecidable m brk b (next_of m b) bs
    inferInstanceAs (Decidable (a = b ∧ b ≠ 0 ∧ prev_of m b = prev ∧
      (if next_of m b = 0 then b + BLOCK_SIZE + size_of m b = brk
        else next_of m b = b + BLOCK_SIZE + size_of m b) ∧
      chain m brk b (next_of m b) bs))

/-- A well-formed heap with chain `bs`: `base` heads the chain (and is `NULL`
for the empty chain), the chain tiles the region up to the break, the region
lies above the first `BLOCK_SIZE` bytes of the address space, and the break is
within what the system grants, below the sign bit of a 64-bit word. -/
def wf (h : Heap) (bs : List Nat) : Prop :=
  chain h.mem h.brk 0 h.base bs ∧ (h.base ≠ 0 → BLOCK_SIZE ≤ h.base) ∧
  h.brk ≤ h.limit ∧ h.limit + BLOCK_SIZE < 2 ^ 63

instance wfDecidable (h : Heap) (bs : List Nat) : Decidable (wf h bs) :=
  inferInstanceAs (Decidable (chain h.mem h.brk 0 h.base bs ∧
    (h.base ≠ 0 → BLOCK_SIZE ≤ h.base) ∧ h.brk ≤ h.limit ∧ h.limit + BLOCK_SIZE < 2 ^ 63))

/-- The test of `find_block` on one block: `b->free && b->size >= size`. -/
def fits (m : Mem) (size b : Nat) : Bool :=
  decide (free_of m b ≠ 0 ∧ size ≤ size_of m b)

/-- The result of scanning the blocks `bs` as `find_block` does: the first
block that fits (or `NULL`) and the last block stepped over. -/
def scan (m : Mem) (size : Nat) : List Nat → Nat → Nat × Nat
  | [], last => (0, last)
  | b :: bs, last => if fits m size b then (b, last) else scan m size bs b

/-- Total extent (payload plus header) of the leading free blocks of a list. -/
def runSize (m : Mem) : List Nat → Nat
  | [] => 0
  | x :: xs => if free_of m x ≠ 0 then size_of m x + BLOCK_SIZE + runSize m xs else 0

/-! ## Concrete call sequences on the empty heap (break at 4096) -/

/-- Scenario 6 of the specification and `test_my_realloc_fusion`:
`a = my_malloc(16)`, `b = my_malloc(8)`, `c = my_malloc(24)`, `d = my_malloc(16)`,
`my_free(a)`, `my_free(c)`, `r = my_realloc(b, 104)`; the state after the last
call and `r`. -/
def fusionScenario : Option (Heap × Nat) := do
  let (h, a) ← my_malloc 16 (emptyHeap 4096 65536) 16
  let (h, b) ← my_malloc 16 h 8
  let (h, c) ← my_malloc 16 h 24
  let (h, _) ← my_malloc 16 h 16
  let h ← my_free 16 h a
  let h ← my_free 16 h c
  my_realloc 16 h b 104

/-- The call sequence `a = my_malloc(16)`, `b = my_malloc(8)`, `d = my_malloc(16)`,
`a[0] = 'z'`, `b[0] = 'a'`, `my_free(a)`, `q = my_realloc(b, 1000)`; the result
is `b`, `q`, the byte `b[0]` before the last call and the byte `q[0]` after it. -/
def moveScenario : Option (Nat × Nat × Nat × Nat) := do
  let (h, a) ← my_malloc 64 (emptyHeap 4096 65536) 16
  let (h, b) ← my_malloc 64 h 8
  let (h, _) ← my_malloc 64 h 16
  let h := poke h a 0x7a
  let h := poke h b 0x61
  let h ← my_free 64 h a
  let (h1, q) ← my_realloc 64 h b 1000
  some (b, q, rd8 h.mem b, rd8 h1.mem q)

/-- The heap after `my_malloc(16)` on the empty heap: one block at 4096. -/
def oneBlockHeap : Heap :=
  ((my_malloc 1 (emptyHeap 4096 65536) 16).map Prod.fst).getD (emptyHeap 4096 65536)

/-- The heap after `b = my_malloc(8)`, `my_malloc(16)`, `x = my_malloc(64)`,
`my_malloc(8)`, `my_free(x)`, in a system that grants no further growth. -/
def reuseHeap : Heap :=
  (do
    let (h, _) ← my_malloc 16 (emptyHeap 4096 65536) 8
    let (h, _) ← my_malloc 16 h 16
    let (h, x) ← my_malloc 16 h 64
    let (h, _) ← my_malloc 16 h 8
    let h ← my_free 16 h x
    some { h with limit := h.brk }).getD (emptyHeap 4096 4096)

/-- The heap after `b = my_malloc(8)`, `c = my_malloc(24)`, `my_malloc(16)`,
`my_free(c)`, in a system that grants no further growth. -/
def mergeHeap : Heap :=
  (do
    let (h, _) ← my_malloc 16 (emptyHeap 4096 65536) 8
    let (h, c) ← my_malloc 16 h 24
    let (h, _) ← my_malloc 16 h 16
    let h ← my_free 16 h c
    some { h with limit := h.brk }).getD (emptyHeap 4096 4096)

/-- Scenario 6 with the three bytes `'a'`, `'b'`, `'c'` stored at `b` before
`r = my_realloc(b, 104)`: the result is `b`, `r`, the size and the `next` link of
the block of `r`, the block of `d`, and the first three bytes at `r`. -/
def fusionBytesScenario : Option (Nat × Nat × Nat × Nat × Nat × List Nat) := do
  let (h, a) ← my_malloc 16 (emptyHeap 4096 65536) 16
  let (h, b) ← my_malloc 16 h 8
  let (h, c) ← my_malloc 16 h 24
  let (h, d) ← my_malloc 16 h 16
  let h ← my_free 16 h a
  let h ← my_free 16 h c
  let h := poke (poke (poke h b 0x61) (b + 1) 0x62) (b + 2) 0x63
  let (h1, r) ← my_realloc 16 h b 104
  some (b, r, size_of h1.mem (get_pointer_to_meta_block r),
    next_of h1.mem (get_pointer_to_meta_block r), get_pointer_to_meta_block d,
    [rd8 h1.mem r, rd8 h1.mem (r + 1), rd8 h1.mem (r + 2)])

/-- The call sequence `a = my_malloc(64)`, `b = my_malloc(16)`, `my_malloc(8)`,
`my_free(b)`, `my_realloc(a, 8)`; the state after the last call and its result. -/
def shrinkScenario : Option (Heap × Nat) := do
  let (h, a) ← my_malloc 16 (emptyHeap 4096 65536) 64
  let (h, b) ← my_malloc 16 h 16
  let (h, _) ← my_malloc 16 h 8
  let h ← my_free 16 h b
  my_realloc 16 h a 8

/-- The heap after `my_malloc(64)` on the empty heap: one block at 4096. -/
def block64Heap : Heap :=
  ((my_malloc 1 (emptyHeap 4096 65536) 64).map Prod.fst).getD (emptyHeap 4096 65536)

/-- The heap after `a = my_malloc(16)`, sixteen bytes `0xff` stored at `a`,
`my_malloc(8)`, `my_free(a)`: the freed block at 4096 holds non-zero bytes. -/
def dirtyHeap : Heap :=
  (do
    let (h, a) ← my_malloc 16 (emptyHeap 4096 65536) 16
    let h := { h with mem := wrN 8 (wrN 8 h.mem a (2 ^ 64 - 1)) (a + 8) (2 ^ 64 - 1) }
    let (h, _) ← my_malloc 16 h 8
    my_free 16 h a).getD (emptyHeap 4096 65536)

/-- The result of `my_calloc(2, 8)` on `dirtyHeap`. -/
def dirtyCalloc : Heap × Nat :=
  (my_calloc 16 dirtyHeap 2 8).getD (dirtyHeap, 0)

/-- No two blocks that are adjacent in the list are both free. -/
def noAdjFree (m : Mem) : List Nat → Prop
  | [] => True
  | [_] => True
  | x :: y :: rest => (free_of m x = 0 ∨ free_of m y = 0) ∧ noAdjFree m (y :: rest)

instance noAdjFreeDecidable (m : Mem) : ∀ (bs : List Nat), Decidable (noAdjFree m bs)
  | [] => inferInstanceAs (Decidable True)
  | [_] => inferInstanceAs (Decidable True)
  | x :: y :: rest =>
    have := noAdjFreeDecidable m (y :: rest)
    inferInstanceAs (Decidable ((free_of m x = 0 ∨ free_of m y = 0) ∧ noAdjFree m (y :: rest)))

/-- The heap after `my_malloc(10)`, `my_malloc(12)`, `my_malloc(18)` on the empty
heap: three allocated blocks at 4096, 4144 and 4192. -/
def threeBlockHeap : Heap :=
  (do
    let (h, _) ← my_malloc 16 (emptyHeap 4096 65536) 10
    let (h, _) ← my_malloc 16 h 12
    let (h, _) ← my_malloc 16 h 18
    some h).getD (emptyHeap 4096 65536)

/-- The call sequence `a = my_malloc(64)`, `my_realloc(a, 0)`; the state after
the last call and its result. -/
def zeroSizeScenario : Option (Heap × Nat) := do
  let (h, a) ← my_malloc 16 (emptyHeap 4096 65536) 64
  my_realloc 16 h a 0

/-- The call sequence `a = my_malloc(16)`, `b = my_malloc(8)`, `my_malloc(16)`,
`my_free(a)`, `q = my_realloc(b, 1000)`; the state after the last call and `q`. -/
def overlapScenario : Option (Heap × Nat) := do
  let (h, a) ← my_malloc 64 (emptyHeap 4096 65536) 16
  let (h, b) ← my_malloc 64 h 8
  let (h, _) ← my_malloc 64 h 16
  let h ← my_free 64 h a
  my_realloc 64 h b 1000

/-- The heap of `test_fusion_4_blocks`: six blocks of 16 bytes made by
`extend_heap` at 4096, 4144, 4192, 4240, 4288 and 4336, of which the second to
the fifth are marked free. -/
def sixBlockHeap : Heap :=
  let r0 := extend_heap (emptyHeap 4096 65536) 0 16
  let r1 := extend_heap { r0.1 with base := r0.2 } r0.2 16
  let r2 := extend_heap r1.1 r1.2 16
  let r3 := extend_heap r2.1 r2.2 16
  let r4 := extend_heap r3.1 r3.2 16
  let r5 := extend_heap r4.1 r4.2 16
  { r5.1 with mem :=
      set_free (set_free (set_free (set_free r5.1.mem r1.2 1) r2.2 1) r3.2 1) r4.2 1 }

/-- The heap of `test_fusion_2_blocks_fwd` and `test_fusion_2_blocks_bck`: two
free blocks of 16 bytes at 4096 and 4144. -/
def twoFreeHeap : Heap :=
  let r0 := extend_heap (emptyHeap 4096 65536) 0 16
  let r1 := extend_heap { r0.1 with base := r0.2 } r0.2 16
  { r1.1 with mem := set_free (set_free r1.1.mem r0.2 1) r1.2 1 }

/-- The heap of `test_split_block_size`: a block of 8 bytes at 4096 and a block
of 64 bytes at 4136, both made by `extend_heap`. -/
def splitHeap : Heap :=
  let r0 := extend_heap (emptyHeap 4096 65536) 0 8
  let r1 := extend_heap { r0.1 with base := r0.2 } r0.2 64
  r1.1

/-- The heap of `test_find_second_block`: free blocks of 8 and 27 bytes at 4096
and 4136, made by `extend_heap`. -/
def findHeap : Heap :=
  let r0 := extend_heap (emptyHeap 4096 65536) 0 8
  let r1 := extend_heap { r0.1 with base := r0.2 } r0.2 27
  { r1.1 with mem := set_free (set_free r1.1.mem r0.2 1) r1.2 1 }

/-! ## Reading and writing memory -/

theorem wrN_apply (k : Nat) : ∀ (m : Mem) (a v x : Nat),
    wrN k m a v x = if a ≤ x ∧ x < a + k then (v / 256 ^ (x - a)) % 256 else m x := by
  induction k with
  | zero =>
    intro m a v x
    have : ¬ (a ≤ x ∧ x < a + 0) := by omega
    rw [if_neg this, wrN]
  | succ k ih =>
    intro m a v x
    rw [wrN, ih]
    by_cases h1 : a + 1 ≤ x ∧ x < a + 1 + k
    · have h2 : a ≤ x ∧ x < a + (k + 1) := by omega
      rw [if_pos h1, if_pos h2, Nat.div_div_eq_div_mul]
      have : x - a = (x - (a + 1)) + 1 := by omega
      rw [this, pow_succ, Nat.mul_comm]
    · rw [if_neg h1]
      by_cases h3 : x = a
      · subst h3
        have h2 : x ≤ x ∧ x < x + (k + 1) := by omega
        simp [wr8, h2]
      · have h2 : ¬ (a ≤ x ∧ x < a + (k + 1)) := by omega
        simp [wr8, h2, h3]

theorem rdN_congr (k : Nat) : ∀ (m n : Mem) (a : Nat),
    (∀ x, a ≤ x → x < a + k → m x = n x) → rdN k m a = rdN k n a := by
  induction k with
  | zero => intro m n a _; rfl
  | succ k ih =>
    intro m n a h
    simp only [rdN, rd8]
    rw [h a (Nat.le_refl a) (by omega), ih m n (a + 1) (fun x h1 h2 => h x (by omega) (by omega))]

theorem rdN_lt (k : Nat) : ∀ (m : Mem) (a : Nat), rdN k m a < 256 ^ k := by
  induction k with
  | zero => intro m a; simp [rdN]
  | succ k ih =>
    intro m a
    have h1 := ih m (a + 1)
    have h2 : rd8 m a < 256 := Nat.mod_lt _ (by decide)
    simp only [rdN, pow_succ]
    omega

theorem rdN_of_bytes (k : Nat) : ∀ (m : Mem) (a v : Nat),
    (∀ i, i < k → m (a + i) % 256 = (v / 256 ^ i) % 256) → rdN k m a = v % 256 ^ k := by
  induction k with
  | zero => intro m a v _; simp [rdN, Nat.mod_one]
  | succ k ih =>
    intro m a v h
    have h0 := h 0 (by omega)
    simp only [Nat.add_zero, pow_zero, Nat.div_one] at h0
    have h1 : rdN k m (a + 1) = (v / 256) % 256 ^ k := by
      apply ih
      intro i hi
      have := h (i + 1) (by omega)
      rw [Nat.div_div_eq_div_mul, ← pow_succ']
      rw [← this]
      congr 2
      omega
    simp only [rdN, rd8, h0, h1]
    rw [pow_succ', Nat.mod_mul]

/-- Reading back what was just written gives the value, truncated to `k` bytes. -/
theorem rdN_wrN_same (k : Nat) (m : Mem) (a v : Nat) :
    rdN k (wrN k m a v) a = v % 256 ^ k := by
  apply rdN_of_bytes
  intro i hi
  rw [wrN_apply]
  have : a ≤ a + i ∧ a + i < a + k := by omega
  simp [this]

/-- A write does not change what is read from a disjoint range. -/
theorem rdN_wrN_disj (k j : Nat) (m : Mem) (a b v : Nat) (h : a + k ≤ b ∨ b + j ≤ a) :
    rdN k (wrN j m b v) a = rdN k m a := by
  apply rdN_congr
  intro x h1 h2
  rw [wrN_apply]
  have : ¬ (b ≤ x ∧ x < b + j) := by omega
  simp [this]

/-! ## Size alignment -/

theorem align_64b_pos_eq (x : Int) (hx : 0 < x) :
    align_64b x = ((x - 1).toNat / 8 * 8 + 8) % W := by
  have h : ¬ x ≤ 0 := by omega
  simp only [align_64b, if_neg h, Nat.shiftRight_eq_div_pow, Nat.shiftLeft_eq]

theorem align_64b_le (x : Int) (hx : x < 2 ^ 63) : align_64b x ≤ 2 ^ 63 := by
  by_cases h : x ≤ 0
  · simp [align_64b, h]
  · rw [align_64b_pos_eq x (by omega)]
    have : (x - 1).toNat < 2 ^ 63 := by omega
    simp only [W]
    omega

/-- C5: `align_64b(x)` is 0 for `x <= 0`; for `x > 0` whose rounded value fits
the signed 64-bit word it is the least multiple of 8 that is `>= x`, hence
`>= 8`; 19 gives 24, 65535 gives 65536, and 1..8 give 8. -/
theorem align_64b_spec (x : Int) (hfit : 0 < x → (x + 7) / 8 * 8 < 2 ^ 63) :
    (x ≤ 0 → align_64b x = 0) ∧
    (0 < x → 8 ∣ align_64b x ∧ x ≤ (align_64b x : Int) ∧ 8 ≤ align_64b x ∧
      ∀ k : Nat, 8 ∣ k → x ≤ (k : Int) → align_64b x ≤ k) ∧
    align_64b 19 = 24 ∧ align_64b 65535 = 65536 ∧
    (∀ y : Int, 1 ≤ y → y ≤ 8 → align_64b y = 8) := by
  have hex : ∀ y : Int, 1 ≤ y → y ≤ 8 → align_64b y = 8 := by
    intro y h1 h2
    rw [align_64b_pos_eq y (by omega)]
    have : (y - 1).toNat < 8 := by omega
    simp only [W]
    omega
  refine ⟨fun h => by simp [align_64b, h], fun hx => ?_, by decide, by decide, hex⟩
  have hf := hfit hx
  rw [align_64b_pos_eq x hx]
  have h1 : ((x - 1).toNat : Int) = x - 1 := Int.toNat_of_nonneg (by omega)
  have h2 : (x - 1).toNat / 8 * 8 + 8 < W := by
    simp only [W]
    omega
  rw [Nat.mod_eq_of_lt h2]
  refine ⟨by omega, by omega, by omega, ?_⟩
  intro k hk hxk
  omega

/-- The rounding of 19: the least multiple of 8 that is `>= 19`. -/
theorem align_64b_spec_witness :
    8 ∣ align_64b 19 ∧ (19 : Int) ≤ (align_64b 19 : Int) ∧ 8 ≤ align_64b 19 ∧
      ∀ k : Nat, 8 ∣ k → (19 : Int) ≤ (k : Int) → align_64b 19 ≤ k :=
  (align_64b_spec 19 (fun _ => by decide)).2.1 (by decide)

/-! ## Rejected sizes -/

theorem toSsize_nonpos (n : Nat) (hn : n = 0 ∨ (2 ^ 63 ≤ n ∧ n < 2 ^ 64)) : toSsize n ≤ 0 := by
  rcases hn with h | ⟨h1, h2⟩
  · subst h
    decide
  · have h3 : n % W = n := Nat.mod_eq_of_lt h2
    have h4 : ¬ n < 2 ^ 63 := by omega
    simp only [toSsize, h3, h4, if_false]
    simp only [W]
    omega

/-- C6: `my_malloc(n)` returns `NULL` and leaves the whole state (memory, `base`,
break) as it was when `n = 0` and when `n`, read as a signed 64-bit value, is
negative; no fuel is used and `sbrk` is not called. -/
theorem my_malloc_invalid_size (fuel : Nat) (h : Heap) (n : Nat)
    (hn : n = 0 ∨ (2 ^ 63 ≤ n ∧ n < 2 ^ 64)) :
    my_malloc fuel h n = some (h, 0) := by
  have h0 : align_64b (toSsize n) = 0 := by
    simp [align_64b, toSsize_nonpos n hn]
  simp [my_malloc, h0]

/-- The call `my_malloc(SIZE_MAX)` of `test_my_malloc_boundaries`. -/
theorem my_malloc_invalid_size_witness :
    my_malloc 0 (emptyHeap 4096 65536) (2 ^ 64 - 1) = some (emptyHeap 4096 65536, 0) :=
  my_malloc_invalid_size 0 (emptyHeap 4096 65536) (2 ^ 64 - 1) (Or.inr (by decide))

/-! ## Pointer validation -/

theorem anchor_get_pointer (p : Nat) (hp : p < W) :
    anchor (get_pointer_to_meta_block p) = p := by
  simp only [anchor, get_pointer_to_meta_block, W, BLOCK_SIZE] at *
  omega

/-- What `valid_addr` checks: the comparison with the header's `anchor` always
succeeds, so only the range and the alignment are tested. -/
theorem valid_addr_eq (h : Heap) (p : Nat) (hp : p < W) :
    valid_addr h p = decide (h.base ≠ 0 ∧ h.base < p ∧ p < h.brk ∧ p % 8 = 0) := by
  simp only [valid_addr, anchor_get_pointer p hp]
  by_cases h1 : h.base ≠ 0 <;> by_cases h2 : (p > h.base ∧ p < h.brk ∧ p % 8 = 0) <;>
    simp [h1, h2]

/-- C3: after `my_malloc(16)` on the empty heap the chain is the single block at
4096, with payload at 4128; `valid_addr` accepts 4104, which lies inside the
header, and 4136, which lies inside the payload. -/
theorem valid_addr_accepts_interior :
    oneBlockHeap.base = 4096 ∧ next_of oneBlockHeap.mem 4096 = 0 ∧
    size_of oneBlockHeap.mem 4096 = 16 ∧
    valid_addr oneBlockHeap 4104 = true ∧ valid_addr oneBlockHeap 4136 = true := by
  decide!

/-! ## Reallocation into a free predecessor -/

/-- C1: in scenario 6, `my_realloc(b, 104)` returns `r = 4128` and the next
`my_malloc(8)` returns 4128 again, the payload that the live pointer `r` owns. -/
theorem malloc_returns_live_payload :
    (fusionScenario.bind fun x => (my_malloc 16 x.1 8).map fun y => (x.2, y.2))
      = some (4128, 4128) := by
  decide!

/-- C2: in `moveScenario` the block of `b = 4176` holds the byte `0x61`;
`my_realloc(b, 1000)` returns `q = 4264` and `q[0]` is `0x7a`, the first byte of
the free predecessor, not the byte that was at `b`. -/
theorem realloc_move_loses_bytes :
    moveScenario = some (4176, 4264, 0x61, 0x7a) := by
  decide!

/-- C4: in scenario 6 the block at 4096 whose payload `my_realloc` returns
(`r = 4128`) has `free = 1` after the call, although `r` is live. -/
theorem realloc_result_marked_free :
    fusionScenario.map (fun x => (x.2, free_of x.1.mem (get_pointer_to_meta_block x.2)))
      = some (4128, 1) := by
  decide!

/-! ## Header fields -/

theorem rd64_wr64 (m : Mem) (a v : Nat) : rdN 8 (wrN 8 m a v) a = v % W := by
  rw [rdN_wrN_same]
  rfl

theorem rd32_wr32 (m : Mem) (a v : Nat) : rdN 4 (wrN 4 m a v) a = v % 2 ^ 32 := by
  rw [rdN_wrN_same]
  rfl

attribute [irreducible] rdN wrN

theorem size_of_lt (m : Mem) (b : Nat) : size_of m b < W := rdN_lt 8 m b

theorem next_of_lt (m : Mem) (b : Nat) : next_of m b < W := rdN_lt 8 m (b + 8)

/-! ## Chains -/

/-- Every block of a chain is non-null, ends at or below the break, and its
`next` link is null or the address where the block ends. -/
theorem chain_mem (m : Mem) (brk : Nat) (bs : List Nat) :
    ∀ (prev a : Nat), chain m brk prev a bs → ∀ b, b ∈ bs →
      b ≠ 0 ∧ b + BLOCK_SIZE + size_of m b ≤ brk ∧
      (next_of m b = 0 ∨ next_of m b = b + BLOCK_SIZE + size_of m b) := by
  induction bs with
  | nil => intro _ _ _ b hb; simp at hb
  | cons c cs ih =>
    intro prev a hc b hb
    obtain ⟨_, hc0, _, hnx, hrest⟩ := hc
    have hhead : c + BLOCK_SIZE + size_of m c ≤ brk := by
      by_cases h0 : next_of m c = 0
      · rw [if_pos h0] at hnx
        omega
      · rw [if_neg h0] at hnx
        cases cs with
        | nil => exact absurd hrest h0
        | cons d ds =>
          have hd : next_of m c = d := hrest.1
          have := (ih c (next_of m c) hrest d (List.mem_cons_self d ds)).2.1
          omega
    rcases List.mem_cons.mp hb with rfl | hb
    · refine ⟨hc0, hhead, ?_⟩
      by_cases h0 : next_of m b = 0
      · exact Or.inl h0
      · rw [if_neg h0] at hnx
        exact Or.inr hnx
    · exact ih c (next_of m c) hrest b hb

theorem find_block_chain (m : Mem) (brk size : Nat) (bs : List Nat) :
    ∀ (fuel prev a last : Nat), chain m brk prev a bs → bs.length < fuel →
      find_block fuel m a last size = some (scan m size bs last) := by
  induction bs with
  | nil =>
    intro fuel prev a last hc hf
    cases fuel with
    | zero => simp at hf
    | succ f =>
      have ha : a = 0 := hc
      simp [find_block, scan, ha]
  | cons c cs ih =>
    intro fuel prev a last hc hf
    cases fuel with
    | zero => simp at hf
    | succ f =>
      obtain ⟨hac, hc0, _, _, hrest⟩ := hc
      subst hac
      simp only [List.length_cons] at hf
      by_cases hfit : free_of m a ≠ 0 ∧ size ≤ size_of m a
      · have : fits m size a = true := by simp [fits, hfit]
        simp [find_block, scan, this, hfit]
      · have : fits m size a = false := by simp [fits, hfit]
        have hcond : a ≠ 0 ∧ ¬ (free_of m a ≠ 0 ∧ size ≤ size_of m a) := ⟨hc0, hfit⟩
        rw [find_block, if_pos hcond, scan]
        simp only [this]
        exact ih f a (next_of m a) a hrest (by omega)

theorem scan_fst (m : Mem) (size : Nat) (bs : List Nat) :
    ∀ last, (scan m size bs last).1 = (bs.find? (fits m size)).getD 0 := by
  induction bs with
  | nil => intro last; rfl
  | cons c cs ih =>
    intro last
    by_cases hfit : fits m size c = true
    · simp [scan, List.find?, hfit]
    · have hfit : fits m size c = false := by simpa using hfit
      simp [scan, List.find?, hfit, ih c]

theorem scan_none (m : Mem) (size : Nat) (bs : List Nat) :
    ∀ last, bs.find? (fits m size) = none → ∃ l, scan m size bs last = (0, l) := by
  intro last hnone
  refine ⟨(scan m size bs last).2, ?_⟩
  have := scan_fst m size bs last
  rw [hnone] at this
  exact Prod.ext this rfl

theorem scan_some (m : Mem) (size : Nat) (bs : List Nat) (B : Nat) :
    ∀ last, bs.find? (fits m size) = some B → ∃ l, scan m size bs last = (B, l) := by
  intro last hsome
  refine ⟨(scan m size bs last).2, ?_⟩
  have := scan_fst m size bs last
  rw [hsome] at this
  exact Prod.ext this rfl


theorem wf_base_ne (h : Heap) (bs : List Nat) (hwf : wf h bs) (hne : bs ≠ []) : h.base ≠ 0 := by
  cases bs with
  | nil => exact absurd rfl hne
  | cons c cs =>
    have hc := hwf.1
    have h1 : h.base = c := hc.1
    have h2 : c ≠ 0 := hc.2.1
    omega

theorem anchor_eq (b : Nat) (hb : b + BLOCK_SIZE < W) : anchor b = b + BLOCK_SIZE :=
  Nat.mod_eq_of_lt hb

/-- The state and pointer `my_malloc` returns when `find_block` hits block `B`. -/
theorem my_malloc_hit (h : Heap) (bs : List Nat) (n fuel B : Nat)
    (hwf : wf h bs) (hs : 0 < align_64b (toSsize n)) (hfuel : bs.length < fuel)
    (hB : bs.find? (fits h.mem (align_64b (toSsize n))) = some B) :
    my_malloc fuel h n = some ({ h with mem := set_free (if
        (size_of h.mem B + (W - align_64b (toSsize n) % W)) % W ≥ BLOCK_SIZE + 8 then
        split_block h.mem B (align_64b (toSsize n)) else h.mem) B 0 }, B + BLOCK_SIZE) := by
  have hmem : B ∈ bs := List.mem_of_find?_eq_some hB
  have hne : bs ≠ [] := List.ne_nil_of_mem hmem
  have hbase := wf_base_ne h bs hwf hne
  obtain ⟨hch, _, hbrk, hlim⟩ := hwf
  obtain ⟨hB0, hBend, _⟩ := chain_mem _ _ _ _ _ hch B hmem
  have hfb := find_block_chain h.mem h.brk (align_64b (toSsize n)) bs fuel 0 h.base 0 hch hfuel
  obtain ⟨l, hl⟩ := scan_some _ _ _ B 0 hB
  have hanchor : anchor B = B + BLOCK_SIZE := by
    apply anchor_eq
    simp only [W, BLOCK_SIZE] at *
    omega
  have hs0 : align_64b (toSsize n) ≠ 0 := by omega
  simp only [my_malloc, if_neg hs0, if_neg hbase, hfb, hl, hanchor]
  rw [if_pos hB0]


/-- The fields left by `split_block(b, k)` on a block with room for the split
whose successor, if any, starts where the block ends. -/
theorem split_block_fields (m : Mem) (b k : Nat)
    (hk : k + BLOCK_SIZE + 8 ≤ size_of m b)
    (hb : b + BLOCK_SIZE + size_of m b < W)
    (hnx : next_of m b = 0 ∨ next_of m b = b + BLOCK_SIZE + size_of m b) :
    size_of (split_block m b k) b = k ∧ free_of (split_block m b k) b = 0 ∧
    next_of (split_block m b k) b = b + BLOCK_SIZE + k ∧
    prev_of (split_block m b k) b = prev_of m b ∧
    size_of (split_block m b k) (b + BLOCK_SIZE + k) = size_of m b - k - BLOCK_SIZE ∧
    free_of (split_block m b k) (b + BLOCK_SIZE + k) = 1 ∧
    prev_of (split_block m b k) (b + BLOCK_SIZE + k) = b ∧
    next_of (split_block m b k) (b + BLOCK_SIZE + k) = next_of m b ∧
    (next_of m b ≠ 0 → prev_of (split_block m b k) (next_of m b) = b + BLOCK_SIZE + k) := by
  have hM := size_of_lt m b
  have ha : anchor b = b + BLOCK_SIZE := anchor_eq b (by omega)
  have hv : (size_of m b + (W - k % W) + (W - BLOCK_SIZE)) % W = size_of m b - k - BLOCK_SIZE := by
    simp only [W, BLOCK_SIZE] at *
    omega
  generalize hMdef : size_of m b = M at *
  generalize hnxdef : next_of m b = nx at *
  generalize hpvdef : prev_of m b = pv at *
  have hnxlt : nx < W := hnxdef ▸ next_of_lt m b
  simp only [size_of, next_of, prev_of] at hMdef hnxdef hpvdef
  simp only [W, BLOCK_SIZE] at *
  rcases hnx with h0 | h0
  · subst h0
    simp (disch := omega) only [split_block, ha, hv, size_of, next_of, prev_of, free_of, set_size,
      set_next, set_prev, set_free, rdN_wrN_disj, rd64_wr64, rd32_wr32, hMdef, hnxdef, hpvdef,
      W, BLOCK_SIZE, ne_eq, not_true_eq_false, if_false, Nat.zero_mod, Nat.mod_eq_of_lt]
    and_intros <;> first | omega | exact trivial | exact fun hf => hf.elim
  · have hnx0 : ¬ nx = 0 := by omega
    simp (disch := omega) only [split_block, ha, hv, size_of, next_of, prev_of, free_of, set_size,
      set_next, set_prev, set_free, rdN_wrN_disj, rd64_wr64, rd32_wr32, hMdef, hnxdef, hpvdef,
      W, BLOCK_SIZE, ne_eq, not_true_eq_false, if_false, Nat.zero_mod, Nat.mod_eq_of_lt, hnx0,
      not_false_eq_true, if_true]
    and_intros <;> first | omega | exact trivial | exact fun _ => trivial


theorem size_of_set_free (m : Mem) (b c v : Nat) (h : c + 8 ≤ b + 24 ∨ b + 28 ≤ c) :
    size_of (set_free m b v) c = size_of m c :=
  rdN_wrN_disj 8 4 m c (b + 24) v (by omega)

theorem next_of_set_free (m : Mem) (b c v : Nat) (h : c + 16 ≤ b + 24 ∨ b + 28 ≤ c + 8) :
    next_of (set_free m b v) c = next_of m c :=
  rdN_wrN_disj 8 4 m (c + 8) (b + 24) v (by omega)

theorem prev_of_set_free (m : Mem) (b c v : Nat) (h : c + 24 ≤ b + 24 ∨ b + 28 ≤ c + 16) :
    prev_of (set_free m b v) c = prev_of m c :=
  rdN_wrN_disj 8 4 m (c + 16) (b + 24) v (by omega)

theorem free_of_set_free (m : Mem) (b v : Nat) : free_of (set_free m b v) b = v % 2 ^ 32 :=
  rd32_wr32 m (b + 24) v

theorem free_of_set_free_disj (m : Mem) (b c v : Nat) (h : c + 28 ≤ b + 24 ∨ b + 28 ≤ c + 24) :
    free_of (set_free m b v) c = free_of m c :=
  rdN_wrN_disj 4 4 m (c + 24) (b + 24) v (by omega)

theorem fits_iff (m : Mem) (size b : Nat) :
    fits m size b = true ↔ free_of m b ≠ 0 ∧ size ≤ size_of m b := by
  simp [fits]

/-- C7: on a non-empty well-formed chain, for `s = align_64b(n) > 0`,
`find_block` returns the first block in chain order that is free with
`size >= s` (`NULL` if there is none); when there is one, `my_malloc(n)` returns
its payload address, the block is marked allocated and the break does not
move. -/
theorem my_malloc_first_fit (h : Heap) (bs : List Nat) (n s fuel : Nat)
    (hwf : wf h bs) (hne : bs ≠ []) (hs : s = align_64b (toSsize n)) (hpos : 0 < s)
    (hfuel : bs.length < fuel) :
    (∃ last, find_block fuel h.mem h.base 0 s =
      some ((bs.find? (fits h.mem s)).getD 0, last)) ∧
    ∀ B, bs.find? (fits h.mem s) = some B →
      ∃ h1, my_malloc fuel h n = some (h1, B + BLOCK_SIZE) ∧ free_of h1.mem B = 0 ∧
        h1.brk = h.brk := by
  have _ := hne
  subst hs
  constructor
  · have hfb := find_block_chain h.mem h.brk (align_64b (toSsize n)) bs fuel 0 h.base 0 hwf.1 hfuel
    exact ⟨_, by rw [hfb, ← scan_fst h.mem _ bs 0]⟩
  · intro B hB
    refine ⟨_, my_malloc_hit h bs n fuel B hwf hpos hfuel hB, ?_, rfl⟩
    exact free_of_set_free _ B 0

/-- The reuse of the freed 64-byte block of `reuseHeap` by `my_malloc(40)`. -/
theorem my_malloc_first_fit_witness :
    ∃ h1, my_malloc 16 reuseHeap 40 = some (h1, 4184 + BLOCK_SIZE) ∧ free_of h1.mem 4184 = 0 ∧
      h1.brk = reuseHeap.brk :=
  (my_malloc_first_fit reuseHeap [4096, 4136, 4184, 4280] 40 40 16 (by decide!) (by decide)
    (by decide!) (by decide) (by decide)).2 4184 (by decide!)

/-- C8: when `my_malloc(n)` hits the free block `B` of size `m`, with
`s = align_64b(n)`: if `m - s >= 32 + 8` then afterwards `B` has size `s`, is
allocated, and its successor is a new free block at `B + 32 + s` of size
`m - s - 32` whose successor is the old successor of `B`; if `m - s < 40` the
only change to memory is that the flag of `B` is cleared, so `B` keeps size `m`
and its successor. -/
theorem my_malloc_split_threshold (h : Heap) (bs : List Nat) (n s fuel B : Nat)
    (hwf : wf h bs) (hs : s = align_64b (toSsize n)) (hpos : 0 < s) (hfuel : bs.length < fuel)
    (hB : bs.find? (fits h.mem s) = some B) :
    ∃ h1, my_malloc fuel h n = some (h1, B + BLOCK_SIZE) ∧
      (BLOCK_SIZE + 8 ≤ size_of h.mem B - s →
        size_of h1.mem B = s ∧ free_of h1.mem B = 0 ∧
        next_of h1.mem B = B + BLOCK_SIZE + s ∧
        free_of h1.mem (B + BLOCK_SIZE + s) = 1 ∧
        size_of h1.mem (B + BLOCK_SIZE + s) = size_of h.mem B - s - BLOCK_SIZE ∧
        prev_of h1.mem (B + BLOCK_SIZE + s) = B ∧
        next_of h1.mem (B + BLOCK_SIZE + s) = next_of h.mem B ∧
        (next_of h.mem B ≠ 0 → prev_of h1.mem (next_of h.mem B) = B + BLOCK_SIZE + s)) ∧
      (size_of h.mem B - s < BLOCK_SIZE + 8 →
        h1.mem = set_free h.mem B 0 ∧ size_of h1.mem B = size_of h.mem B ∧
        next_of h1.mem B = next_of h.mem B) := by
  subst hs
  have hmem : B ∈ bs := List.mem_of_find?_eq_some hB
  have hfit : fits h.mem (align_64b (toSsize n)) B = true := List.find?_some hB
  obtain ⟨_, hle⟩ := (fits_iff _ _ _).mp hfit
  obtain ⟨hB0, hBend, hnx⟩ := chain_mem _ _ _ _ _ hwf.1 B hmem
  have hbrk := hwf.2.2.1
  have hlim := hwf.2.2.2
  have hM := size_of_lt h.mem B
  have hcond : (size_of h.mem B + (W - align_64b (toSsize n) % W)) % W =
      size_of h.mem B - align_64b (toSsize n) := by
    simp only [W] at *
    omega
  refine ⟨_, my_malloc_hit h bs n fuel B hwf hpos hfuel hB, ?_, ?_⟩
  · intro hroom
    have hc : (size_of h.mem B + (W - align_64b (toSsize n) % W)) % W ≥ BLOCK_SIZE + 8 := by
      rw [hcond]
      exact hroom
    obtain ⟨f1, _, f3, _, f5, f6, f7, f8, f9⟩ :=
      split_block_fields h.mem B (align_64b (toSsize n)) (by simp only [BLOCK_SIZE] at *; omega)
        (by simp only [W, BLOCK_SIZE] at *; omega) hnx
    simp only [if_pos hc]
    refine ⟨?_, free_of_set_free _ B 0, ?_, ?_, ?_, ?_, ?_, ?_⟩
    · rw [size_of_set_free _ _ _ _ (by omega), f1]
    · rw [next_of_set_free _ _ _ _ (by omega), f3]
    · rw [free_of_set_free_disj _ _ _ _ (by simp only [BLOCK_SIZE]; omega), f6]
    · rw [size_of_set_free _ _ _ _ (by simp only [BLOCK_SIZE]; omega), f5]
    · rw [prev_of_set_free _ _ _ _ (by simp only [BLOCK_SIZE]; omega), f7]
    · rw [next_of_set_free _ _ _ _ (by simp only [BLOCK_SIZE]; omega), f8]
    · intro h0
      rw [prev_of_set_free _ _ _ _ (by simp only [BLOCK_SIZE] at *; omega), f9 h0]
  · intro hroom
    have hc : ¬ (size_of h.mem B + (W - align_64b (toSsize n) % W)) % W ≥ BLOCK_SIZE + 8 := by
      rw [hcond]
      omega
    simp only [if_neg hc]
    exact ⟨trivial, size_of_set_free _ _ _ _ (by omega), next_of_set_free _ _ _ _ (by omega)⟩

/-- The split of the freed 64-byte block of `reuseHeap` by `my_malloc(8)`. -/
theorem my_malloc_split_threshold_witness :
    ∃ h1, my_malloc 16 reuseHeap 8 = some (h1, 4184 + BLOCK_SIZE) ∧
      (BLOCK_SIZE + 8 ≤ size_of reuseHeap.mem 4184 - 8 →
        size_of h1.mem 4184 = 8 ∧ free_of h1.mem 4184 = 0 ∧
        next_of h1.mem 4184 = 4184 + BLOCK_SIZE + 8 ∧
        free_of h1.mem (4184 + BLOCK_SIZE + 8) = 1 ∧
        size_of h1.mem (4184 + BLOCK_SIZE + 8) = size_of reuseHeap.mem 4184 - 8 - BLOCK_SIZE ∧
        prev_of h1.mem (4184 + BLOCK_SIZE + 8) = 4184 ∧
        next_of h1.mem (4184 + BLOCK_SIZE + 8) = next_of reuseHeap.mem 4184 ∧
        (next_of reuseHeap.mem 4184 ≠ 0 →
          prev_of h1.mem (next_of reuseHeap.mem 4184) = 4184 + BLOCK_SIZE + 8)) ∧
      (size_of reuseHeap.mem 4184 - 8 < BLOCK_SIZE + 8 →
        h1.mem = set_free reuseHeap.mem 4184 0 ∧
        size_of h1.mem 4184 = size_of reuseHeap.mem 4184 ∧
        next_of h1.mem 4184 = next_of reuseHeap.mem 4184) :=
  my_malloc_split_threshold reuseHeap [4096, 4136, 4184, 4280] 8 8 16 4184 (by decide!)
    (by decide!) (by decide) (by decide) (by decide!)

/-- When `sbrk` refuses, `extend_heap` returns `NULL` and changes nothing. -/
theorem extend_heap_refused (h : Heap) (last s : Nat) (href : sbrk h (s + BLOCK_SIZE) = none) :
    extend_heap h last s = (h, 0) := by
  simp only [extend_heap, href]

/-- When `sbrk` refuses the extension and no block of the chain fits, `my_malloc`
returns `NULL` and the state is the one before the call. -/
theorem my_malloc_no_growth (h : Heap) (bs : List Nat) (n s fuel : Nat)
    (hwf : wf h bs) (hs : s = align_64b (toSsize n)) (hfuel : bs.length < fuel)
    (href : sbrk h (s + BLOCK_SIZE) = none)
    (hnofit : bs.find? (fits h.mem s) = none) :
    my_malloc fuel h n = some (h, 0) := by
  subst hs
  have hext := extend_heap_refused h
  by_cases hs0 : align_64b (toSsize n) = 0
  · simp only [my_malloc, hs0, if_true]
  · by_cases hb : h.base = 0
    · simp only [my_malloc, if_neg hs0, if_pos hb, hext _ _ href, if_true]
      cases h
      simp only at hb
      simp [hb]
    · have hfb := find_block_chain h.mem h.brk (align_64b (toSsize n)) bs fuel 0 h.base 0
        hwf.1 hfuel
      obtain ⟨l, hl⟩ := scan_none _ _ _ 0 hnofit
      simp only [my_malloc, if_neg hs0, if_neg hb, hfb, hl, hext _ _ href, ne_eq,
        not_true_eq_false, if_false, if_true]

/-- C9: if `sbrk` refuses the extension, `extend_heap` returns `NULL` and
`my_malloc` returns `NULL`, and the state (memory, `base`, break) is the one
before the call, on the empty chain and when no block of the chain fits. -/
theorem my_malloc_growth_refused (h : Heap) (bs : List Nat) (n s fuel : Nat)
    (hwf : wf h bs) (hs : s = align_64b (toSsize n)) (hfuel : bs.length < fuel)
    (href : sbrk h (s + BLOCK_SIZE) = none)
    (hnofit : bs.find? (fits h.mem s) = none) :
    (∀ last, extend_heap h last s = (h, 0)) ∧ my_malloc fuel h n = some (h, 0) := by
  constructor
  · intro last
    exact extend_heap_refused h last s href
  · exact my_malloc_no_growth h bs n s fuel hwf hs hfuel href hnofit

/-- With the break at the limit `sbrk` refuses every extension. -/
theorem sbrk_at_limit (h : Heap) (hl : h.limit = h.brk) (k : Nat) (h1 : 0 < k)
    (h2 : k < 2 ^ 63) : sbrk h k = none := by
  have hk : k % W = k := Nat.mod_eq_of_lt (by simp only [W]; omega)
  simp only [sbrk, hk, hl]
  rw [if_pos h2, if_neg (by omega)]

/-- The call `my_malloc(100)` on `reuseHeap`, where no block fits and `sbrk`
grants nothing. -/
theorem my_malloc_growth_refused_witness :
    (∀ last, extend_heap reuseHeap last 104 = (reuseHeap, 0)) ∧
      my_malloc 16 reuseHeap 100 = some (reuseHeap, 0) :=
  my_malloc_growth_refused reuseHeap [4096, 4136, 4184, 4280] 100 104 16 (by decide!)
    (by decide!) (by decide) (sbrk_at_limit reuseHeap (by decide!) _ (by decide) (by decide)) (by decide!)

theorem find_last_chain (m : Mem) (brk : Nat) (bs : List Nat) :
    ∀ (fuel prev a last : Nat), chain m brk prev a bs → bs.length < fuel →
      find_last_loop fuel m a last = some (bs.getLastD last) := by
  induction bs with
  | nil =>
    intro fuel prev a last hc hf
    cases fuel with
    | zero => simp at hf
    | succ f =>
      have ha : a = 0 := hc
      simp [find_last_loop, ha]
  | cons c cs ih =>
    intro fuel prev a last hc hf
    cases fuel with
    | zero => simp at hf
    | succ f =>
      obtain ⟨hac, hc0, _, _, hrest⟩ := hc
      subst hac
      simp only [List.length_cons] at hf
      rw [find_last_loop, if_pos hc0, ih f a (next_of m a) a hrest (by omega),
        List.getLastD_cons]

/-- A result of `align_64b` is a fixed point of the alignment `my_malloc`
applies to its argument, unless it is `2^63`, which reads as negative. -/
theorem align_64b_idem (n : Nat) :
    align_64b (toSsize (align_64b (toSsize n))) = align_64b (toSsize n) ∨
    align_64b (toSsize (align_64b (toSsize n))) = 0 := by
  have hlt : toSsize n < 2 ^ 63 := by
    simp only [toSsize, W]
    split <;> omega
  by_cases h0 : toSsize n ≤ 0
  · left
    have : align_64b (toSsize n) = 0 := by simp [align_64b, h0]
    rw [this]
    decide
  · have hx : 0 < toSsize n := by omega
    have he := align_64b_pos_eq (toSsize n) hx
    have hk : (toSsize n - 1).toNat < 2 ^ 63 := by omega
    generalize (toSsize n - 1).toNat = k at he hk
    generalize align_64b (toSsize n) = a at he
    simp only [W] at he
    by_cases hbig : a < 2 ^ 63
    · left
      have hs : toSsize a = (a : Int) := by
        have : a % W < 2 ^ 63 := by simp only [W]; omega
        simp only [toSsize, if_pos this]
        simp only [W]
        omega
      have hpos : (0 : Int) < (a : Int) := by omega
      rw [hs, align_64b_pos_eq _ hpos]
      have : ((a : Int) - 1).toNat = a - 1 := by omega
      rw [this]
      simp only [W]
      omega
    · right
      have hs : toSsize a ≤ 0 := by
        have : ¬ a % W < 2 ^ 63 := by simp only [W]; omega
        simp only [toSsize, if_neg this]
        simp only [W]
        omega
      simp [align_64b, hs]

theorem get_pointer_anchor (b : Nat) (hb : b + BLOCK_SIZE < W) :
    get_pointer_to_meta_block (b + BLOCK_SIZE) = b := by
  simp only [get_pointer_to_meta_block, W, BLOCK_SIZE] at *
  omega

/-! ## Order and frames of chains -/

/-- Every block after the head of a chain starts at or above the end of the head. -/
theorem chain_gt (m : Mem) (brk : Nat) (ys : List Nat) :
    ∀ (prev a y : Nat), chain m brk prev a (y :: ys) → ∀ x, x ∈ ys →
      y + BLOCK_SIZE + size_of m y ≤ x := by
  induction ys with
  | nil => intro _ _ _ _ x hx; simp at hx
  | cons z zs ih =>
    intro prev a y hc x hx
    obtain ⟨_, _, _, hnx, hrest⟩ := hc
    have hz : next_of m y = z := hrest.1
    have hz0 : z ≠ 0 := hrest.2.1
    have hnz : next_of m y ≠ 0 := by omega
    rw [if_neg hnz] at hnx
    rcases List.mem_cons.mp hx with rfl | hx
    · omega
    · have := ih y (next_of m y) z hrest x hx
      omega

/-- Every block before `y` in a chain ends at or below `y`. -/
theorem chain_lt (m : Mem) (brk : Nat) (xs : List Nat) :
    ∀ (prev a y : Nat) (ys : List Nat), chain m brk prev a (xs ++ y :: ys) → ∀ x, x ∈ xs →
      x + BLOCK_SIZE + size_of m x ≤ y := by
  induction xs with
  | nil => intro _ _ _ _ _ x hx; simp at hx
  | cons c cs ih =>
    intro prev a y ys hc x hx
    rcases List.mem_cons.mp hx with rfl | hx
    · exact chain_gt m brk (cs ++ y :: ys) prev a x hc y (by simp)
    · exact ih c (next_of m c) y ys hc.2.2.2.2 x hx
  

/-- A chain only depends on the `size`, `next` and `prev` fields of its blocks. -/
theorem chain_congr (m n : Mem) (brk : Nat) (bs : List Nat)
    (hsame : ∀ x, x ∈ bs → size_of n x = size_of m x ∧ next_of n x = next_of m x ∧
      prev_of n x = prev_of m x) :
    ∀ (prev a : Nat), chain m brk prev a bs → chain n brk prev a bs := by
  induction bs with
  | nil => intro _ _ h; exact h
  | cons c cs ih =>
    intro prev a hc
    obtain ⟨h1, h2, h3, h4, h5⟩ := hc
    obtain ⟨e1, e2, e3⟩ := hsame c (List.mem_cons_self c cs)
    refine ⟨h1, h2, by rw [e3]; exact h3, by rw [e1, e2]; exact h4, ?_⟩
    rw [e2]
    exact ih (fun x hx => hsame x (List.mem_cons_of_mem c hx)) c (next_of m c) h5

/-- Replacing the part of a chain that starts at a given block: the blocks in
front keep their fields, and the rest is again a chain from the same block. -/
theorem chain_splice (m n : Mem) (brk : Nat) (pre rest rest2 : List Nat)
    (hsame : ∀ x, x ∈ pre → size_of n x = size_of m x ∧ next_of n x = next_of m x ∧
      prev_of n x = prev_of m x)
    (hrest : ∀ prev a, chain m brk prev a rest → chain n brk prev a rest2) :
    ∀ (prev a : Nat), chain m brk prev a (pre ++ rest) → chain n brk prev a (pre ++ rest2) := by
  induction pre with
  | nil => intro prev a hc; exact hrest prev a hc
  | cons c cs ih =>
    intro prev a hc
    obtain ⟨h1, h2, h3, h4, h5⟩ := hc
    obtain ⟨e1, e2, e3⟩ := hsame c (List.mem_cons_self c cs)
    refine ⟨h1, h2, by rw [e3]; exact h3, by rw [e1, e2]; exact h4, ?_⟩
    rw [e2]
    exact ih (fun x hx => hsame x (List.mem_cons_of_mem c hx)) c (next_of m c) h5

/-- Two memories that agree on the 32 header bytes at `x` give the same fields. -/
theorem fields_of_agree (m n : Mem) (x : Nat)
    (h : ∀ y, x ≤ y → y < x + 28 → n y = m y) :
    size_of n x = size_of m x ∧ next_of n x = next_of m x ∧ prev_of n x = prev_of m x ∧
    free_of n x = free_of m x := by
  refine ⟨?_, ?_, ?_, ?_⟩
  · exact rdN_congr 8 n m x (fun y h1 h2 => h y h1 (by omega))
  · exact rdN_congr 8 n m (x + 8) (fun y h1 h2 => h y (by omega) (by omega))
  · exact rdN_congr 8 n m (x + 16) (fun y h1 h2 => h y (by omega) (by omega))
  · exact rdN_congr 4 n m (x + 24) (fun y h1 h2 => h y (by omega) (by omega))


theorem chain_suffix (m : Mem) (brk : Nat) (pre rest : List Nat) :
    ∀ (prev a : Nat), chain m brk prev a (pre ++ rest) → ∃ p b, chain m brk p b rest := by
  induction pre with
  | nil => intro prev a hc; exact ⟨prev, a, hc⟩
  | cons c cs ih => intro prev a hc; exact ih c (next_of m c) hc.2.2.2.2

/-- The facts a chain gives about two consecutive blocks `X`, `Y`. -/
theorem chain_pair (m : Mem) (brk : Nat) (X Y : Nat) (post : List Nat) (p a : Nat)
    (hc : chain m brk p a (X :: Y :: post)) :
    a = X ∧ X ≠ 0 ∧ prev_of m X = p ∧ next_of m X = Y ∧ Y = X + BLOCK_SIZE + size_of m X ∧
    Y ≠ 0 ∧ prev_of m Y = X ∧
    (if next_of m Y = 0 then Y + BLOCK_SIZE + size_of m Y = brk
      else next_of m Y = Y + BLOCK_SIZE + size_of m Y) ∧
    chain m brk Y (next_of m Y) post := by
  obtain ⟨h1, h2, h3, h4, h5⟩ := hc
  obtain ⟨g1, g2, g3, g4, g5⟩ := h5
  have hnz : next_of m X ≠ 0 := by omega
  rw [if_neg hnz] at h4
  exact ⟨h1, h2, h3, g1, by omega, g2, g3, g4, g5⟩

/-- Absorbing block `Y` into its predecessor `X`: if the new memory gives `X`
the joint size and the successor of `Y`, points that successor back to `X`, and
otherwise differs from the old one only in the `size` and `next` fields of `X`
and the `prev` field of that successor, the chain without `Y` is a chain. -/
theorem chain_merge (m n : Mem) (brk : Nat) (pre post : List Nat) (X Y : Nat)
    (hsize : size_of n X = size_of m X + size_of m Y + BLOCK_SIZE)
    (hnext : next_of n X = next_of m Y)
    (hprev : next_of m Y ≠ 0 → prev_of n (next_of m Y) = X)
    (hagree : ∀ y, ¬ (X ≤ y ∧ y < X + 16) →
      ¬ (next_of m Y ≠ 0 ∧ next_of m Y + 16 ≤ y ∧ y < next_of m Y + 24) → n y = m y)
    (prev a : Nat) (hc : chain m brk prev a (pre ++ X :: Y :: post)) :
    chain n brk prev a (pre ++ X :: post) ∧
    free_of n X = free_of m X ∧
    ∀ x, x ∈ pre ++ post → size_of n x = size_of m x ∧ free_of n x = free_of m x := by
  obtain ⟨p, b, hsuf⟩ := chain_suffix m brk pre _ prev a hc
  obtain ⟨_, hX0, _, hXY, hY, hY0, _, hYn, hpost⟩ := chain_pair m brk X Y post p b hsuf
  have hlt := chain_lt m brk pre prev a X (Y :: post) hc
  -- the successor of `Y`, when there is one, lies above `Y`
  have hnn : next_of m Y ≠ 0 → next_of m Y = Y + BLOCK_SIZE + size_of m Y := by
    intro h0
    rw [if_neg h0] at hYn
    exact hYn
  have hgt : ∀ x, x ∈ post → next_of m Y ≠ 0 ∧
      (x = next_of m Y ∨ next_of m Y + BLOCK_SIZE ≤ x) := by
    intro x hx
    cases post with
    | nil => simp at hx
    | cons z zs =>
      have hz : next_of m Y = z := hpost.1
      have hz0 : z ≠ 0 := hpost.2.1
      refine ⟨by omega, ?_⟩
      rcases List.mem_cons.mp hx with rfl | hx
      · exact Or.inl hz.symm
      · have := chain_gt m brk zs Y (next_of m Y) z hpost x hx
        exact Or.inr (by simp only [BLOCK_SIZE] at *; omega)
  have hpre : ∀ x, x ∈ pre → size_of n x = size_of m x ∧ next_of n x = next_of m x ∧
      prev_of n x = prev_of m x ∧ free_of n x = free_of m x := by
    intro x hx
    have h1 := hlt x hx
    apply fields_of_agree
    intro y hy1 hy2
    apply hagree
    · simp only [BLOCK_SIZE] at *; omega
    · intro ⟨h0, h2, h3⟩
      have := hnn h0
      simp only [BLOCK_SIZE] at *
      omega
  have hfar : ∀ x, x ∈ post → next_of m Y + BLOCK_SIZE ≤ x →
      size_of n x = size_of m x ∧ next_of n x = next_of m x ∧
      prev_of n x = prev_of m x ∧ free_of n x = free_of m x := by
    intro x hx hge
    have h0 := (hgt x hx).1
    have h1 := hnn h0
    apply fields_of_agree
    intro y hy1 hy2
    apply hagree
    · simp only [BLOCK_SIZE] at *; omega
    · intro ⟨_, h2, h3⟩
      simp only [BLOCK_SIZE] at *
      omega
  have hnear : next_of m Y ≠ 0 → size_of n (next_of m Y) = size_of m (next_of m Y) ∧
      next_of n (next_of m Y) = next_of m (next_of m Y) ∧
      free_of n (next_of m Y) = free_of m (next_of m Y) := by
    intro h0
    have h1 := hnn h0
    have hag : ∀ y, (next_of m Y ≤ y ∧ y < next_of m Y + 16) ∨
        (next_of m Y + 24 ≤ y ∧ y < next_of m Y + 28) → n y = m y := by
      intro y hy
      apply hagree
      · simp only [BLOCK_SIZE] at *; omega
      · omega
    refine ⟨?_, ?_, ?_⟩
    · exact rdN_congr 8 n m _ (fun y h1 h2 => hag y (by omega))
    · exact rdN_congr 8 n m _ (fun y h1 h2 => hag y (by omega))
    · exact rdN_congr 4 n m _ (fun y h1 h2 => hag y (by omega))
  refine ⟨?_, ?_, ?_⟩
  · refine chain_splice m n brk pre (X :: Y :: post) (X :: post)
      (fun x hx => ⟨(hpre x hx).1, (hpre x hx).2.1, (hpre x hx).2.2.1⟩) ?_ prev a hc
    intro q c hq
    obtain ⟨e1, e2, e3, e4, e5, e6, e7, e8, e9⟩ := chain_pair m brk X Y post q c hq
    have hpX : prev_of n X = prev_of m X :=
      rdN_congr 8 n m _ (fun y h1 h2 => hagree y (by omega) (by
        intro ⟨h0, h2, h3⟩
        have := hnn h0
        simp only [BLOCK_SIZE] at *
        omega))
    refine ⟨e1, e2, by rw [hpX]; exact e3, ?_, ?_⟩
    · rw [hnext, hsize]
      by_cases h0 : next_of m Y = 0
      · rw [if_pos h0] at e8 ⊢
        simp only [BLOCK_SIZE] at *
        omega
      · rw [if_neg h0] at e8 ⊢
        simp only [BLOCK_SIZE] at *
        omega
    · rw [hnext]
      cases post with
      | nil => exact e9
      | cons z zs =>
        obtain ⟨k1, k2, _, k4, k5⟩ := e9
        have hz : next_of m Y ≠ 0 := by omega
        obtain ⟨s1, s2, _⟩ := hnear hz
        rw [k1] at s1 s2
        refine ⟨k1, k2, ?_, by rw [s1, s2]; exact k4, ?_⟩
        · have := hprev hz
          rw [k1] at this
          exact this
        · rw [s2]
          refine chain_congr m n brk zs (fun x hx => ?_) z (next_of m z) k5
          have hge := chain_gt m brk zs Y (next_of m Y) z
            ⟨k1, k2, by assumption, k4, k5⟩ x hx
          have := hfar x (List.mem_cons_of_mem z hx) (by
            rw [k1]
            simp only [BLOCK_SIZE] at *
            omega)
          exact ⟨this.1, this.2.1, this.2.2.1⟩
  · exact rdN_congr 4 n m _ (fun y h1 h2 => hagree y (by omega) (by
      intro ⟨h0, h2, h3⟩
      have := hnn h0
      simp only [BLOCK_SIZE] at *
      omega))
  · intro x hx
    rcases List.mem_append.mp hx with hx | hx
    · exact ⟨(hpre x hx).1, (hpre x hx).2.2.2⟩
    · obtain ⟨h0, hcase⟩ := hgt x hx
      rcases hcase with rfl | hge
      · exact ⟨(hnear h0).1, (hnear h0).2.2⟩
      · exact ⟨(hfar x hx hge).1, (hfar x hx hge).2.2.2⟩


/-! ## The two merging steps of `fusion` -/

/-- The forward step on a block `X` whose successor `Y` is free: `X` gets the
joint size and the successor of `Y`, which is pointed back to `X`; nothing else
changes. -/
theorem fusion_fwd_merge (m : Mem) (X : Nat)
    (hY : next_of m X = X + BLOCK_SIZE + size_of m X)
    (hfree : free_of m (next_of m X) ≠ 0)
    (hnn : next_of m (next_of m X) = 0 ∨ next_of m (next_of m X) =
      next_of m X + BLOCK_SIZE + size_of m (next_of m X))
    (hW : next_of m X + BLOCK_SIZE + size_of m (next_of m X) < W) :
    (fusion_fwd m X).2 = true ∧
    size_of (fusion_fwd m X).1 X = size_of m X + size_of m (next_of m X) + BLOCK_SIZE ∧
    next_of (fusion_fwd m X).1 X = next_of m (next_of m X) ∧
    (next_of m (next_of m X) ≠ 0 →
      prev_of (fusion_fwd m X).1 (next_of m (next_of m X)) = X) ∧
    ∀ y, ¬ (X ≤ y ∧ y < X + 16) →
      ¬ (next_of m (next_of m X) ≠ 0 ∧ next_of m (next_of m X) + 16 ≤ y ∧
        y < next_of m (next_of m X) + 24) → (fusion_fwd m X).1 y = m y := by
  have hcond : next_of m X ≠ 0 ∧ free_of m (next_of m X) ≠ 0 :=
    ⟨by rw [hY]; simp only [BLOCK_SIZE]; omega, hfree⟩
  generalize hYdef : next_of m X = Y at *
  generalize hsXdef : size_of m X = sX at *
  generalize hsYdef : size_of m Y = sY at *
  generalize hnndef : next_of m Y = nn at *
  have hmem : (fusion_fwd m X).1 =
      if nn ≠ 0 then set_prev (set_next (set_size m X (sX + (sY + BLOCK_SIZE))) X nn) nn X
      else set_next (set_size m X (sX + (sY + BLOCK_SIZE))) X nn := by
    have hnnlt : nn < W := hnndef ▸ next_of_lt m Y
    simp only [size_of, next_of] at hYdef hsXdef hsYdef hnndef
    simp only [W, BLOCK_SIZE] at *
    simp (disch := omega) only [fusion_fwd, size_of, next_of, prev_of, set_size,
      set_next, set_prev, rdN_wrN_disj, rd64_wr64, hYdef, hsXdef, hsYdef, hnndef, hcond,
      W, BLOCK_SIZE, ne_eq, not_false_eq_true, and_self, if_true, Nat.mod_eq_of_lt]
  have hnnlt : nn < W := hnndef ▸ next_of_lt m Y
  refine ⟨by simp [fusion_fwd, hYdef, hcond], ?_, ?_, ?_, ?_⟩
  · rw [hmem]
    simp only [W, BLOCK_SIZE] at *
    split
    · simp (disch := omega) only [size_of, set_size, set_next, set_prev, rdN_wrN_disj,
        rd64_wr64, W, Nat.mod_eq_of_lt]
      omega
    · simp (disch := omega) only [size_of, set_size, set_next, set_prev, rdN_wrN_disj,
        rd64_wr64, W, Nat.mod_eq_of_lt]
      omega
  · rw [hmem]
    simp only [W, BLOCK_SIZE] at *
    split
    · simp (disch := omega) only [next_of, set_size, set_next, set_prev, rdN_wrN_disj,
        rd64_wr64, W, Nat.mod_eq_of_lt]
    · simp (disch := omega) only [next_of, set_size, set_next, set_prev, rdN_wrN_disj,
        rd64_wr64, W, Nat.mod_eq_of_lt]
  · intro h0
    rw [hmem, if_pos h0]
    simp only [W, BLOCK_SIZE] at *
    simp (disch := omega) only [prev_of, set_prev, rd64_wr64, W, Nat.mod_eq_of_lt]
  · intro y h1 h2
    rw [hmem]
    split
    · simp only [set_prev, set_next, set_size, wrN_apply]
      rw [if_neg (by omega), if_neg (by omega), if_neg (by omega)]
    · simp only [set_next, set_size, wrN_apply]
      rw [if_neg (by omega), if_neg (by omega)]


/-- The backward step on a block `B` whose predecessor `P` is free: `P` gets the
joint size and the successor of `B`, which is pointed back to `P`; nothing else
changes, and the step continues with `P`. -/
theorem fusion_bck_merge (m : Mem) (B : Nat) (ok : Bool)
    (hP : prev_of m B ≠ 0)
    (hfree : free_of m (prev_of m B) ≠ 0)
    (hB : B = prev_of m B + BLOCK_SIZE + size_of m (prev_of m B))
    (hnb : next_of m B = 0 ∨ next_of m B = B + BLOCK_SIZE + size_of m B)
    (hW : B + BLOCK_SIZE + size_of m B < W) :
    (fusion_bck m B ok).2 = (prev_of m B, true) ∧
    size_of (fusion_bck m B ok).1 (prev_of m B) =
      size_of m (prev_of m B) + size_of m B + BLOCK_SIZE ∧
    next_of (fusion_bck m B ok).1 (prev_of m B) = next_of m B ∧
    (next_of m B ≠ 0 → prev_of (fusion_bck m B ok).1 (next_of m B) = prev_of m B) ∧
    ∀ y, ¬ (prev_of m B ≤ y ∧ y < prev_of m B + 16) →
      ¬ (next_of m B ≠ 0 ∧ next_of m B + 16 ≤ y ∧ y < next_of m B + 24) →
      (fusion_bck m B ok).1 y = m y := by
  have hcond : prev_of m B ≠ 0 ∧ free_of m (prev_of m B) ≠ 0 := ⟨hP, hfree⟩
  generalize hPdef : prev_of m B = P at *
  generalize hsPdef : size_of m P = sP at *
  generalize hsBdef : size_of m B = sB at *
  generalize hnbdef : next_of m B = nb at *
  have hnblt : nb < W := hnbdef ▸ next_of_lt m B
  have hmem : fusion_bck m B ok =
      (set_next (if nb ≠ 0 then set_prev (set_size m P (sP + (sB + BLOCK_SIZE))) nb P
        else set_size m P (sP + (sB + BLOCK_SIZE))) P nb, P, true) := by
    simp only [size_of, next_of, prev_of] at hPdef hsPdef hsBdef hnbdef
    simp only [W, BLOCK_SIZE] at *
    by_cases h0 : nb = 0
    · simp (disch := omega) only [fusion_bck, size_of, next_of, prev_of, set_size,
        set_next, set_prev, rdN_wrN_disj, rd64_wr64, hPdef, hsPdef, hsBdef, hnbdef, hcond,
        W, BLOCK_SIZE, ne_eq, not_false_eq_true, and_self, if_true, Nat.mod_eq_of_lt, h0,
        not_true_eq_false, if_false]
    · simp (disch := omega) only [fusion_bck, size_of, next_of, prev_of, set_size,
        set_next, set_prev, rdN_wrN_disj, rd64_wr64, hPdef, hsPdef, hsBdef, hnbdef, hcond,
        W, BLOCK_SIZE, ne_eq, not_false_eq_true, and_self, if_true, Nat.mod_eq_of_lt, h0]
  rw [hmem]
  refine ⟨rfl, ?_, ?_, ?_, ?_⟩
  · simp only [W, BLOCK_SIZE] at *
    split
    · simp (disch := omega) only [size_of, set_size, set_next, set_prev, rdN_wrN_disj,
        rd64_wr64, W, Nat.mod_eq_of_lt]
      omega
    · simp (disch := omega) only [size_of, set_size, set_next, set_prev, rdN_wrN_disj,
        rd64_wr64, W, Nat.mod_eq_of_lt]
      omega
  · simp only [W, BLOCK_SIZE] at *
    simp (disch := omega) only [next_of, set_next, rd64_wr64, W, Nat.mod_eq_of_lt]
  · intro h0
    simp only [W, BLOCK_SIZE] at *
    simp (disch := omega) only [if_pos h0, prev_of, set_prev, set_next, rdN_wrN_disj,
      rd64_wr64, W, Nat.mod_eq_of_lt]
  · intro y h1 h2
    split
    · simp only [set_prev, set_next, set_size, wrN_apply]
      rw [if_neg (by omega), if_neg (by omega), if_neg (by omega)]
    · simp only [set_next, set_size, wrN_apply]
      rw [if_neg (by omega), if_neg (by omega)]

theorem fusion_fwd_none (m : Mem) (X : Nat)
    (h : next_of m X = 0 ∨ free_of m (next_of m X) = 0) : fusion_fwd m X = (m, false) := by
  have : ¬ (next_of m X ≠ 0 ∧ free_of m (next_of m X) ≠ 0) := by
    rcases h with h | h <;> simp [h]
  simp [fusion_fwd, this]

theorem fusion_bck_none (m : Mem) (B : Nat) (ok : Bool)
    (h : prev_of m B = 0 ∨ free_of m (prev_of m B) = 0) : fusion_bck m B ok = (m, B, ok) := by
  have : ¬ (prev_of m B ≠ 0 ∧ free_of m (prev_of m B) ≠ 0) := by
    rcases h with h | h <;> simp [h]
  simp [fusion_bck, this]


theorem runSize_congr (m n : Mem) (xs : List Nat)
    (h : ∀ x, x ∈ xs → size_of n x = size_of m x ∧ free_of n x = free_of m x) :
    runSize n xs = runSize m xs := by
  induction xs with
  | nil => rfl
  | cons c cs ih =>
    obtain ⟨e1, e2⟩ := h c (List.mem_cons_self c cs)
    simp only [runSize, e1, e2, ih (fun x hx => h x (List.mem_cons_of_mem c hx))]

/-- The forward step of `fusion` on a block of a chain: either the successor is
missing or allocated and nothing happens, or the free successor is absorbed. -/
theorem fusion_fwd_chain (m : Mem) (brk : Nat) (pre post : List Nat) (B prev a : Nat)
    (hbrk : brk < W) (hc : chain m brk prev a (pre ++ B :: post)) :
    (fusion_fwd m B = (m, false) ∧ runSize m post = 0 ∧
      (next_of m B = 0 ∨ free_of m (next_of m B) = 0)) ∨
    (∃ n rest, post = n :: rest ∧ free_of m n ≠ 0 ∧ (fusion_fwd m B).2 = true ∧
      chain (fusion_fwd m B).1 brk prev a (pre ++ B :: rest) ∧
      size_of (fusion_fwd m B).1 B = size_of m B + size_of m n + BLOCK_SIZE ∧
      free_of (fusion_fwd m B).1 B = free_of m B ∧
      ∀ x, x ∈ pre ++ rest → size_of (fusion_fwd m B).1 x = size_of m x ∧
        free_of (fusion_fwd m B).1 x = free_of m x) := by
  obtain ⟨p, b, hsuf⟩ := chain_suffix m brk pre _ prev a hc
  cases post with
  | nil =>
    left
    have h0 : next_of m B = 0 := hsuf.2.2.2.2
    exact ⟨fusion_fwd_none m B (Or.inl h0), rfl, Or.inl h0⟩
  | cons n rest =>
    obtain ⟨_, _, _, hBn, hn, _, _, hnn, _⟩ := chain_pair m brk B n rest p b hsuf
    by_cases hfree : free_of m n = 0
    · left
      refine ⟨fusion_fwd_none m B (Or.inr (by rw [hBn]; exact hfree)), ?_,
        Or.inr (by rw [hBn]; exact hfree)⟩
      simp [runSize, hfree]
    · right
      have hnend := (chain_mem m brk _ prev a hc n (by simp)).2.1
      have hnn2 : next_of m n = 0 ∨ next_of m n = n + BLOCK_SIZE + size_of m n := by
        by_cases h0 : next_of m n = 0
        · exact Or.inl h0
        · rw [if_neg h0] at hnn
          exact Or.inr hnn
      obtain ⟨f1, f2, f3, f4, f5⟩ := fusion_fwd_merge m B (by rw [hBn]; exact hn)
        (by rw [hBn]; exact hfree) (by rw [hBn]; exact hnn2) (by rw [hBn]; omega)
      rw [hBn] at f2 f3 f4 f5
      obtain ⟨g1, g2, g3⟩ := chain_merge m (fusion_fwd m B).1 brk pre rest B n f2 f3 f4 f5
        prev a hc
      exact ⟨n, rest, rfl, hfree, f1, g1, f2, g2, g3⟩

/-- The backward step of `fusion` on a block of a chain that starts with
predecessor `NULL`: either the predecessor is missing or allocated and nothing
happens, or the block is absorbed into its free predecessor. -/
theorem fusion_bck_chain (m : Mem) (brk : Nat) (pre post : List Nat) (B a : Nat) (ok : Bool)
    (hbrk : brk < W) (hc : chain m brk 0 a (pre ++ B :: post)) :
    (fusion_bck m B ok = (m, B, ok) ∧ runSize m pre.reverse = 0 ∧
      (prev_of m B = 0 ∨ free_of m (prev_of m B) = 0)) ∨
    (∃ P front, pre = front ++ [P] ∧ free_of m P ≠ 0 ∧
      (fusion_bck m B ok).2 = (P, true) ∧
      chain (fusion_bck m B ok).1 brk 0 a (front ++ P :: post) ∧
      size_of (fusion_bck m B ok).1 P = size_of m P + size_of m B + BLOCK_SIZE ∧
      free_of (fusion_bck m B ok).1 P = free_of m P ∧
      ∀ x, x ∈ front ++ post → size_of (fusion_bck m B ok).1 x = size_of m x ∧
        free_of (fusion_bck m B ok).1 x = free_of m x) := by
  rcases List.eq_nil_or_concat pre with hnil | ⟨front, P, hpre⟩
  · left
    subst hnil
    have h0 : prev_of m B = 0 := hc.2.2.1
    exact ⟨fusion_bck_none m B ok (Or.inl h0), rfl, Or.inl h0⟩
  · rw [List.concat_eq_append] at hpre
    subst hpre
    have hc2 : chain m brk 0 a (front ++ P :: B :: post) := by
      simpa [List.append_assoc] using hc
    obtain ⟨p, b, hsuf⟩ := chain_suffix m brk front _ 0 a hc2
    obtain ⟨_, hP0, _, _, hBP, _, hpB, hnb, _⟩ := chain_pair m brk P B post p b hsuf
    by_cases hfree : free_of m P = 0
    · left
      refine ⟨fusion_bck_none m B ok (Or.inr (by rw [hpB]; exact hfree)), ?_,
        Or.inr (by rw [hpB]; exact hfree)⟩
      simp [runSize, hfree]
    · right
      have hBend := (chain_mem m brk _ 0 a hc2 B (by simp)).2.1
      have hnb2 : next_of m B = 0 ∨ next_of m B = B + BLOCK_SIZE + size_of m B := by
        by_cases h0 : next_of m B = 0
        · exact Or.inl h0
        · rw [if_neg h0] at hnb
          exact Or.inr hnb
      obtain ⟨f1, f2, f3, f4, f5⟩ := fusion_bck_merge m B ok (by rw [hpB]; exact hP0)
        (by rw [hpB]; exact hfree) (by rw [hpB]; exact hBP) hnb2 (by omega)
      rw [hpB] at f1 f2 f3 f4 f5
      obtain ⟨g1, g2, g3⟩ := chain_merge m (fusion_bck m B ok).1 brk front post P B f2 f3 f4 f5
        0 a hc2
      exact ⟨P, front, rfl, hfree, f1, g1, f2, g2, g3⟩


theorem runSize_reverse_concat (m : Mem) (front : List Nat) (P : Nat) (h : free_of m P ≠ 0) :
    runSize m (front ++ [P]).reverse = size_of m P + BLOCK_SIZE + runSize m front.reverse := by
  simp [runSize, h]

/-- One round of `fusion` (forward step, then backward step) on a block of a
chain: the result is again a block of a chain, the extent accounted for by the
block and the free runs around it is unchanged, and the other blocks keep
their sizes and flags.  If the round reports no merge, nothing has changed and
neither neighbour of the block is free. -/
theorem fusion_round (m : Mem) (brk : Nat) (pre post : List Nat) (B a : Nat)
    (hbrk : brk < W) (hc : chain m brk 0 a (pre ++ B :: post)) :
    ∃ pre2 post2,
      chain (fusion_bck (fusion_fwd m B).1 B (fusion_fwd m B).2).1 brk 0 a
        (pre2 ++ (fusion_bck (fusion_fwd m B).1 B (fusion_fwd m B).2).2.1 :: post2) ∧
      size_of (fusion_bck (fusion_fwd m B).1 B (fusion_fwd m B).2).1
          (fusion_bck (fusion_fwd m B).1 B (fusion_fwd m B).2).2.1 +
        runSize m post2 + runSize m pre2.reverse =
        size_of m B + runSize m post + runSize m pre.reverse ∧
      free_of (fusion_bck (fusion_fwd m B).1 B (fusion_fwd m B).2).1
          (fusion_bck (fusion_fwd m B).1 B (fusion_fwd m B).2).2.1 =
        free_of m (fusion_bck (fusion_fwd m B).1 B (fusion_fwd m B).2).2.1 ∧
      ((fusion_bck (fusion_fwd m B).1 B (fusion_fwd m B).2).2.1 = B ∨
        ((fusion_bck (fusion_fwd m B).1 B (fusion_fwd m B).2).2.1 ∈ pre ∧
          free_of m (fusion_bck (fusion_fwd m B).1 B (fusion_fwd m B).2).2.1 ≠ 0)) ∧
      (∀ x, x ∈ pre2 ++ post2 → x ∈ pre ++ post ∧
        size_of (fusion_bck (fusion_fwd m B).1 B (fusion_fwd m B).2).1 x = size_of m x ∧
        free_of (fusion_bck (fusion_fwd m B).1 B (fusion_fwd m B).2).1 x = free_of m x) ∧
      ((fusion_bck (fusion_fwd m B).1 B (fusion_fwd m B).2).2.2 = true →
        pre2.length + post2.length < pre.length + post.length) ∧
      ((fusion_bck (fusion_fwd m B).1 B (fusion_fwd m B).2).2.2 = false →
        fusion_bck (fusion_fwd m B).1 B (fusion_fwd m B).2 = (m, B, false) ∧
        pre2 = pre ∧ post2 = post ∧ runSize m post = 0 ∧ runSize m pre.reverse = 0 ∧
        (next_of m B = 0 ∨ free_of m (next_of m B) = 0) ∧
        (prev_of m B = 0 ∨ free_of m (prev_of m B) = 0)) := by
  rcases fusion_fwd_chain m brk pre post B 0 a hbrk hc with
    ⟨hf, hr, hn⟩ | ⟨n, rest, hpost, hfree, hok, hch1, hsz1, hfr1, hframe1⟩
  · rw [hf]
    rcases fusion_bck_chain m brk pre post B a false hbrk hc with
      ⟨hb, hrp, hp⟩ | ⟨P, front, hpre, hfreeP, hres, hch2, hsz2, hfr2, hframe2⟩
    · rw [hb]
      exact ⟨pre, post, hc, rfl, rfl, Or.inl rfl, fun x hx => ⟨hx, rfl, rfl⟩,
        fun h => by simp at h, fun _ => ⟨rfl, rfl, rfl, hr, hrp, hn, hp⟩⟩
    · have e1 : (fusion_bck m B false).2.1 = P := by rw [hres]
      have e2 : (fusion_bck m B false).2.2 = true := by rw [hres]
      rw [e1, e2]
      refine ⟨front, post, hch2, ?_, hfr2, Or.inr ⟨by simp [hpre], hfreeP⟩, ?_, ?_, ?_⟩
      · rw [hsz2, hpre, runSize_reverse_concat m front P hfreeP]
        omega
      · intro x hx
        refine ⟨?_, hframe2 x hx⟩
        rw [hpre]
        simp only [List.mem_append, List.mem_singleton] at hx ⊢
        tauto
      · intro _
        simp [hpre]
      · intro h
        simp at h
  · rw [hok]
    have hrun : runSize m post = size_of m n + BLOCK_SIZE + runSize m rest := by
      simp [hpost, runSize, hfree]
    have hrest : ∀ x, x ∈ rest → size_of (fusion_fwd m B).1 x = size_of m x ∧
        free_of (fusion_fwd m B).1 x = free_of m x :=
      fun x hx => hframe1 x (List.mem_append_right pre hx)
    have hfront : ∀ x, x ∈ pre → size_of (fusion_fwd m B).1 x = size_of m x ∧
        free_of (fusion_fwd m B).1 x = free_of m x :=
      fun x hx => hframe1 x (List.mem_append_left rest hx)
    rcases fusion_bck_chain (fusion_fwd m B).1 brk pre rest B a true hbrk hch1 with
      ⟨hb, hrp, hp⟩ | ⟨P, front, hpre, hfreeP, hres, hch2, hsz2, hfr2, hframe2⟩
    · rw [hb]
      have hrp2 : runSize m pre.reverse = 0 := by
        rw [← hrp]
        exact (runSize_congr m _ pre.reverse (fun x hx => hfront x (by simpa using hx))).symm
      refine ⟨pre, rest, hch1, ?_, hfr1, Or.inl rfl, ?_, ?_, ?_⟩
      · rw [hsz1, hrun, hrp2]
        omega
      · intro x hx
        refine ⟨?_, hframe1 x hx⟩
        rw [hpost]
        simp only [List.mem_append, List.mem_cons] at hx ⊢
        tauto
      · intro _
        simp [hpost]
      · intro h
        simp at h
    · have e1 : (fusion_bck (fusion_fwd m B).1 B true).2.1 = P := by rw [hres]
      have e2 : (fusion_bck (fusion_fwd m B).1 B true).2.2 = true := by rw [hres]
      rw [e1, e2]
      have hPpre : P ∈ pre := by simp [hpre]
      have hfreeP2 : free_of m P ≠ 0 := by
        rw [← (hfront P hPpre).2]
        exact hfreeP
      refine ⟨front, rest, hch2, ?_, ?_, Or.inr ⟨hPpre, hfreeP2⟩, ?_, ?_, ?_⟩
      · rw [hsz2, hsz1, (hfront P hPpre).1, hrun, hpre,
          runSize_reverse_concat m front P hfreeP2]
        omega
      · rw [hfr2, (hfront P hPpre).2]
      · intro x hx
        have hx1 : x ∈ pre ++ rest := by
          rw [hpre]
          simp only [List.mem_append, List.mem_singleton] at hx ⊢
          tauto
        refine ⟨?_, ?_, ?_⟩
        · rw [hpost]
          simp only [List.mem_append, List.mem_cons] at hx1 ⊢
          tauto
        · rw [(hframe2 x hx).1, (hframe1 x hx1).1]
        · rw [(hframe2 x hx).2, (hframe1 x hx1).2]
      · intro _
        simp [hpre, hpost]
        omega
      · intro h
        simp at h


/-- On a block `B` of a chain, `fusion(B, 1)` returns, given fuel above the
number of the other blocks: the result is a block of a chain over the same
region, it is `B` or a free block in front of `B`, its size is the size of `B`
plus the extents of the free runs on both sides, its flag is untouched, the
blocks that remain keep their sizes and flags, and neither neighbour of the
result is free. -/
theorem fusion_chain (brk a : Nat) (hbrk : brk < W) :
    ∀ (fuel : Nat) (m : Mem) (pre post : List Nat) (B : Nat),
      chain m brk 0 a (pre ++ B :: post) → pre.length + post.length < fuel →
      ∃ m2 b2 pre2 post2, fusion fuel m B true = some (m2, b2) ∧
        chain m2 brk 0 a (pre2 ++ b2 :: post2) ∧
        size_of m2 b2 = size_of m B + runSize m post + runSize m pre.reverse ∧
        free_of m2 b2 = free_of m b2 ∧
        (b2 = B ∨ (b2 ∈ pre ∧ free_of m b2 ≠ 0)) ∧
        (∀ x, x ∈ pre2 ++ post2 → x ∈ pre ++ post ∧ size_of m2 x = size_of m x ∧
          free_of m2 x = free_of m x) ∧
        pre2.length + post2.length ≤ pre.length + post.length ∧
        (next_of m2 b2 = 0 ∨ free_of m2 (next_of m2 b2) = 0) ∧
        (prev_of m2 b2 = 0 ∨ free_of m2 (prev_of m2 b2) = 0) := by
  intro fuel
  induction fuel with
  | zero => intro m pre post B _ hf; omega
  | succ f ih =>
    intro m pre post B hc hf
    obtain ⟨pre1, post1, hch, hsz, hfr, hwho, hframe, hlt, hstop⟩ :=
      fusion_round m brk pre post B a hbrk hc
    generalize hr : fusion_bck (fusion_fwd m B).1 B (fusion_fwd m B).2 = r at *
    obtain ⟨m1, b1, ok⟩ := r
    have hfus : fusion (f + 1) m B true =
        if ok then fusion f m1 b1 true else some (m1, b1) := by
      simp [fusion, hr]
    simp only at hch hsz hfr hwho hframe hlt hstop
    rw [hfus]
    cases ok with
    | false =>
      obtain ⟨heq, hp1, hp2, hz1, hz2, hnx, hpv⟩ := hstop rfl
      have hm : m1 = m := congrArg Prod.fst heq
      have hb : b1 = B := congrArg (fun r => r.2.1) heq
      subst hm hb hp1 hp2
      refine ⟨m1, b1, pre1, post1, by simp, hch, ?_, rfl, Or.inl rfl,
        fun x hx => ⟨hx, rfl, rfl⟩, Nat.le_refl _, hnx, hpv⟩
      omega
    | true =>
      have hlen := hlt rfl
      obtain ⟨m2, b2, pre2, post2, g1, g2, g3, g4, g5, g6, g7, g8, g9⟩ :=
        ih m1 pre1 post1 b1 hch (by omega)
      have hr1 : runSize m1 post1 = runSize m post1 :=
        runSize_congr m m1 post1 (fun x hx => (hframe x (List.mem_append_right pre1 hx)).2)
      have hr2 : runSize m1 pre1.reverse = runSize m pre1.reverse :=
        runSize_congr m m1 pre1.reverse
          (fun x hx => (hframe x (List.mem_append_left post1 (by simpa using hx))).2)
      have hb1 : free_of m1 b2 = free_of m b2 ∧ (b2 = B ∨ (b2 ∈ pre ∧ free_of m b2 ≠ 0)) := by
        rcases g5 with rfl | ⟨hin, hne⟩
        · exact ⟨hfr, hwho⟩
        · have hx := hframe b2 (List.mem_append_left post1 hin)
          have hmem : b2 ∈ pre ++ post := hx.1
          refine ⟨hx.2.2, Or.inr ⟨?_, by rw [← hx.2.2]; exact hne⟩⟩
          -- a block in front of the current one is in front of `B`
          rcases List.mem_append.mp hmem with h | h
          · exact h
          · exfalso
            have hlt1 := chain_lt m1 brk pre1 0 a b1 post1 hch b2 hin
            rcases hwho with rfl | ⟨hb1pre, _⟩
            · obtain ⟨q, c, hq⟩ := chain_suffix m brk pre (b1 :: post) 0 a hc
              have := chain_gt m brk post q c b1 hq b2 h
              simp only [BLOCK_SIZE] at *
              omega
            · obtain ⟨l1, l2, hsplit⟩ := List.append_of_mem hb1pre
              have hc3 : chain m brk 0 a (l1 ++ b1 :: (l2 ++ B :: post)) := by
                rw [hsplit] at hc
                simpa [List.append_assoc] using hc
              obtain ⟨q, c, hq⟩ := chain_suffix m brk l1 _ 0 a hc3
              have := chain_gt m brk (l2 ++ B :: post) q c b1 hq b2 (by simp [h])
              simp only [BLOCK_SIZE] at *
              omega
      refine ⟨m2, b2, pre2, post2, g1, g2, ?_, by rw [g4, hb1.1], hb1.2, ?_, by omega, g8, g9⟩
      · rw [g3, hr1, hr2]
        omega
      · intro x hx
        obtain ⟨k1, k2, k3⟩ := g6 x hx
        obtain ⟨j1, j2, j3⟩ := hframe x k1
        exact ⟨j1, by rw [k2, j2], by rw [k3, j3]⟩


/-! ## Reallocation when the system grants no growth -/

theorem limit_le_of_refused (h : Heap) (href : ∀ k, 0 < k → k < 2 ^ 63 → sbrk h k = none) :
    h.limit ≤ h.brk := by
  have h1 := href 1 (by decide) (by decide)
  simp only [sbrk, W] at h1
  split at h1
  · split at h1
    · exact absurd h1 (by simp)
    · omega
  · omega

theorem sbrk_refused (h : Heap) (hlimit : h.limit ≤ h.brk)
    (hlim : h.limit + BLOCK_SIZE < 2 ^ 63) (hbrk : h.brk ≤ h.limit) (k : Nat)
    (hk : k ≤ 2 ^ 63) : sbrk h (k + BLOCK_SIZE) = none := by
  simp only [sbrk, W, BLOCK_SIZE] at *
  split
  · rw [if_neg (by omega)]
  · rw [if_neg (by omega)]

theorem my_free_null_anchor (fuel : Nat) (h : Heap) (hb : h.base ≠ 0 → BLOCK_SIZE ≤ h.base) :
    my_free fuel h (anchor 0) = some h := by
  have : valid_addr h (anchor 0) = false := by
    rw [valid_addr_eq h (anchor 0) (by decide)]
    have h32 : anchor 0 = 32 := by decide
    simp only [h32, BLOCK_SIZE] at *
    simp
    omega
  simp [my_free, this]

/-- C10 (amended): if `sbrk` refuses every extension, the heap is well formed,
`p` is the valid pointer of a live block `B` that stays smaller than
`s = align_64b(n)` even when the free runs on both sides are added to it, and no
free block of the chain has size `>= s`, then `my_realloc(p, n)` returns `NULL`;
`base` and the break are as before. -/
theorem my_realloc_growth_refused (h : Heap) (pre post : List Nat) (n s fuel B : Nat)
    (hwf : wf h (pre ++ B :: post)) (hs : s = align_64b (toSsize n))
    (hfuel : (pre ++ B :: post).length < fuel)
    (hlive : free_of h.mem B = 0)
    (hvalid : valid_addr h (B + BLOCK_SIZE) = true)
    (href : ∀ k, 0 < k → k < 2 ^ 63 → sbrk h k = none)
    (hmerge : size_of h.mem B + runSize h.mem post + runSize h.mem pre.reverse < s)
    (hnofit : (pre ++ B :: post).find? (fits h.mem s) = none) :
    ∃ m2, my_realloc fuel h (B + BLOCK_SIZE) n = some ({ h with mem := m2 }, 0) := by
  have _ := hlive
  subst hs
  obtain ⟨hch, hbase32, hbrk, hlim⟩ := hwf
  have hB : B ∈ pre ++ B :: post := by simp
  obtain ⟨hB0, hBend, _⟩ := chain_mem _ _ _ _ _ hch B hB
  have hlimit := limit_le_of_refused h href
  have hM := size_of_lt h.mem B
  have hbrkW : h.brk < W := by simp only [W, BLOCK_SIZE] at *; omega
  simp only [List.length_append, List.length_cons] at hfuel
  -- the scratch block is refused
  have hfl : find_last_block fuel h = some ((pre ++ B :: post).getLastD 0) :=
    find_last_chain h.mem h.brk _ fuel 0 h.base 0 hch (by simp; omega)
  have hsc : extend_heap h ((pre ++ B :: post).getLastD 0) (size_of h.mem B) = (h, 0) :=
    extend_heap_refused h _ _ (sbrk_refused h hlimit hlim hbrk (size_of h.mem B)
      (by simp only [W, BLOCK_SIZE] at *; omega))
  have hcopy : copy_block fuel h.mem B 0 = some h.mem := by simp [copy_block]
  -- coalescing leaves a chain in which nothing fits
  obtain ⟨m2, b2, pre2, post2, g1, g2, g3, g4, g5, g6, g7, _, _⟩ :=
    fusion_chain h.brk h.base hbrkW fuel h.mem pre post B hch (by omega)
  have hnot2 : ¬ size_of m2 b2 ≥ align_64b (toSsize n) := by omega
  have hall : ∀ x, x ∈ pre ++ B :: post → fits h.mem (align_64b (toSsize n)) x = false := by
    intro x hx
    have := List.find?_eq_none.mp hnofit x hx
    simpa using this
  have hnofit2 : (pre2 ++ b2 :: post2).find? (fits m2 (align_64b (toSsize n))) = none := by
    apply List.find?_eq_none.mpr
    intro x hx
    have hcase : x = b2 ∨ x ∈ pre2 ++ post2 := by
      rcases List.mem_append.mp hx with h1 | h1
      · exact Or.inr (List.mem_append_left _ h1)
      · rcases List.mem_cons.mp h1 with h2 | h2
        · exact Or.inl h2
        · exact Or.inr (List.mem_append_right _ h2)
    rcases hcase with rfl | hx2
    · simp [fits]
      intro _
      omega
    · obtain ⟨k1, k2, k3⟩ := g6 x hx2
      have hx3 : x ∈ pre ++ B :: post := by
        rcases List.mem_append.mp k1 with h1 | h1
        · exact List.mem_append_left _ h1
        · exact List.mem_append_right _ (List.mem_cons_of_mem B h1)
      have := hall x hx3
      simp only [fits, k2, k3] at this ⊢
      simpa using this
  have hwf2 : wf { h with mem := m2 } (pre2 ++ b2 :: post2) := ⟨g2, hbase32, hbrk, hlim⟩
  have hfree32 : my_free fuel { h with mem := m2 } (anchor 0) = some { h with mem := m2 } :=
    my_free_null_anchor fuel _ hbase32
  have hmalloc : my_malloc fuel { h with mem := m2 } (align_64b (toSsize n)) =
      some ({ h with mem := m2 }, 0) := by
    rcases align_64b_idem n with hid | hid
    · have hle := align_64b_le (toSsize n) (by simp only [toSsize, W]; split <;> omega)
      exact my_malloc_no_growth { h with mem := m2 } (pre2 ++ b2 :: post2)
        (align_64b (toSsize n)) (align_64b (toSsize n)) fuel hwf2 hid.symm
        (by simp only [List.length_append, List.length_cons]; omega)
        (sbrk_refused { h with mem := m2 } hlimit hlim hbrk _ hle) hnofit2
    · simp only [my_malloc, hid, if_true]
  have hp0 : B + BLOCK_SIZE ≠ 0 := by simp only [BLOCK_SIZE]; omega
  have hgp : get_pointer_to_meta_block (B + BLOCK_SIZE) = B :=
    get_pointer_anchor B (by simp only [W, BLOCK_SIZE] at *; omega)
  have hnot : ¬ size_of h.mem B ≥ align_64b (toSsize n) := by omega
  have hgrow : realloc_grow fuel h (B + BLOCK_SIZE) (align_64b (toSsize n)) B =
      some ({ h with mem := m2 }, 0) := by
    unfold realloc_grow
    simp only [hfl, hsc, hcopy, g1]
    rw [if_neg hnot2]
    simp only [hfree32, hmalloc, if_true]
  refine ⟨m2, ?_⟩
  unfold my_realloc
  rw [if_neg hp0, hvalid]
  simp only [if_true, hgp]
  rw [if_neg hnot, hgrow]

/-- The call `my_realloc(4128, 100)` on `mergeHeap`: the 8-byte block at 4096
absorbs its free 24-byte successor and reaches 64 bytes, fewer than 104; no
free block fits and `sbrk` grants nothing. -/
theorem my_realloc_growth_refused_witness :
    ∃ m2, my_realloc 16 mergeHeap (4096 + BLOCK_SIZE) 100 =
      some ({ mergeHeap with mem := m2 }, 0) :=
  my_realloc_growth_refused mergeHeap [] [4136, 4192] 100 104 16 4096 (by decide!)
    (by decide!) (by decide) (by decide!) (by decide!)
    (sbrk_at_limit mergeHeap (by decide!)) (by decide!) (by decide!)

/-- C10 as stated fails: on `reuseHeap` and on `mergeHeap`, where `sbrk` grants
nothing, the live block at 4096 has 8 bytes, fewer than `align_64b(40) = 40`;
on `reuseHeap` the call `my_realloc(4128, 40)` returns 4216, the payload of the
freed 64-byte block, and on `mergeHeap` it returns 4128 after the block has
absorbed its free successor. -/
theorem my_realloc_succeeds_without_growth :
    align_64b (toSsize 40) = 40 ∧
    (wf reuseHeap [4096, 4136, 4184, 4280] ∧ reuseHeap.limit = reuseHeap.brk ∧
      valid_addr reuseHeap 4128 = true ∧ free_of reuseHeap.mem 4096 = 0 ∧
      size_of reuseHeap.mem 4096 = 8 ∧
      (my_realloc 16 reuseHeap 4128 40).map Prod.snd = some 4216) ∧
    (wf mergeHeap [4096, 4136, 4192] ∧ mergeHeap.limit = mergeHeap.brk ∧
      valid_addr mergeHeap 4128 = true ∧ free_of mergeHeap.mem 4096 = 0 ∧
      size_of mergeHeap.mem 4096 = 8 ∧
      (my_realloc 16 mergeHeap 4128 40).map Prod.snd = some 4128) := by
  decide!

/-! ## Invalid pointers -/

/-- C11: if `valid_addr(p)` is 0, which is so for every `p` when the chain is
empty, `my_free(p)` leaves the state as it is, and for `p != NULL`
`my_realloc(p, n)` returns `NULL` and leaves the state as it is. -/
theorem invalid_pointer_ignored (fuel : Nat) (h : Heap) (p n : Nat)
    (hinv : h.base = 0 ∨ valid_addr h p = false) :
    valid_addr h p = false ∧ my_free fuel h p = some h ∧
    (p ≠ 0 → my_realloc fuel h p n = some (h, 0)) := by
  have hv : valid_addr h p = false := by
    rcases hinv with h0 | h0
    · simp [valid_addr, h0]
    · exact h0
  refine ⟨hv, by simp [my_free, hv], fun hp => ?_⟩
  simp [my_realloc, hp, hv]

/-- The pointer 8192 lies above the break of `reuseHeap`. -/
theorem invalid_pointer_ignored_witness :
    valid_addr reuseHeap 8192 = false ∧ my_free 16 reuseHeap 8192 = some reuseHeap ∧
    ((8192 : Nat) ≠ 0 → my_realloc 16 reuseHeap 8192 16 = some (reuseHeap, 0)) :=
  invalid_pointer_ignored 16 reuseHeap 8192 16 (Or.inr (by decide!))

/-! ## Reallocation of `NULL` and in place -/

/-- C15: `my_realloc(NULL, n)` is `my_malloc(n)`: same pointer, same state; on
the empty heap `n = 192` yields the block at 4096 with size 192. -/
theorem my_realloc_null (fuel : Nat) (h : Heap) (n : Nat) :
    my_realloc fuel h 0 n = my_malloc fuel h n ∧
    (my_realloc 1 (emptyHeap 4096 65536) 0 192).map
      (fun r => (r.2, size_of r.1.mem (get_pointer_to_meta_block r.2))) = some (4128, 192) := by
  refine ⟨by simp [my_realloc], ?_⟩
  decide!

/-- C20: in `shrinkScenario` the shrinking `my_realloc(a, 8)` returns `a = 4128`
and splits off a free block at 4136 whose successor 4192, the block freed
before, is free as well. -/
theorem realloc_shrink_adjacent_free :
    shrinkScenario.map (fun r => (r.2, free_of r.1.mem 4136, next_of r.1.mem 4136,
      free_of r.1.mem 4192)) = some (4128, 1, 4192, 1) := by
  decide!

/-- C17 as stated fails: in scenario 6 the pointer returned by
`my_realloc(b, 104)` differs from `b`. -/
theorem realloc_fusion_moves_pointer :
    fusionBytesScenario.map (fun r => decide (r.2.1 = r.1)) = some false := by
  decide!

/-- C17 (amended): in scenario 6 `my_realloc(b, 104)`, with `b = 4176`, returns
`r = 4128`, the payload of the block of `a` that absorbed `b` and `c`; the
block of `r` has size 112 and is followed by the block of `d` at 4240, and the
bytes stored at `b` are at `r`. -/
theorem realloc_fusion_scenario :
    fusionBytesScenario = some (4176, 4128, 112, 4240, 4240, [0x61, 0x62, 0x63]) := by
  decide!

/-- C16: for the valid pointer `p` of a live block `B` of size `m` and
`s = align_64b(n) <= m`, `my_realloc(p, n)` returns `p` and the break does not
move; if `m >= s + 32 + 8` the block gets size `s` and a free block of size
`m - s - 32` follows it at `B + 32 + s`, linked to the old successor; otherwise
the state is the one before the call. -/
theorem my_realloc_in_place (h : Heap) (bs : List Nat) (n s fuel B : Nat)
    (hwf : wf h bs) (hB : B ∈ bs) (hlive : free_of h.mem B = 0)
    (hvalid : valid_addr h (B + BLOCK_SIZE) = true)
    (hs : s = align_64b (toSsize n)) (hle : s ≤ size_of h.mem B) :
    ∃ h1, my_realloc fuel h (B + BLOCK_SIZE) n = some (h1, B + BLOCK_SIZE) ∧
      h1.brk = h.brk ∧
      (s + BLOCK_SIZE + 8 ≤ size_of h.mem B →
        size_of h1.mem B = s ∧ free_of h1.mem B = 0 ∧
        next_of h1.mem B = B + BLOCK_SIZE + s ∧
        free_of h1.mem (B + BLOCK_SIZE + s) = 1 ∧
        size_of h1.mem (B + BLOCK_SIZE + s) = size_of h.mem B - s - BLOCK_SIZE ∧
        prev_of h1.mem (B + BLOCK_SIZE + s) = B ∧
        next_of h1.mem (B + BLOCK_SIZE + s) = next_of h.mem B ∧
        (next_of h.mem B ≠ 0 → prev_of h1.mem (next_of h.mem B) = B + BLOCK_SIZE + s)) ∧
      (size_of h.mem B < s + BLOCK_SIZE + 8 → h1 = h) := by
  have _ := hlive
  subst hs
  obtain ⟨hB0, hBend, hnx⟩ := chain_mem _ _ _ _ _ hwf.1 B hB
  have hbrk := hwf.2.2.1
  have hlim := hwf.2.2.2
  have hp0 : B + BLOCK_SIZE ≠ 0 := by simp only [BLOCK_SIZE]; omega
  have hgp : get_pointer_to_meta_block (B + BLOCK_SIZE) = B :=
    get_pointer_anchor B (by simp only [W, BLOCK_SIZE] at *; omega)
  have hge : size_of h.mem B ≥ align_64b (toSsize n) := hle
  by_cases hroom : align_64b (toSsize n) + BLOCK_SIZE + 8 ≤ size_of h.mem B
  · refine ⟨{ h with mem := split_block h.mem B (align_64b (toSsize n)) }, ?_, rfl, ?_, ?_⟩
    · unfold my_realloc
      rw [if_neg hp0, hvalid]
      simp only [if_true, hgp]
      rw [if_pos hge, if_pos hroom]
    · intro _
      obtain ⟨f1, f2, f3, _, f5, f6, f7, f8, f9⟩ :=
        split_block_fields h.mem B (align_64b (toSsize n)) hroom
          (by simp only [W, BLOCK_SIZE] at *; omega) hnx
      exact ⟨f1, f2, f3, f6, f5, f7, f8, f9⟩
    · intro hlt
      omega
  · refine ⟨h, ?_, rfl, fun hc => absurd hc hroom, fun _ => rfl⟩
    unfold my_realloc
    rw [if_neg hp0, hvalid]
    simp only [if_true, hgp]
    rw [if_pos hge, if_neg hroom]

/-- The call `my_realloc(p, 24)` on the 64-byte block of `block64Heap`: the
block keeps its address, gets size 24, and a free 8-byte block follows it. -/
theorem my_realloc_in_place_witness :
    ∃ h1, my_realloc 1 block64Heap (4096 + BLOCK_SIZE) 24 = some (h1, 4096 + BLOCK_SIZE) ∧
      h1.brk = block64Heap.brk ∧ size_of h1.mem 4096 = 24 ∧
      free_of h1.mem (4096 + BLOCK_SIZE + 24) = 1 ∧
      size_of h1.mem (4096 + BLOCK_SIZE + 24) = 8 := by
  obtain ⟨h1, e1, e2, e3, _⟩ := my_realloc_in_place block64Heap [4096] 24 24 1 4096
    (by decide!) (by decide) (by decide!) (by decide!) (by decide!) (by decide!)
  have hm : size_of block64Heap.mem 4096 = 64 := by decide!
  obtain ⟨g1, _, _, g4, g5, _⟩ := e3 (by rw [hm]; decide)
  rw [hm] at g5
  exact ⟨h1, e1, e2, g1, g4, g5⟩

/-! ## Zeroed allocation -/

theorem zero_words_frame (k : Nat) : ∀ (m : Mem) (p x : Nat),
    ¬ (p ≤ x ∧ x < p + 8 * k) → zero_words k m p x = m x := by
  induction k with
  | zero => intro m p x _; rfl
  | succ k ih =>
    intro m p x hx
    rw [zero_words, ih _ _ _ (by omega), wrN_apply, if_neg (by omega)]

theorem zero_words_zero (k : Nat) : ∀ (m : Mem) (p x : Nat),
    p ≤ x → x < p + 8 * k → zero_words k m p x = 0 := by
  induction k with
  | zero => intro m p x h1 h2; omega
  | succ k ih =>
    intro m p x h1 h2
    rw [zero_words]
    by_cases hx : p + 8 ≤ x
    · exact ih _ _ _ hx (by omega)
    · rw [zero_words_frame k _ _ _ (by omega), wrN_apply, if_pos (by omega)]
      simp

theorem align_64b_dvd (x : Int) : 8 ∣ align_64b x := by
  by_cases h : x ≤ 0
  · simp [align_64b, h]
  · rw [align_64b_pos_eq x (by omega)]
    simp only [W]
    omega

/-- What `my_calloc` computes: the allocation of `my_malloc` on the wrapped
product, followed by the zeroing of the aligned payload when it succeeded. -/
theorem my_calloc_eq (fuel : Nat) (h : Heap) (c e : Nat) :
    my_calloc fuel h c e = (my_malloc fuel h ((c * e) % W)).map (fun r =>
      (if r.2 = 0 then r.1 else { r.1 with mem := (zero_words
          (align_64b (toSsize ((c * e) % W)) >>> 3) r.1.mem r.2) }, r.2)) := by
  unfold my_calloc
  cases hm : my_malloc fuel h ((c * e) % W) with
  | none => rfl
  | some r =>
    obtain ⟨h1, p⟩ := r
    by_cases hp : p = 0
    · simp [hp]
    · simp [hp]

/-- C18: when `my_calloc(count, elem)` returns a non-null pointer `p`, every byte
of `p[0 .. s)` is zero afterwards, `s = align_64b((count * elem) mod 2^64)`,
whatever the state before the call was. -/
theorem my_calloc_zeroes (fuel : Nat) (h h1 : Heap) (c e p : Nat)
    (hret : my_calloc fuel h c e = some (h1, p)) (hp : p ≠ 0) :
    ∀ x, p ≤ x → x < p + align_64b (toSsize ((c * e) % W)) → rd8 h1.mem x = 0 := by
  intro x hx1 hx2
  rw [my_calloc_eq] at hret
  cases hm : my_malloc fuel h ((c * e) % W) with
  | none => rw [hm] at hret; simp at hret
  | some r =>
    rw [hm] at hret
    simp only [Option.map_some', Option.some.injEq, Prod.mk.injEq] at hret
    obtain ⟨e1, e2⟩ := hret
    rw [if_neg (by rw [e2]; exact hp)] at e1
    obtain ⟨d, hd⟩ := align_64b_dvd (toSsize ((c * e) % W))
    have hsh : align_64b (toSsize ((c * e) % W)) >>> 3 = d := by
      rw [Nat.shiftRight_eq_div_pow, hd]
      omega
    rw [← e1, rd8]
    simp only
    rw [e2, hsh, zero_words_zero d _ p x hx1 (by omega)]

theorem some_getD_of_isSome {α : Type} (o : Option α) (d : α) (h : o.isSome = true) :
    o = some (o.getD d) := by
  cases o with
  | none => simp at h
  | some v => rfl

/-- The call `my_calloc(2, 8)` on `dirtyHeap` reuses the freed block at 4096,
whose payload held `0xff` bytes, and leaves its sixteen bytes zero. -/
theorem my_calloc_zeroes_witness :
    rd8 dirtyHeap.mem 4128 = 255 ∧ rd8 dirtyHeap.mem 4143 = 255 ∧ dirtyCalloc.2 = 4128 ∧
    ∀ x, 4128 ≤ x → x < 4128 + 16 → rd8 dirtyCalloc.1.mem x = 0 := by
  have hp : dirtyCalloc.2 = 4128 := by decide!
  have hs : align_64b (toSsize ((2 * 8) % W)) = 16 := by decide!
  have hz := my_calloc_zeroes 16 dirtyHeap dirtyCalloc.1 2 8 dirtyCalloc.2
    (some_getD_of_isSome _ _ (by decide!)) (by rw [hp]; decide)
  rw [hp, hs] at hz
  exact ⟨by decide!, by decide!, hp, hz⟩

/-- The first allocation on the empty heap: when the aligned size `s` is
positive and `s + 32` bytes fit below the limit of the system, `my_malloc` makes
one allocated block of size `s` at the old break and returns its payload;
otherwise it returns `NULL` and leaves the empty heap as it is. -/
theorem first_malloc_block (fuel start limit n : Nat)
    (hstart : BLOCK_SIZE ≤ start) (hle : start ≤ limit) (hlim : limit + BLOCK_SIZE < 2 ^ 63) :
    (0 < align_64b (toSsize n) ∧ start + BLOCK_SIZE + align_64b (toSsize n) ≤ limit →
      ∃ h1, my_malloc fuel (emptyHeap start limit) n = some (h1, start + BLOCK_SIZE) ∧
        h1.base = start ∧ h1.brk = start + BLOCK_SIZE + align_64b (toSsize n) ∧
        h1.limit = limit ∧ size_of h1.mem start = align_64b (toSsize n) ∧
        free_of h1.mem start = 0 ∧ next_of h1.mem start = 0 ∧ prev_of h1.mem start = 0) ∧
    (¬ (0 < align_64b (toSsize n) ∧ start + BLOCK_SIZE + align_64b (toSsize n) ≤ limit) →
      my_malloc fuel (emptyHeap start limit) n = some (emptyHeap start limit, 0)) := by
  have _ := hle
  have hsle := align_64b_le (toSsize n) (by simp only [toSsize, W]; split <;> omega)
  generalize hsdef : align_64b (toSsize n) = s at *
  have hanchor : anchor start = start + BLOCK_SIZE :=
    anchor_eq start (by simp only [W, BLOCK_SIZE] at *; omega)
  have hst0 : start ≠ 0 := by simp only [BLOCK_SIZE] at hstart; omega
  have hmod : (s + BLOCK_SIZE) % W = s + BLOCK_SIZE :=
    Nat.mod_eq_of_lt (by simp only [W, BLOCK_SIZE] at *; omega)
  have hsW : s % W = s := Nat.mod_eq_of_lt (by simp only [W] at *; omega)
  constructor
  · rintro ⟨hpos, hfit⟩
    have hs0 : s ≠ 0 := by omega
    have hsb : sbrk ⟨fun _ => 0, 0, start, limit⟩ (s + BLOCK_SIZE) =
        some ⟨fun _ => 0, 0, start + (s + BLOCK_SIZE), limit⟩ := by
      simp only [sbrk, hmod]
      rw [if_pos (by simp only [BLOCK_SIZE] at *; omega), if_pos (by omega)]
    refine ⟨⟨set_prev (set_free (set_next (set_size (fun _ => 0) start s) start 0) start 0)
      start 0, start, start + (s + BLOCK_SIZE), limit⟩, ?_, rfl, by show start + (s + BLOCK_SIZE) = start + BLOCK_SIZE + s; omega, rfl,
      ?_, ?_, ?_, ?_⟩
    · simp only [my_malloc, hsdef, hs0, if_false, emptyHeap, extend_heap, hsb, ne_eq,
        not_true_eq_false, if_true, hst0, hanchor]
    · show size_of _ start = s
      simp (disch := omega) only [size_of, set_prev, set_free, set_next, set_size,
        rdN_wrN_disj, rd64_wr64, hsW]
    · show free_of _ start = 0
      simp (disch := omega) only [free_of, set_prev, set_free, set_next, set_size,
        rdN_wrN_disj, rd32_wr32, Nat.zero_mod]
    · show next_of _ start = 0
      simp (disch := omega) only [next_of, set_prev, set_free, set_next, set_size,
        rdN_wrN_disj, rd64_wr64, Nat.zero_mod]
    · show prev_of _ start = 0
      simp only [prev_of, set_prev, rd64_wr64, Nat.zero_mod]
  · intro hno
    by_cases hs0 : s = 0
    · simp only [my_malloc, hsdef, hs0, if_true]
    · have hsb : sbrk ⟨fun _ => 0, 0, start, limit⟩ (s + BLOCK_SIZE) = none := by
        simp only [sbrk, hmod]
        by_cases h63 : s + BLOCK_SIZE < 2 ^ 63
        · rw [if_pos h63, if_neg (by omega)]
        · rw [if_neg h63, if_neg (by simp only [W, BLOCK_SIZE] at *; omega)]
      simp only [my_malloc, hsdef, hs0, if_false, emptyHeap, extend_heap, hsb, if_true]

/-- C19: `my_calloc(count, elem)` returns the pointer, `base` and break of
`my_malloc((count * elem) mod 2^64)`, and its memory differs from the one
`my_malloc` leaves only inside the zeroed payload. On every empty heap, with
`s = align_64b((count * elem) mod 2^64)`: when `s > 0` and `s + 32` bytes fit
below the limit of the system, `my_calloc` returns the payload of one allocated
block of size `s` at the old break, and otherwise it returns `NULL` and leaves
the heap empty. With the break at 4096, `39 x 71` gives a block of size 2776,
`my_calloc(0, 0)` returns `NULL`, and `my_calloc(SIZE_MAX, SIZE_MAX)`, whose
product wraps to 1, returns the payload of an 8-byte block. -/
theorem my_calloc_wraps (fuel : Nat) (h : Heap) (c e : Nat) :
    (my_calloc fuel h c e).map (fun r => (r.2, r.1.base, r.1.brk, r.1.limit)) =
      (my_malloc fuel h ((c * e) % W)).map (fun r => (r.2, r.1.base, r.1.brk, r.1.limit)) ∧
    (∀ h1 h2 p q, my_malloc fuel h ((c * e) % W) = some (h1, p) →
      my_calloc fuel h c e = some (h2, q) →
      q = p ∧ ∀ x, ¬ (p ≤ x ∧ x < p + align_64b (toSsize ((c * e) % W))) →
        h2.mem x = h1.mem x) ∧
    (∀ start limit, BLOCK_SIZE ≤ start → start ≤ limit → limit + BLOCK_SIZE < 2 ^ 63 →
      (0 < align_64b (toSsize ((c * e) % W)) ∧
          start + BLOCK_SIZE + align_64b (toSsize ((c * e) % W)) ≤ limit →
        ∃ h2, my_calloc fuel (emptyHeap start limit) c e = some (h2, start + BLOCK_SIZE) ∧
          h2.base = start ∧
          h2.brk = start + BLOCK_SIZE + align_64b (toSsize ((c * e) % W)) ∧
          size_of h2.mem start = align_64b (toSsize ((c * e) % W)) ∧
          free_of h2.mem start = 0 ∧ next_of h2.mem start = 0) ∧
      (¬ (0 < align_64b (toSsize ((c * e) % W)) ∧
          start + BLOCK_SIZE + align_64b (toSsize ((c * e) % W)) ≤ limit) →
        my_calloc fuel (emptyHeap start limit) c e = some (emptyHeap start limit, 0))) ∧
    (my_calloc 1 (emptyHeap 4096 65536) 39 71).map (fun r => (r.2, size_of r.1.mem 4096)) =
      some (4128, 2776) ∧
    (my_calloc 1 (emptyHeap 4096 65536) 0 0).map Prod.snd = some 0 ∧
    ((2 ^ 64 - 1) * (2 ^ 64 - 1)) % W = 1 ∧
    (my_calloc 1 (emptyHeap 4096 65536) (2 ^ 64 - 1) (2 ^ 64 - 1)).map
      (fun r => (r.2, size_of r.1.mem 4096)) = some (4128, 8) := by
  refine ⟨?_, ?_, ?_, ?_, ?_, ?_, ?_⟩
  · rw [my_calloc_eq]
    cases my_malloc fuel h ((c * e) % W) with
    | none => rfl
    | some r =>
      by_cases hp : r.2 = 0
      · simp [hp]
      · simp [hp]
  · intro h1 h2 p q hm hc
    rw [my_calloc_eq, hm] at hc
    simp only [Option.map_some', Option.some.injEq, Prod.mk.injEq] at hc
    obtain ⟨e1, e2⟩ := hc
    refine ⟨e2.symm, ?_⟩
    intro x hx
    by_cases hp : p = 0
    · rw [if_pos hp] at e1
      rw [← e1]
    · rw [if_neg hp] at e1
      rw [← e1]
      obtain ⟨d, hd⟩ := align_64b_dvd (toSsize ((c * e) % W))
      have hsh : align_64b (toSsize ((c * e) % W)) >>> 3 = d := by
        rw [Nat.shiftRight_eq_div_pow, hd]
        omega
      simp only
      rw [hsh, zero_words_frame d _ p x (by omega)]
  · intro start limit hstart hle hlim
    obtain ⟨hyes, hno⟩ := first_malloc_block fuel start limit ((c * e) % W) hstart hle hlim
    constructor
    · intro hfit
      obtain ⟨h1, hm, e1, e2, _, e4, e5, e6, _⟩ := hyes hfit
      have hq : start + BLOCK_SIZE ≠ 0 := by simp only [BLOCK_SIZE]; omega
      obtain ⟨d, hd⟩ := align_64b_dvd (toSsize ((c * e) % W))
      have hsh : align_64b (toSsize ((c * e) % W)) >>> 3 = d := by
        rw [Nat.shiftRight_eq_div_pow, hd]
        omega
      have hz : ∀ x, x < start + BLOCK_SIZE →
          zero_words d h1.mem (start + BLOCK_SIZE) x = h1.mem x :=
        fun x hx => zero_words_frame d _ _ x (by omega)
      refine ⟨{ h1 with mem := (zero_words d h1.mem (start + BLOCK_SIZE)) }, ?_, e1, e2,
        ?_, ?_, ?_⟩
      · rw [my_calloc_eq, hm]
        simp only [Option.map_some', hq, if_false, hsh]
      · rw [← e4]
        exact rdN_congr 8 _ _ start (fun x _ h2 => hz x (by simp only [BLOCK_SIZE]; omega))
      · rw [← e5]
        exact rdN_congr 4 _ _ (start + 24)
          (fun x _ h2 => hz x (by simp only [BLOCK_SIZE]; omega))
      · rw [← e6]
        exact rdN_congr 8 _ _ (start + 8)
          (fun x _ h2 => hz x (by simp only [BLOCK_SIZE]; omega))
    · intro hnofit
      rw [my_calloc_eq, hno hnofit]
      simp only [Option.map_some', if_true]
  · decide!
  · decide!
  · decide!
  · decide!

/-! ## More facts about chains -/

/-- The tail of a chain ends at the break. -/
theorem chain_tail_end (m : Mem) (brk : Nat) (bs : List Nat) :
    ∀ (prev a : Nat), chain m brk prev a bs → ∀ x, x ∈ bs → next_of m x = 0 →
      x + BLOCK_SIZE + size_of m x = brk := by
  induction bs with
  | nil => intro _ _ _ x hx; simp at hx
  | cons c cs ih =>
    intro prev a hc x hx h0
    obtain ⟨_, _, _, hnx, hrest⟩ := hc
    rcases List.mem_cons.mp hx with rfl | hx
    · rw [if_pos h0] at hnx
      exact hnx
    · exact ih c (next_of m c) hrest x hx h0

/-- The successor of a block of a chain is a block of the chain and points back. -/
theorem chain_next_mem (m : Mem) (brk : Nat) (bs : List Nat) :
    ∀ (prev a : Nat), chain m brk prev a bs → ∀ x, x ∈ bs → next_of m x ≠ 0 →
      next_of m x ∈ bs ∧ prev_of m (next_of m x) = x := by
  induction bs with
  | nil => intro _ _ _ x hx; simp at hx
  | cons c cs ih =>
    intro prev a hc x hx h0
    obtain ⟨_, _, _, _, hrest⟩ := hc
    rcases List.mem_cons.mp hx with rfl | hx
    · cases cs with
      | nil => exact absurd hrest h0
      | cons d ds =>
        have h1 : next_of m x = d := hrest.1
        have h2 : prev_of m d = x := hrest.2.2.1
        rw [h1]
        exact ⟨by simp, h2⟩
    · have := ih c (next_of m c) hrest x hx h0
      exact ⟨List.mem_cons_of_mem c this.1, this.2⟩

/-- Two different blocks of a chain do not overlap. -/
theorem chain_sep (m : Mem) (brk : Nat) (bs : List Nat) :
    ∀ (prev a : Nat), chain m brk prev a bs → ∀ x y, x ∈ bs → y ∈ bs → x ≠ y →
      x + BLOCK_SIZE + size_of m x ≤ y ∨ y + BLOCK_SIZE + size_of m y ≤ x := by
  induction bs with
  | nil => intro _ _ _ x y hx; simp at hx
  | cons c cs ih =>
    intro prev a hc x y hx hy hne
    rcases List.mem_cons.mp hx with hxc | hx2
    · rcases List.mem_cons.mp hy with hyc | hy2
      · exact absurd (hxc.trans hyc.symm) hne
      · subst hxc
        exact Or.inl (chain_gt m brk cs prev a x hc y hy2)
    · rcases List.mem_cons.mp hy with hyc | hy2
      · subst hyc
        exact Or.inr (chain_gt m brk cs prev a y hc x hx2)
      · exact ih c (next_of m c) hc.2.2.2.2 x y hx2 hy2 hne

/-- In a chain a block has no successor exactly when nothing follows it. -/
theorem chain_post_nil (m : Mem) (brk : Nat) (pre post : List Nat) (b prev a : Nat)
    (hc : chain m brk prev a (pre ++ b :: post)) : next_of m b = 0 ↔ post = [] := by
  obtain ⟨p, c, hsuf⟩ := chain_suffix m brk pre _ prev a hc
  cases post with
  | nil => exact ⟨fun _ => rfl, fun _ => hsuf.2.2.2.2⟩
  | cons d ds =>
    have h1 : next_of m b = d := hsuf.2.2.2.2.1
    have h2 : d ≠ 0 := hsuf.2.2.2.2.2.1
    exact ⟨fun h => absurd (h1 ▸ h) h2, fun h => by simp at h⟩

/-- In a chain that starts with predecessor `NULL` a block has no predecessor
exactly when nothing precedes it; otherwise its predecessor is the block
listed before it. -/
theorem chain_prev (m : Mem) (brk : Nat) (pre post : List Nat) (b a : Nat)
    (hc : chain m brk 0 a (pre ++ b :: post)) : prev_of m b = pre.getLastD 0 ∧
      (prev_of m b = 0 ↔ pre = []) := by
  rcases List.eq_nil_or_concat pre with hnil | ⟨front, P, hpre⟩
  · subst hnil
    have h0 : prev_of m b = 0 := hc.2.2.1
    exact ⟨h0, fun _ => rfl, fun _ => h0⟩
  · rw [List.concat_eq_append] at hpre
    subst hpre
    have hc2 : chain m brk 0 a (front ++ P :: b :: post) := by
      simpa [List.append_assoc] using hc
    obtain ⟨p, c, hsuf⟩ := chain_suffix m brk front _ 0 a hc2
    obtain ⟨_, hP0, _, _, _, _, hpB, _, _⟩ := chain_pair m brk P b post p c hsuf
    refine ⟨by rw [hpB]; simp, fun h => absurd (hpB ▸ h) hP0, fun h => by simp at h⟩

/-- On a chain, no two adjacent blocks are both free exactly when no free
block has a free successor. -/
theorem noAdjFree_iff (m : Mem) (brk : Nat) (bs : List Nat) :
    ∀ (prev a : Nat), chain m brk prev a bs →
      (noAdjFree m bs ↔ ∀ x, x ∈ bs → free_of m x ≠ 0 → next_of m x ≠ 0 →
        free_of m (next_of m x) = 0) := by
  induction bs with
  | nil => intro _ _ _; simp [noAdjFree]
  | cons c cs ih =>
    intro prev a hc
    obtain ⟨_, _, _, _, hrest⟩ := hc
    cases cs with
    | nil =>
      have h0 : next_of m c = 0 := hrest
      simp [noAdjFree, h0]
    | cons d ds =>
      have h1 : next_of m c = d := hrest.1
      have h2 : d ≠ 0 := hrest.2.1
      have hi := ih c (next_of m c) hrest
      rw [noAdjFree, hi, List.forall_mem_cons (a := c), h1]
      constructor
      · rintro ⟨hr, hall⟩
        refine ⟨fun hf _ => ?_, hall⟩
        rcases hr with h | h
        · exact absurd h hf
        · exact h
      · rintro ⟨hr, hall⟩
        refine ⟨?_, hall⟩
        by_cases hf : free_of m c = 0
        · exact Or.inl hf
        · exact Or.inr (hr hf h2)

/-- Setting the flag of a block of a chain leaves the chain, all sizes and
links, and the flags of the other blocks as they are. -/
theorem chain_set_free (m : Mem) (brk : Nat) (pre post : List Nat) (B prev a v : Nat)
    (hc : chain m brk prev a (pre ++ B :: post)) :
    chain (set_free m B v) brk prev a (pre ++ B :: post) ∧
    (∀ x, x ∈ pre ++ B :: post → size_of (set_free m B v) x = size_of m x ∧
      next_of (set_free m B v) x = next_of m x ∧ prev_of (set_free m B v) x = prev_of m x) ∧
    (∀ x, x ∈ pre ++ post → free_of (set_free m B v) x = free_of m x) := by
  obtain ⟨p, b, hsuf⟩ := chain_suffix m brk pre _ prev a hc
  have hlt := chain_lt m brk pre prev a B post hc
  have hgt := chain_gt m brk post p b B hsuf
  have hpos : ∀ x, x ∈ pre ++ post → x + 28 ≤ B + 24 ∨ B + 28 ≤ x := by
    intro x hx
    rcases List.mem_append.mp hx with h | h
    · have := hlt x h
      simp only [BLOCK_SIZE] at this
      omega
    · have := hgt x h
      simp only [BLOCK_SIZE] at this
      omega
  have hfields : ∀ x, x ∈ pre ++ B :: post → size_of (set_free m B v) x = size_of m x ∧
      next_of (set_free m B v) x = next_of m x ∧ prev_of (set_free m B v) x = prev_of m x := by
    intro x hx
    have hcase : x = B ∨ x ∈ pre ++ post := by
      rcases List.mem_append.mp hx with h | h
      · exact Or.inr (List.mem_append_left _ h)
      · rcases List.mem_cons.mp h with h | h
        · exact Or.inl h
        · exact Or.inr (List.mem_append_right _ h)
    have hd : x + 24 ≤ B + 24 ∨ B + 28 ≤ x := by
      rcases hcase with rfl | h
      · omega
      · have := hpos x h
        omega
    exact ⟨size_of_set_free m B x v (by omega), next_of_set_free m B x v (by omega),
      prev_of_set_free m B x v (by omega)⟩
  exact ⟨chain_congr m _ brk _ hfields prev a hc, hfields,
    fun x hx => free_of_set_free_disj m B x v (by have := hpos x hx; omega)⟩

/-- Replacing the rest of a chain from a given block on, also when the break
changes, provided a block remains at that place. -/
theorem chain_splice_brk (m n : Mem) (brk brk2 : Nat) (pre rest rest2 : List Nat)
    (hsame : ∀ x, x ∈ pre → size_of n x = size_of m x ∧ next_of n x = next_of m x ∧
      prev_of n x = prev_of m x)
    (hne : rest ≠ [])
    (hrest : ∀ prev a, chain m brk prev a rest → chain n brk2 prev a rest2) :
    ∀ (prev a : Nat), chain m brk prev a (pre ++ rest) → chain n brk2 prev a (pre ++ rest2) := by
  induction pre with
  | nil => intro prev a hc; exact hrest prev a hc
  | cons c cs ih =>
    intro prev a hc
    obtain ⟨h1, h2, h3, h4, h5⟩ := hc
    obtain ⟨e1, e2, e3⟩ := hsame c (List.mem_cons_self c cs)
    have hnz : next_of m c ≠ 0 := by
      cases hl : cs ++ rest with
      | nil => simp [hne] at hl
      | cons d ds =>
        have h6 : chain m brk c (next_of m c) (cs ++ rest) := h5
        rw [hl] at h6
        have g1 : next_of m c = d := h6.1
        have g2 : d ≠ 0 := h6.2.1
        omega
    rw [if_neg hnz] at h4
    refine ⟨h1, h2, by rw [e3]; exact h3, by rw [e1, e2, if_neg hnz]; exact h4, ?_⟩
    rw [e2]
    exact ih (fun x hx => hsame x (List.mem_cons_of_mem c hx)) c (next_of m c) h5

/-- Cutting the tail `T` off a chain: its predecessor `P` gets `next = NULL`, the
break moves down to `T`, and the blocks that remain form a chain. -/
theorem chain_drop_tail (m : Mem) (brk : Nat) (front : List Nat) (P T a : Nat)
    (hc : chain m brk 0 a (front ++ [P, T])) :
    chain (set_next m P 0) T 0 a (front ++ [P]) ∧ next_of (set_next m P 0) P = 0 ∧
    (∀ x, x ∈ front ++ [P] → size_of (set_next m P 0) x = size_of m x ∧
      free_of (set_next m P 0) x = free_of m x) ∧
    (∀ x, x ∈ front → next_of (set_next m P 0) x = next_of m x) := by
  have hlt := chain_lt m brk front 0 a P [T] hc
  have hfront : ∀ x, x ∈ front → size_of (set_next m P 0) x = size_of m x ∧
      next_of (set_next m P 0) x = next_of m x ∧ prev_of (set_next m P 0) x = prev_of m x ∧
      free_of (set_next m P 0) x = free_of m x := by
    intro x hx
    have h1 := hlt x hx
    apply fields_of_agree
    intro y hy1 hy2
    simp only [set_next, wrN_apply]
    rw [if_neg (by simp only [BLOCK_SIZE] at h1; omega)]
  have hP1 : size_of (set_next m P 0) P = size_of m P :=
    rdN_wrN_disj 8 8 m P (P + 8) 0 (by omega)
  have hP2 : prev_of (set_next m P 0) P = prev_of m P :=
    rdN_wrN_disj 8 8 m (P + 16) (P + 8) 0 (by omega)
  have hP3 : free_of (set_next m P 0) P = free_of m P :=
    rdN_wrN_disj 4 8 m (P + 24) (P + 8) 0 (by omega)
  have hP4 : next_of (set_next m P 0) P = 0 := by
    simp only [next_of, set_next, rd64_wr64, Nat.zero_mod]
  refine ⟨?_, hP4, ?_, fun x hx => (hfront x hx).2.1⟩
  · refine chain_splice_brk m (set_next m P 0) brk T front [P, T] [P]
      (fun x hx => ⟨(hfront x hx).1, (hfront x hx).2.1, (hfront x hx).2.2.1⟩) (by simp) ?_ 0 a hc
    intro q c hq
    obtain ⟨e1, e2, e3, _, e5, _⟩ := chain_pair m brk P T [] q c hq
    refine ⟨e1, e2, by rw [hP2]; exact e3, ?_, hP4⟩
    rw [if_pos hP4, hP1]
    exact e5.symm
  · intro x hx
    rcases List.mem_append.mp hx with h | h
    · exact ⟨(hfront x h).1, (hfront x h).2.2.2⟩
    · have : x = P := by simpa using h
      subst this
      exact ⟨hP1, hP3⟩

/-- The state `my_free` leaves, given the result of `fusion`. -/
theorem my_free_eq (fuel : Nat) (h : Heap) (p : Nat) (m2 : Mem) (b2 : Nat)
    (hv : valid_addr h p = true)
    (hf : fusion fuel (set_free h.mem (get_pointer_to_meta_block p) 1)
      (get_pointer_to_meta_block p) true = some (m2, b2)) :
    my_free fuel h p = some (if next_of m2 b2 = 0 then
      (if prev_of m2 b2 ≠ 0 then brk_set { h with mem := set_next m2 (prev_of m2 b2) 0 } b2
        else brk_set { h with mem := m2, base := 0 } b2)
      else { h with mem := m2 }) := by
  unfold my_free
  rw [hv]
  simp only [if_true, hf]
  by_cases h1 : next_of m2 b2 = 0
  · by_cases h2 : prev_of m2 b2 ≠ 0
    · rw [if_pos h1, if_pos h2, if_pos h1, if_pos h2]
    · rw [if_pos h1, if_neg h2, if_pos h1, if_neg h2]
  · rw [if_neg h1, if_neg h1]

theorem brk_set_le (h : Heap) (addr : Nat) (hle : addr ≤ h.limit) :
    brk_set h addr = { h with brk := addr } := by
  simp [brk_set, hle]

/-- What `my_free` does with the valid pointer of a block `B` of a well-formed
chain: `fusion` returns the coalesced block `b2` of a chain; when `b2` has a
successor the state keeps `base` and break, otherwise `b2` is cut off, the
break is set to `b2`, and the blocks in front of it form the chain. -/
theorem my_free_chain (h : Heap) (pre post : List Nat) (B fuel : Nat)
    (hwf : wf h (pre ++ B :: post)) (hvalid : valid_addr h (B + BLOCK_SIZE) = true)
    (hfuel : pre.length + post.length < fuel) :
    ∃ m2 b2 pre2 post2 h1,
      fusion fuel (set_free h.mem B 1) B true = some (m2, b2) ∧
      my_free fuel h (B + BLOCK_SIZE) = some h1 ∧
      chain m2 h.brk 0 h.base (pre2 ++ b2 :: post2) ∧
      (b2 = B ∨ (b2 ∈ pre ∧ free_of h.mem b2 ≠ 0)) ∧
      free_of m2 b2 ≠ 0 ∧
      (∀ x, x ∈ pre2 ++ post2 → x ∈ pre ++ post ∧ size_of m2 x = size_of h.mem x ∧
        free_of m2 x = free_of h.mem x) ∧
      (next_of m2 b2 = 0 ∨ free_of m2 (next_of m2 b2) = 0) ∧
      (prev_of m2 b2 = 0 ∨ free_of m2 (prev_of m2 b2) = 0) ∧
      size_of m2 b2 = size_of h.mem B + runSize h.mem post + runSize h.mem pre.reverse ∧
      (next_of m2 b2 ≠ 0 → h1 = { h with mem := m2 } ∧ wf h1 (pre2 ++ b2 :: post2)) ∧
      (next_of m2 b2 = 0 → post2 = [] ∧ wf h1 pre2 ∧ h1.brk = b2 ∧ h1.limit = h.limit ∧
        (prev_of m2 b2 = 0 → pre2 = [] ∧ h1.base = 0 ∧ h1.mem = m2) ∧
        (prev_of m2 b2 ≠ 0 → h1.base = h.base ∧
          h1.mem = set_next m2 (prev_of m2 b2) 0 ∧ prev_of m2 b2 ∈ pre2 ∧
          pre2.getLastD 0 = prev_of m2 b2 ∧ next_of h1.mem (prev_of m2 b2) = 0 ∧
          ∀ x, x ∈ pre2 → size_of h1.mem x = size_of m2 x ∧ free_of h1.mem x = free_of m2 x ∧
            (x ≠ prev_of m2 b2 → next_of h1.mem x = next_of m2 x))) := by
  obtain ⟨hch, hbase32, hbrk, hlim⟩ := hwf
  obtain ⟨hch1, hfields, hflags⟩ := chain_set_free h.mem h.brk pre post B 0 h.base 1 hch
  have hbrkW : h.brk < W := by simp only [W, BLOCK_SIZE] at *; omega
  have hB : B ∈ pre ++ B :: post := by simp
  obtain ⟨_, hBend, _⟩ := chain_mem _ _ _ _ _ hch B hB
  obtain ⟨m2, b2, pre2, post2, g1, g2, g3, g4, g5, g6, _, g8, g9⟩ :=
    fusion_chain h.brk h.base hbrkW fuel (set_free h.mem B 1) pre post B hch1 hfuel
  have hgp : get_pointer_to_meta_block (B + BLOCK_SIZE) = B :=
    get_pointer_anchor B (by simp only [W, BLOCK_SIZE] at *; omega)
  have hfree := my_free_eq fuel h (B + BLOCK_SIZE) m2 b2 hvalid (by rw [hgp]; exact g1)
  have hb2mem : b2 ∈ pre2 ++ b2 :: post2 := by simp
  obtain ⟨_, hb2end, _⟩ := chain_mem _ _ _ _ _ g2 b2 hb2mem
  have hb2le : b2 ≤ h.limit := by omega
  -- the result of `fusion`, in terms of the memory before the call
  have hwho : b2 = B ∨ (b2 ∈ pre ∧ free_of h.mem b2 ≠ 0) := by
    rcases g5 with h0 | ⟨h1, h2⟩
    · exact Or.inl h0
    · exact Or.inr ⟨h1, by rw [← hflags b2 (List.mem_append_left _ h1)]; exact h2⟩
  have hfreeb2 : free_of m2 b2 ≠ 0 := by
    rw [g4]
    rcases g5 with h0 | ⟨_, h2⟩
    · rw [h0, free_of_set_free]
      decide
    · exact h2
  have hframe : ∀ x, x ∈ pre2 ++ post2 → x ∈ pre ++ post ∧ size_of m2 x = size_of h.mem x ∧
      free_of m2 x = free_of h.mem x := by
    intro x hx
    obtain ⟨k1, k2, k3⟩ := g6 x hx
    have hin : x ∈ pre ++ B :: post := by
      rcases List.mem_append.mp k1 with h1 | h1
      · exact List.mem_append_left _ h1
      · exact List.mem_append_right _ (List.mem_cons_of_mem B h1)
    exact ⟨k1, by rw [k2, (hfields x hin).1], by rw [k3, hflags x k1]⟩
  have hsize : size_of m2 b2 =
      size_of h.mem B + runSize h.mem post + runSize h.mem pre.reverse := by
    have r1 : runSize (set_free h.mem B 1) post = runSize h.mem post :=
      runSize_congr h.mem _ post (fun x hx =>
        ⟨(hfields x (List.mem_append_right _ (List.mem_cons_of_mem B hx))).1,
          hflags x (List.mem_append_right _ hx)⟩)
    have r2 : runSize (set_free h.mem B 1) pre.reverse = runSize h.mem pre.reverse :=
      runSize_congr h.mem _ pre.reverse (fun x hx =>
        ⟨(hfields x (List.mem_append_left _ (by simpa using hx))).1,
          hflags x (List.mem_append_left _ (by simpa using hx))⟩)
    rw [g3, r1, r2, (hfields B hB).1]
  refine ⟨m2, b2, pre2, post2, _, g1, hfree, g2, hwho, hfreeb2, hframe, g8, g9, hsize, ?_, ?_⟩
  · intro hnz
    rw [if_neg hnz]
    exact ⟨rfl, g2, hbase32, hbrk, hlim⟩
  · intro hz
    have hpost : post2 = [] := (chain_post_nil m2 h.brk pre2 post2 b2 0 h.base g2).mp hz
    subst hpost
    obtain ⟨hpv, hpv0⟩ := chain_prev m2 h.brk pre2 [] b2 h.base g2
    rw [if_pos hz]
    by_cases hp : prev_of m2 b2 = 0
    · have hpre : pre2 = [] := hpv0.mp hp
      subst hpre
      rw [if_neg (by simpa using hp), brk_set_le { h with mem := m2, base := 0 } b2 hb2le]
      refine ⟨rfl, ⟨?_, ?_, hb2le, hlim⟩, rfl, rfl, fun _ => ⟨rfl, rfl, rfl⟩,
        fun hne => absurd hp hne⟩
      · exact rfl
      · intro hne
        exact absurd rfl hne
    · rw [if_pos hp,
        brk_set_le { h with mem := set_next m2 (prev_of m2 b2) 0 } b2 hb2le]
      rcases List.eq_nil_or_concat pre2 with hnil | ⟨front, P, hpre⟩
      · exact absurd (hpv0.mpr hnil) hp
      · rw [List.concat_eq_append] at hpre
        subst hpre
        have hP : prev_of m2 b2 = P := by rw [hpv]; simp
        rw [hP]
        have hc2 : chain m2 h.brk 0 h.base (front ++ [P, b2]) := by
          simpa [List.append_assoc] using g2
        obtain ⟨d1, d2, d3, d4⟩ := chain_drop_tail m2 h.brk front P b2 h.base hc2
        refine ⟨rfl, ⟨d1, hbase32, hb2le, hlim⟩, rfl, rfl, fun h0 => absurd (hP ▸ h0) (hP ▸ hp),
          fun _ => ⟨rfl, rfl, by simp, by simp, d2, ?_⟩⟩
        intro x hx
        refine ⟨(d3 x hx).1, (d3 x hx).2, fun hne => ?_⟩
        rcases List.mem_append.mp hx with h1 | h1
        · exact d4 x h1
        · exact absurd (by simpa using h1) hne

/-! ## Releasing a block -/

/-- C12: for the valid pointer of a live block `B` of a well-formed chain that
is not the tail and whose neighbours are allocated, `my_free` sets the flag of
`B` to 1 and changes nothing else: the memory is the old one except for the
four flag bytes of `B`, `base` and the break stay, and the same blocks form
the chain. -/
theorem my_free_middle (h : Heap) (pre post : List Nat) (B fuel : Nat)
    (hwf : wf h (pre ++ B :: post)) (hpost : post ≠ []) (hlive : free_of h.mem B = 0)
    (hvalid : valid_addr h (B + BLOCK_SIZE) = true)
    (hnext : free_of h.mem (next_of h.mem B) = 0)
    (hprev : prev_of h.mem B = 0 ∨ free_of h.mem (prev_of h.mem B) = 0)
    (hfuel : 0 < fuel) :
    my_free fuel h (B + BLOCK_SIZE) = some { h with mem := set_free h.mem B 1 } ∧
    free_of (set_free h.mem B 1) B = 1 ∧
    size_of (set_free h.mem B 1) B = size_of h.mem B ∧
    (∀ x, ¬ (B + 24 ≤ x ∧ x < B + 28) → set_free h.mem B 1 x = h.mem x) ∧
    wf { h with mem := set_free h.mem B 1 } (pre ++ B :: post) := by
  have _ := hlive
  obtain ⟨hch, hbase32, hbrk, hlim⟩ := hwf
  obtain ⟨hch1, hfields, _⟩ := chain_set_free h.mem h.brk pre post B 0 h.base 1 hch
  have hB : B ∈ pre ++ B :: post := by simp
  obtain ⟨hB0, hBend, hnx⟩ := chain_mem _ _ _ _ _ hch B hB
  obtain ⟨e1, e2, e3⟩ := hfields B hB
  have hnz : next_of h.mem B ≠ 0 := fun h0 =>
    hpost ((chain_post_nil h.mem h.brk pre post B 0 h.base hch).mp h0)
  have hnxeq : next_of h.mem B = B + BLOCK_SIZE + size_of h.mem B := by
    rcases hnx with h0 | h0
    · exact absurd h0 hnz
    · exact h0
  -- the flags of the neighbours are not touched
  have hfn : free_of (set_free h.mem B 1) (next_of h.mem B) = 0 := by
    rw [free_of_set_free_disj _ _ _ _ (by rw [hnxeq]; simp only [BLOCK_SIZE]; omega)]
    exact hnext
  have hfp : prev_of h.mem B = 0 ∨ free_of (set_free h.mem B 1) (prev_of h.mem B) = 0 := by
    rcases hprev with h0 | h0
    · exact Or.inl h0
    · by_cases hp0 : prev_of h.mem B = 0
      · exact Or.inl hp0
      · right
        obtain ⟨hpv, hpv0⟩ := chain_prev h.mem h.brk pre post B h.base hch
        rcases List.eq_nil_or_concat pre with hnil | ⟨front, P, hpre⟩
        · exact absurd (hpv0.mpr hnil) hp0
        · rw [List.concat_eq_append] at hpre
          subst hpre
          have hP : prev_of h.mem B = P := by rw [hpv]; simp
          have hlt := chain_lt h.mem h.brk (front ++ [P]) 0 h.base B post hch P (by simp)
          rw [hP] at h0 ⊢
          rw [free_of_set_free_disj _ _ _ _ (by simp only [BLOCK_SIZE] at hlt; omega)]
          exact h0
  obtain ⟨f, rfl⟩ : ∃ f, fuel = f + 1 := ⟨fuel - 1, by omega⟩
  have hfus : fusion (f + 1) (set_free h.mem B 1) B true = some (set_free h.mem B 1, B) := by
    have h1 := fusion_fwd_none (set_free h.mem B 1) B (Or.inr (by rw [e2]; exact hfn))
    have h2 := fusion_bck_none (set_free h.mem B 1) B false (by rw [e3]; exact hfp)
    simp [fusion, h1, h2]
  have hgp : get_pointer_to_meta_block (B + BLOCK_SIZE) = B :=
    get_pointer_anchor B (by simp only [W, BLOCK_SIZE] at *; omega)
  have hfree := my_free_eq (f + 1) h (B + BLOCK_SIZE) _ B hvalid (by rw [hgp]; exact hfus)
  rw [if_neg (by rw [e2]; exact hnz)] at hfree
  refine ⟨hfree, by rw [free_of_set_free]; decide, e1, ?_, hch1, hbase32, hbrk, hlim⟩
  intro x hx
  simp only [set_free, wrN_apply]
  rw [if_neg (by omega)]

/-- C13: after `my_free(p)` for the valid pointer `p` of a live block of a
well-formed chain in which no two adjacent blocks were free, the state is
well formed and no two adjacent blocks of its chain are both free. -/
theorem my_free_no_adjacent_free (h : Heap) (pre post : List Nat) (B fuel : Nat)
    (hwf : wf h (pre ++ B :: post)) (hlive : free_of h.mem B = 0)
    (hvalid : valid_addr h (B + BLOCK_SIZE) = true)
    (hinv : noAdjFree h.mem (pre ++ B :: post))
    (hfuel : pre.length + post.length < fuel) :
    ∃ h1 bs1, my_free fuel h (B + BLOCK_SIZE) = some h1 ∧ wf h1 bs1 ∧
      noAdjFree h1.mem bs1 := by
  have _ := hlive
  obtain ⟨m2, b2, pre2, post2, h1, _, hfree, g2, _, _, hframe, g8, g9, _, hA, hZ⟩ :=
    my_free_chain h pre post B fuel hwf hvalid hfuel
  have hold := (noAdjFree_iff h.mem h.brk _ 0 h.base hwf.1).mp hinv
  -- after `fusion` no free block has a free successor
  have hinv2 : ∀ x, x ∈ pre2 ++ b2 :: post2 → free_of m2 x ≠ 0 → next_of m2 x ≠ 0 →
      free_of m2 (next_of m2 x) = 0 := by
    intro x hx hfx hnx
    have hcase : x = b2 ∨ x ∈ pre2 ++ post2 := by
      rcases List.mem_append.mp hx with k | k
      · exact Or.inr (List.mem_append_left _ k)
      · rcases List.mem_cons.mp k with k | k
        · exact Or.inl k
        · exact Or.inr (List.mem_append_right _ k)
    rcases hcase with rfl | hx2
    · rcases g8 with k | k
      · exact absurd k hnx
      · exact k
    · obtain ⟨hymem, hyprev⟩ := chain_next_mem m2 h.brk _ 0 h.base g2 x hx hnx
      obtain ⟨hx0, _, hxn⟩ := chain_mem m2 h.brk _ 0 h.base g2 x hx
      have hycase : next_of m2 x = b2 ∨ next_of m2 x ∈ pre2 ++ post2 := by
        rcases List.mem_append.mp hymem with k | k
        · exact Or.inr (List.mem_append_left _ k)
        · rcases List.mem_cons.mp k with k | k
          · exact Or.inl k
          · exact Or.inr (List.mem_append_right _ k)
      rcases hycase with hy | hy
      · exfalso
        rw [hy] at hyprev
        rcases g9 with k | k
        · rw [hyprev] at k
          exact hx0 k
        · rw [hyprev] at k
          exact hfx k
      · obtain ⟨hxold, hxs, hxf⟩ := hframe x hx2
        obtain ⟨_, _, hyf⟩ := hframe _ hy
        have hxin : x ∈ pre ++ B :: post := by
          rcases List.mem_append.mp hxold with k | k
          · exact List.mem_append_left _ k
          · exact List.mem_append_right _ (List.mem_cons_of_mem B k)
        obtain ⟨_, _, hxno⟩ := chain_mem h.mem h.brk _ 0 h.base hwf.1 x hxin
        obtain ⟨_, hyend, _⟩ := chain_mem m2 h.brk _ 0 h.base g2 _ hymem
        have hnew : next_of m2 x = x + BLOCK_SIZE + size_of h.mem x := by
          rcases hxn with k | k
          · exact absurd k hnx
          · rw [k, hxs]
        have holdnx : next_of h.mem x = next_of m2 x := by
          rcases hxno with k | k
          · have := chain_tail_end h.mem h.brk _ 0 h.base hwf.1 x hxin k
            simp only [BLOCK_SIZE] at *
            omega
          · rw [k, hnew]
        rw [hyf, ← holdnx]
        exact hold x hxin (by rw [← hxf]; exact hfx) (by rw [holdnx]; exact hnx)
  by_cases hnz : next_of m2 b2 = 0
  · obtain ⟨hpost, hwf1, _, _, hP0, hP1⟩ := hZ hnz
    subst hpost
    refine ⟨h1, pre2, hfree, hwf1, ?_⟩
    by_cases hp : prev_of m2 b2 = 0
    · obtain ⟨hpre, _, _⟩ := hP0 hp
      subst hpre
      exact trivial
    · obtain ⟨_, _, _, _, hPn, hfr⟩ := hP1 hp
      refine (noAdjFree_iff h1.mem h1.brk pre2 0 h1.base hwf1.1).mpr ?_
      intro x hx hfx hnx
      have hxP : x ≠ prev_of m2 b2 := by
        intro k
        rw [k] at hnx
        exact hnx hPn
      obtain ⟨_, hxf, hxn⟩ := hfr x hx
      have hxn2 := hxn hxP
      have hx2 : x ∈ pre2 ++ [b2] := List.mem_append_left _ hx
      rw [hxn2] at hnx ⊢
      obtain ⟨hymem, hyprev⟩ := chain_next_mem m2 h.brk _ 0 h.base g2 x hx2 hnx
      have hy : next_of m2 x ∈ pre2 := by
        rcases List.mem_append.mp hymem with k | k
        · exact k
        · exfalso
          have : next_of m2 x = b2 := by simpa using k
          rw [this] at hyprev
          exact hxP hyprev.symm
      rw [(hfr _ hy).2.1]
      exact hinv2 x hx2 (by rw [← hxf]; exact hfx) hnx
  · obtain ⟨he, hwf1⟩ := hA hnz
    refine ⟨h1, pre2 ++ b2 :: post2, hfree, hwf1, ?_⟩
    refine (noAdjFree_iff h1.mem h1.brk _ 0 h1.base hwf1.1).mpr ?_
    rw [he]
    exact hinv2

/-- Releasing the only block of a well-formed chain empties the chain and sets
the break to the address of that block. -/
theorem my_free_sole (h : Heap) (B fuel : Nat) (hwf : wf h [B])
    (hvalid : valid_addr h (B + BLOCK_SIZE) = true) (hfuel : 0 < fuel) :
    ∃ h1, my_free fuel h (B + BLOCK_SIZE) = some h1 ∧ h1.base = 0 ∧ h1.brk = B ∧ wf h1 [] := by
  obtain ⟨m2, b2, pre2, post2, h1, _, hfree, g2, hwho, _, hframe, _, _, _, _, hZ⟩ :=
    my_free_chain h [] [] B fuel hwf hvalid (by simpa using hfuel)
  have hb : b2 = B := by
    rcases hwho with k | ⟨k, _⟩
    · exact k
    · simp at k
  have hnil : pre2 ++ post2 = [] := by
    cases hl : pre2 ++ post2 with
    | nil => rfl
    | cons c cs =>
      have := (hframe c (by rw [hl]; simp)).1
      simp at this
  have hpre : pre2 = [] := (List.append_eq_nil.mp hnil).1
  have hpost : post2 = [] := (List.append_eq_nil.mp hnil).2
  subst hpre hpost
  have hnz := (chain_post_nil m2 h.brk [] [] b2 0 h.base g2).mpr rfl
  have hpz := (chain_prev m2 h.brk [] [] b2 h.base g2).2.mpr rfl
  obtain ⟨_, hwf1, hbrk1, _, hP0, _⟩ := hZ hnz
  exact ⟨h1, hfree, (hP0 hpz).2.1, by rw [hbrk1, hb], hwf1⟩

/-- The first allocation on the empty heap puts one block at the break. -/
theorem first_malloc (fuel start limit n : Nat) (h1 : Heap) (p : Nat)
    (hstart : BLOCK_SIZE ≤ start) (hle : start ≤ limit) (hlim : limit + BLOCK_SIZE < 2 ^ 63)
    (hm : my_malloc fuel (emptyHeap start limit) n = some (h1, p)) (hp : p ≠ 0) :
    wf h1 [start] ∧ p = start + BLOCK_SIZE ∧ p < h1.brk := by
  have hsle := align_64b_le (toSsize n) (by simp only [toSsize, W]; split <;> omega)
  generalize hsdef : align_64b (toSsize n) = s at *
  have hanchor : anchor start = start + BLOCK_SIZE :=
    anchor_eq start (by simp only [W, BLOCK_SIZE] at *; omega)
  unfold my_malloc at hm
  rw [hsdef] at hm
  by_cases hs0 : s = 0
  · simp [hs0] at hm
    exact absurd hm.2.symm hp
  · have hmod : (s + BLOCK_SIZE) % W = s + BLOCK_SIZE :=
      Nat.mod_eq_of_lt (by simp only [W, BLOCK_SIZE] at *; omega)
    by_cases hfit : s + BLOCK_SIZE < 2 ^ 63 ∧ start + (s + BLOCK_SIZE) ≤ limit
    · have hsb : sbrk ⟨fun _ => 0, 0, start, limit⟩ (s + BLOCK_SIZE) =
          some ⟨fun _ => 0, 0, start + (s + BLOCK_SIZE), limit⟩ := by
        simp only [sbrk, hmod]
        rw [if_pos hfit.1, if_pos hfit.2]
      have hst0 : start ≠ 0 := by simp only [BLOCK_SIZE] at hstart; omega
      simp only [hs0, if_false, emptyHeap, extend_heap, hsb, ne_eq, not_true_eq_false,
        if_true, hst0, hanchor, Option.some.injEq, Prod.mk.injEq] at hm
      obtain ⟨e1, e2⟩ := hm
      subst e1
      have hsW : s % W = s := Nat.mod_eq_of_lt (by simp only [W] at *; omega)
      refine ⟨⟨?_, fun _ => hstart, ?_, hlim⟩, e2.symm, ?_⟩
      · refine ⟨rfl, hst0, ?_, ?_, ?_⟩
        · simp only [prev_of, set_prev, rd64_wr64, Nat.zero_mod]
        · simp (disch := omega) only [next_of, size_of, set_prev, set_free, set_next, set_size,
            rdN_wrN_disj, rd64_wr64, Nat.zero_mod, if_true, hsW]
          simp only [BLOCK_SIZE]
          omega
        · show next_of _ start = 0
          simp (disch := omega) only [next_of, set_prev, set_free, set_next, set_size,
            rdN_wrN_disj, rd64_wr64, Nat.zero_mod]
      · exact hfit.2
      · show p < start + (s + BLOCK_SIZE)
        have hs1 := Nat.pos_of_ne_zero hs0
        rw [← e2]
        exact Nat.add_lt_add_left (Nat.lt_add_of_pos_left hs1) start
    · have hsb : sbrk ⟨fun _ => 0, 0, start, limit⟩ (s + BLOCK_SIZE) = none := by
        simp only [sbrk, hmod]
        by_cases h63 : s + BLOCK_SIZE < 2 ^ 63
        · rw [if_pos h63, if_neg (by omega)]
        · rw [if_neg h63, if_neg (by simp only [W, BLOCK_SIZE] at *; omega)]
      simp only [hs0, if_false, emptyHeap, extend_heap, hsb, if_true, Option.some.injEq,
        Prod.mk.injEq] at hm
      exact absurd hm.2.symm hp

/-- C14: on a well-formed chain, when the block `b2` that `fusion` returns for the
released live block has no successor, `my_free` leaves a well-formed chain
without `b2` whose break is the header address of `b2`; the predecessor of `b2`
is the new tail, or the head is NULL when `b2` had no predecessor. Releasing the
only block empties the chain and sets the break to that block, and releasing the
first allocation made on the empty heap restores the break of the empty heap. -/
theorem my_free_tail (h : Heap) (pre post : List Nat) (B fuel : Nat)
    (hwf : wf h (pre ++ B :: post)) (hlive : free_of h.mem B = 0)
    (hvalid : valid_addr h (B + BLOCK_SIZE) = true)
    (hfuel : pre.length + post.length < fuel) :
    (∃ m2 b2, fusion fuel (set_free h.mem B 1) B true = some (m2, b2) ∧
      (next_of m2 b2 = 0 → ∃ h1 rest, my_free fuel h (B + BLOCK_SIZE) = some h1 ∧
        wf h1 rest ∧ b2 ∉ rest ∧
        (∀ x, x ∈ rest → x ∈ pre ++ post ∧ size_of h1.mem x = size_of h.mem x ∧
          free_of h1.mem x = free_of h.mem x) ∧ h1.brk = b2 ∧
        (prev_of m2 b2 = 0 → h1.base = 0 ∧ rest = []) ∧
        (prev_of m2 b2 ≠ 0 → h1.base = h.base ∧ rest.getLastD 0 = prev_of m2 b2 ∧
          next_of h1.mem (prev_of m2 b2) = 0))) ∧
    (pre = [] → post = [] → ∃ h1, my_free fuel h (B + BLOCK_SIZE) = some h1 ∧
      h1.base = 0 ∧ h1.brk = B ∧ wf h1 []) ∧
    (∀ start limit n h0 p, BLOCK_SIZE ≤ start → start % 8 = 0 → start ≤ limit →
      limit + BLOCK_SIZE < 2 ^ 63 →
      my_malloc fuel (emptyHeap start limit) n = some (h0, p) → p ≠ 0 →
      ∃ h1, my_free fuel h0 p = some h1 ∧ h1.base = 0 ∧ h1.brk = start ∧ wf h1 []) := by
  have _ := hlive
  have hfuel0 : 0 < fuel := by omega
  refine ⟨?_, ?_, ?_⟩
  · obtain ⟨m2, b2, pre2, post2, h1, hfus, hfree, g2, _, _, hframe, _, _, _, _, hZ⟩ :=
      my_free_chain h pre post B fuel hwf hvalid hfuel
    refine ⟨m2, b2, hfus, fun hnz => ?_⟩
    obtain ⟨hpost, hwf1, hbrk1, _, hP0, hP1⟩ := hZ hnz
    refine ⟨h1, pre2, hfree, hwf1, ?_, ?_, hbrk1, ?_, ?_⟩
    · intro hmem
      have := chain_lt m2 h.brk pre2 0 h.base b2 post2 g2 b2 hmem
      simp only [BLOCK_SIZE] at this
      omega
    · intro x hx
      have hx1 := hframe x (List.mem_append_left _ hx)
      by_cases hp : prev_of m2 b2 = 0
      · rw [(hP0 hp).1] at hx
        simp at hx
      · obtain ⟨_, _, _, _, _, e6⟩ := hP1 hp
        exact ⟨hx1.1, (e6 x hx).1.trans hx1.2.1, (e6 x hx).2.1.trans hx1.2.2⟩
    · intro hp
      exact ⟨(hP0 hp).2.1, (hP0 hp).1⟩
    · intro hp
      obtain ⟨e1, _, _, e4, e5, _⟩ := hP1 hp
      exact ⟨e1, e4, e5⟩
  · intro hpre hpost
    subst hpre hpost
    exact my_free_sole h B fuel hwf hvalid hfuel0
  · intro start limit n h0 p hstart h8 hle hlim hm hp
    obtain ⟨hwf0, hpe, hpb⟩ := first_malloc fuel start limit n h0 p hstart hle hlim hm hp
    have hbase : h0.base = start := hwf0.1.1
    have hv : valid_addr h0 (start + BLOCK_SIZE) = true := by
      rw [valid_addr_eq h0 _ (by simp only [W, BLOCK_SIZE] at *; omega)]
      rw [hpe] at hpb
      simp only [decide_eq_true_eq, hbase]
      simp only [BLOCK_SIZE] at *
      omega
    rw [hpe]
    exact my_free_sole h0 start fuel hwf0 hv hfuel0

/-- On `reuseHeap` (blocks 4096, 4136, 4184, 4280, of which 4184 is free) the
release of the tail block 4280 coalesces it into 4184, which is then removed: the
break becomes 4184 and block 4136 is the tail. -/
theorem my_free_tail_witness :
    wf reuseHeap ([4096, 4136, 4184] ++ 4280 :: []) ∧ free_of reuseHeap.mem 4280 = 0 ∧
    ∃ h1 rest, my_free 4 reuseHeap (4280 + BLOCK_SIZE) = some h1 ∧ wf h1 rest ∧
      h1.brk = 4184 ∧ h1.base = 4096 ∧ rest.getLastD 0 = 4136 ∧ next_of h1.mem 4136 = 0 := by
  have hwf : wf reuseHeap ([4096, 4136, 4184] ++ 4280 :: []) := by decide!
  have hlive : free_of reuseHeap.mem 4280 = 0 := by decide!
  obtain ⟨⟨m2, b2, hfus, hT⟩, _, _⟩ := my_free_tail reuseHeap [4096, 4136, 4184] [] 4280 4
    hwf hlive (by decide!) (by decide)
  have hb : (fusion 4 (set_free reuseHeap.mem 4280 1) 4280 true).map
      (fun r => (r.2, next_of r.1 r.2, prev_of r.1 r.2)) = some (4184, 0, 4136) := by decide!
  rw [hfus] at hb
  simp only [Option.map_some', Option.some.injEq, Prod.mk.injEq] at hb
  obtain ⟨hb2, hn, hp⟩ := hb
  obtain ⟨h1, rest, e1, e2, _, _, e5, _, e7⟩ := hT hn
  obtain ⟨g1, g2, g3⟩ := e7 (by rw [hp]; decide)
  rw [hp] at g2 g3
  exact ⟨hwf, hlive, h1, rest, e1, e2, e5.trans hb2, g1.trans (by decide!), g2, g3⟩

/-- On `threeBlockHeap` the release of the middle block 4144 only sets its free
flag. -/
theorem my_free_middle_witness :
    wf threeBlockHeap ([4096] ++ 4144 :: [4192]) ∧ free_of threeBlockHeap.mem 4144 = 0 ∧
    my_free 1 threeBlockHeap (4144 + BLOCK_SIZE) =
      some { threeBlockHeap with mem := set_free threeBlockHeap.mem 4144 1 } ∧
    free_of (set_free threeBlockHeap.mem 4144 1) 4144 = 1 ∧
    wf { threeBlockHeap with mem := set_free threeBlockHeap.mem 4144 1 }
      ([4096] ++ 4144 :: [4192]) := by
  have hwf : wf threeBlockHeap ([4096] ++ 4144 :: [4192]) := by decide!
  have hlive : free_of threeBlockHeap.mem 4144 = 0 := by decide!
  obtain ⟨e1, e2, _, _, e5⟩ := my_free_middle threeBlockHeap [4096] [4192] 4144 1
    hwf (by decide) hlive (by decide!) (by decide!) (by decide!) (by decide)
  exact ⟨hwf, hlive, e1, e2, e5⟩

/-- On `reuseHeap`, where only block 4184 is free, the release of its live
predecessor 4136 leaves a well-formed chain without adjacent free blocks. -/
theorem my_free_no_adjacent_free_witness :
    wf reuseHeap ([4096] ++ 4136 :: [4184, 4280]) ∧
    noAdjFree reuseHeap.mem ([4096] ++ 4136 :: [4184, 4280]) ∧
    free_of reuseHeap.mem 4136 = 0 ∧ free_of reuseHeap.mem 4184 = 1 ∧
    ∃ h1 bs1, my_free 4 reuseHeap (4136 + BLOCK_SIZE) = some h1 ∧ wf h1 bs1 ∧
      noAdjFree h1.mem bs1 := by
  have hwf : wf reuseHeap ([4096] ++ 4136 :: [4184, 4280]) := by decide!
  have hinv : noAdjFree reuseHeap.mem ([4096] ++ 4136 :: [4184, 4280]) := by decide!
  have hlive : free_of reuseHeap.mem 4136 = 0 := by decide!
  exact ⟨hwf, hinv, hlive, by decide!,
    my_free_no_adjacent_free reuseHeap [4096] [4184, 4280] 4136 4 hwf hlive (by decide!) hinv
      (by decide)⟩

/-! ## Chain invariants after reallocation -/

/-- C21: in `zeroSizeScenario` the call `my_realloc(a, 0)` on the live 64-byte
block at 4096 returns `a = 4128` and splits the block at 0: the block at 4096 is
allocated with size 0, followed at 4128, the address of `a`, by a free block of
size 32. -/
theorem realloc_zero_makes_empty_block :
    zeroSizeScenario.map (fun r => [r.2, r.1.base, size_of r.1.mem 4096,
      free_of r.1.mem 4096, next_of r.1.mem 4096, size_of r.1.mem 4128,
      free_of r.1.mem 4128]) = some [4128, 4096, 0, 0, 4128, 32, 1] := by
  decide!

/-- C22: in `overlapScenario` the call `my_realloc(b, 1000)` returns `q = 4264` and
leaves the head block at 4096 with size 96 and `next = 4184`: the block ends at
`4096 + 32 + 96 = 4224`, inside the block at 4184 that follows it. -/
theorem realloc_move_breaks_tiling :
    overlapScenario.map (fun r => [r.2, r.1.base, size_of r.1.mem 4096,
      next_of r.1.mem 4096, prev_of r.1.mem 4184]) = some [4264, 4096, 96, 4184, 4096] ∧
    overlapScenario.map (fun r => decide (r.1.base + BLOCK_SIZE + size_of r.1.mem r.1.base =
      next_of r.1.mem r.1.base)) = some false := by
  decide!

/-! ## The run of blocks merged by `fusion` -/

/-- One round of `fusion` on a block of a chain, with the blocks it absorbs
named: `l` (at most the predecessor) and `r` (at most the successor) are free,
the resulting block is the first of `l ++ [B]` and takes their extents. -/
theorem fusion_round_run (m : Mem) (brk : Nat) (pre post : List Nat) (B a : Nat)
    (hbrk : brk < W) (hc : chain m brk 0 a (pre ++ B :: post)) :
    ∃ pre1 l r post1 m1 b1 ok,
      fusion_bck (fusion_fwd m B).1 B (fusion_fwd m B).2 = (m1, b1, ok) ∧
      pre = pre1 ++ l ∧ post = r ++ post1 ∧ b1 = (l ++ [B]).headD B ∧
      (∀ x, x ∈ l ++ r → free_of m x ≠ 0) ∧
      chain m1 brk 0 a (pre1 ++ b1 :: post1) ∧
      size_of m1 b1 =
        size_of m B + ((l ++ r).map (fun x => size_of m x + BLOCK_SIZE)).sum ∧
      free_of m1 b1 = free_of m b1 ∧
      (∀ x, x ∈ pre1 ++ post1 → size_of m1 x = size_of m x ∧ free_of m1 x = free_of m x) ∧
      (ok = true → 0 < l.length + r.length) ∧
      (ok = false → m1 = m ∧ l = [] ∧ r = [] ∧
        (next_of m B = 0 ∨ free_of m (next_of m B) = 0) ∧
        (prev_of m B = 0 ∨ free_of m (prev_of m B) = 0)) := by
  rcases fusion_fwd_chain m brk pre post B 0 a hbrk hc with
    ⟨hf, _, hn⟩ | ⟨n, rest, hpost, hfree, hok, hch1, hsz1, hfr1, hframe1⟩
  · rcases fusion_bck_chain m brk pre post B a false hbrk hc with
      ⟨hb, _, hp⟩ | ⟨P, front, hpre, hfreeP, hres, hch2, hsz2, hfr2, hframe2⟩
    · exact ⟨pre, [], [], post, m, B, false, by rw [hf, hb], by simp, by simp, rfl,
        by simp, hc, by simp, rfl, fun x _ => ⟨rfl, rfl⟩, by simp,
        fun _ => ⟨rfl, rfl, rfl, hn, hp⟩⟩
    · refine ⟨front, [P], [], post, (fusion_bck m B false).1, P, true, ?_, hpre, by simp,
        rfl, ?_, hch2, ?_, hfr2, hframe2, by simp, by simp⟩
      · rw [hf]
        exact Prod.ext rfl hres
      · intro x hx
        simp only [List.append_nil, List.mem_singleton] at hx
        rw [hx]
        exact hfreeP
      · rw [hsz2]
        simp only [List.append_nil, List.map_cons, List.map_nil, List.sum_cons, List.sum_nil]
        omega
  · have hfront : ∀ x, x ∈ pre → size_of (fusion_fwd m B).1 x = size_of m x ∧
        free_of (fusion_fwd m B).1 x = free_of m x :=
      fun x hx => hframe1 x (List.mem_append_left rest hx)
    rcases fusion_bck_chain (fusion_fwd m B).1 brk pre rest B a true hbrk hch1 with
      ⟨hb, _, _⟩ | ⟨P, front, hpre, hfreeP, hres, hch2, hsz2, hfr2, hframe2⟩
    · refine ⟨pre, [], [n], rest, (fusion_fwd m B).1, B, true, by rw [hok, hb], by simp,
        hpost, rfl, ?_, hch1, ?_, hfr1, hframe1, by simp, by simp⟩
      · intro x hx
        simp only [List.nil_append, List.mem_singleton] at hx
        rw [hx]
        exact hfree
      · rw [hsz1]
        simp only [List.nil_append, List.map_cons, List.map_nil, List.sum_cons, List.sum_nil]
        omega
    · have hPpre : P ∈ pre := by simp [hpre]
      have hfreeP2 : free_of m P ≠ 0 := by
        rw [← (hfront P hPpre).2]
        exact hfreeP
      refine ⟨front, [P], [n], rest, (fusion_bck (fusion_fwd m B).1 B true).1, P, true, ?_,
        hpre, hpost, rfl, ?_, hch2, ?_, ?_, ?_, by simp, by simp⟩
      · rw [hok]
        exact Prod.ext rfl hres
      · intro x hx
        simp only [List.singleton_append, List.mem_cons, List.mem_singleton,
          List.not_mem_nil, or_false] at hx
        rcases hx with hx | hx
        · rw [hx]; exact hfreeP2
        · rw [hx]; exact hfree
      · rw [hsz2, hsz1, (hfront P hPpre).1]
        simp only [List.singleton_append, List.map_cons, List.map_nil, List.sum_cons,
          List.sum_nil]
        omega
      · rw [hfr2, (hfront P hPpre).2]
      · intro x hx
        have hx1 : x ∈ pre ++ rest := by
          rw [hpre]
          rcases List.mem_append.mp hx with h | h
          · exact List.mem_append_left _ (List.mem_append_left _ h)
          · exact List.mem_append_right _ h
        exact ⟨by rw [(hframe2 x hx).1, (hframe1 x hx1).1],
          by rw [(hframe2 x hx).2, (hframe1 x hx1).2]⟩

theorem headD_append_headD (L l : List Nat) (B : Nat) :
    (L ++ [(l ++ [B]).headD B]).headD ((l ++ [B]).headD B) = ((L ++ l) ++ [B]).headD B := by
  cases L with
  | nil => simp
  | cons c cs => simp

/-- With fuel above the number of the other blocks, `fusion(B, 1)` on a block of
a chain returns; the blocks it absorbs are the free blocks `L` directly before
`B` and `R` directly after `B`, up to the nearest allocated block (or the end of
the chain) on each side. -/
theorem fusion_run (brk a : Nat) (hbrk : brk < W) :
    ∀ (fuel : Nat) (m : Mem) (pre post : List Nat) (B : Nat),
      chain m brk 0 a (pre ++ B :: post) → pre.length + post.length < fuel →
      ∃ m2 pre2 L R post2,
        pre = pre2 ++ L ∧ post = R ++ post2 ∧
        (∀ x, x ∈ L ++ R → free_of m x ≠ 0) ∧
        (∀ x, pre2.getLast? = some x → free_of m x = 0) ∧
        (∀ x, post2.head? = some x → free_of m x = 0) ∧
        fusion fuel m B true = some (m2, (L ++ [B]).headD B) ∧
        chain m2 brk 0 a (pre2 ++ (L ++ [B]).headD B :: post2) ∧
        size_of m2 ((L ++ [B]).headD B) =
          size_of m B + ((L ++ R).map (fun x => size_of m x + BLOCK_SIZE)).sum ∧
        free_of m2 ((L ++ [B]).headD B) = free_of m ((L ++ [B]).headD B) ∧
        (∀ x, x ∈ pre2 ++ post2 → size_of m2 x = size_of m x ∧
          free_of m2 x = free_of m x) := by
  intro fuel
  induction fuel with
  | zero => intro m pre post B _ hf; omega
  | succ f ih =>
    intro m pre post B hc hf
    obtain ⟨pre1, l, r, post1, m1, b1, ok, hr, hpre, hpost, hb1, hfreelr, hch, hsz, hfr,
      hframe, hlt, hstop⟩ := fusion_round_run m brk pre post B a hbrk hc
    have hfus : fusion (f + 1) m B true =
        if ok then fusion f m1 b1 true else some (m1, b1) := by
      simp [fusion, hr]
    rw [hfus]
    cases ok with
    | false =>
      obtain ⟨hm, hl, hrn, hnx, hpv⟩ := hstop rfl
      subst hm hl hrn
      simp only [List.append_nil, List.nil_append] at hpre hpost
      subst hpre hpost
      simp only [List.nil_append, List.headD_cons] at hb1
      subst hb1
      refine ⟨m1, pre, [], [], post, by simp, by simp, by simp, ?_, ?_, by simp, hc,
        by simp, rfl, fun x _ => ⟨rfl, rfl⟩⟩
      · intro x hx
        obtain ⟨hp, _⟩ := chain_prev m1 brk pre post b1 a hc
        have hxm := List.mem_of_getLast?_eq_some hx
        have hx0 := (chain_mem m1 brk _ 0 a hc x (List.mem_append_left _ hxm)).1
        have hD : pre.getLastD 0 = x := by rw [List.getLastD_eq_getLast?, hx]; rfl
        rw [hD] at hp
        rw [hp] at hpv
        rcases hpv with h | h
        · exact absurd h hx0
        · exact h
      · intro x hx
        obtain ⟨ys, hys⟩ := List.head?_eq_some_iff.mp hx
        subst hys
        obtain ⟨q, c, hsuf⟩ := chain_suffix m1 brk pre _ 0 a hc
        obtain ⟨_, _, _, hBn, _, hx0, _⟩ := chain_pair m1 brk b1 x ys q c hsuf
        rw [hBn] at hnx
        rcases hnx with h | h
        · exact absurd h hx0
        · exact h
    | true =>
      have hlen := hlt rfl
      have hlens : pre1.length + post1.length < f := by
        have e1 := congrArg List.length hpre
        have e2 := congrArg List.length hpost
        simp only [List.length_append] at e1 e2
        omega
      obtain ⟨m2, pre2, L, R, post2, gpre, gpost, gfree, gmaxl, gmaxr, gfus, gch, gsz, gfr,
        gframe⟩ := ih m1 pre1 post1 b1 hch hlens
      have hLpre1 : ∀ x, x ∈ L → x ∈ pre1 ++ post1 := fun x hx =>
        List.mem_append_left _ (by rw [gpre]; exact List.mem_append_right _ hx)
      have hRpost1 : ∀ x, x ∈ R → x ∈ pre1 ++ post1 := fun x hx =>
        List.mem_append_right _ (by rw [gpost]; exact List.mem_append_left _ hx)
      have hhead : (L ++ [b1]).headD b1 = ((L ++ l) ++ [B]).headD B := by
        rw [hb1]
        exact headD_append_headD L l B
      rw [hhead] at gfus gch gsz gfr
      refine ⟨m2, pre2, L ++ l, r ++ R, post2, ?_, ?_, ?_, ?_, ?_, gfus, gch, ?_, ?_, ?_⟩
      · rw [hpre, gpre, List.append_assoc]
      · rw [hpost, gpost, List.append_assoc]
      · intro x hx
        simp only [List.mem_append] at hx
        rcases hx with (hx | hx) | (hx | hx)
        · rw [← (hframe x (hLpre1 x hx)).2]
          exact gfree x (List.mem_append_left _ hx)
        · exact hfreelr x (List.mem_append_left _ hx)
        · exact hfreelr x (List.mem_append_right _ hx)
        · rw [← (hframe x (hRpost1 x hx)).2]
          exact gfree x (List.mem_append_right _ hx)
      · intro x hx
        have hxm : x ∈ pre1 ++ post1 := List.mem_append_left _
          (by rw [gpre]; exact List.mem_append_left _ (List.mem_of_getLast?_eq_some hx))
        rw [← (hframe x hxm).2]
        exact gmaxl x hx
      · intro x hx
        have hxm : x ∈ pre1 ++ post1 := List.mem_append_right _
          (by rw [gpost]; exact List.mem_append_right _ (List.mem_of_mem_head? hx))
        rw [← (hframe x hxm).2]
        exact gmaxr x hx
      · rw [gsz, hsz]
        have hmap : (L ++ R).map (fun x => size_of m1 x + BLOCK_SIZE) =
            (L ++ R).map (fun x => size_of m x + BLOCK_SIZE) := by
          apply List.map_congr_left
          intro x hx
          rcases List.mem_append.mp hx with h | h
          · rw [(hframe x (hLpre1 x h)).1]
          · rw [(hframe x (hRpost1 x h)).1]
        rw [hmap]
        simp only [List.map_append, List.sum_append]
        omega
      · rw [gfr]
        cases L with
        | nil =>
          simp only [List.nil_append] at hhead ⊢
          rw [← hb1]
          exact hfr
        | cons c cs =>
          simp only [List.cons_append, List.headD_cons]
          exact (hframe c (hLpre1 c (List.mem_cons_self c cs))).2
      · intro x hx
        have hxm : x ∈ pre1 ++ post1 := by
          rcases List.mem_append.mp hx with h | h
          · exact List.mem_append_left _ (by rw [gpre]; exact List.mem_append_left _ h)
          · exact List.mem_append_right _ (by rw [gpost]; exact List.mem_append_right _ h)
        exact ⟨by rw [(gframe x hx).1, (hframe x hxm).1],
          by rw [(gframe x hx).2, (hframe x hxm).2]⟩

/-- C23: on a block `B` of a chain `pre ++ B :: post`, with fuel above the number
of the other blocks, `fusion(B, 1)` returns. With `L` the free blocks directly
before `B` and `R` the free blocks directly after it, each run ending at the
nearest allocated block or at the end of the chain, the result is the first
block of `L ++ [B]`; its size is the size of `B` plus `size + 32` for every block
of `L ++ R`; the chain without the absorbed blocks is again a chain up to the
same break; the remaining blocks keep size and flag, the flag of the result is
untouched, and neither neighbour of the result is free. On the heaps of
`test_fusion_2_blocks_fwd`, `test_fusion_2_blocks_bck` and
`test_fusion_4_blocks` the results are the blocks 4096, 4096 and 4144 with
sizes 64, 64 and `16*4 + 32*3`. -/
theorem fusion_maximal_run (m : Mem) (brk a fuel B : Nat) (pre post : List Nat)
    (hbrk : brk < W) (hc : chain m brk 0 a (pre ++ B :: post))
    (hfuel : pre.length + post.length < fuel) :
    (∃ m2 pre2 L R post2,
      pre = pre2 ++ L ∧ post = R ++ post2 ∧
      (∀ x, x ∈ L ++ R → free_of m x ≠ 0) ∧
      (∀ x, pre2.getLast? = some x → free_of m x = 0) ∧
      (∀ x, post2.head? = some x → free_of m x = 0) ∧
      fusion fuel m B true = some (m2, (L ++ [B]).headD B) ∧
      chain m2 brk 0 a (pre2 ++ (L ++ [B]).headD B :: post2) ∧
      size_of m2 ((L ++ [B]).headD B) =
        size_of m B + ((L ++ R).map (fun x => size_of m x + BLOCK_SIZE)).sum ∧
      free_of m2 ((L ++ [B]).headD B) = free_of m ((L ++ [B]).headD B) ∧
      (∀ x, x ∈ pre2 ++ post2 → size_of m2 x = size_of m x ∧
        free_of m2 x = free_of m x) ∧
      (next_of m2 ((L ++ [B]).headD B) = 0 ∨
        free_of m2 (next_of m2 ((L ++ [B]).headD B)) = 0) ∧
      (prev_of m2 ((L ++ [B]).headD B) = 0 ∨
        free_of m2 (prev_of m2 ((L ++ [B]).headD B)) = 0)) ∧
    (fusion 2 twoFreeHeap.mem 4096 true).map (fun r => (r.2, size_of r.1 r.2))
      = some (4096, 64) ∧
    (fusion 2 twoFreeHeap.mem 4144 true).map (fun r => (r.2, size_of r.1 r.2))
      = some (4096, 64) ∧
    (fusion 6 sixBlockHeap.mem 4240 true).map (fun r => (r.2, size_of r.1 r.2))
      = some (4144, 16 * 4 + 32 * 3) := by
  refine ⟨?_, by decide!, by decide!, by decide!⟩
  obtain ⟨m2, pre2, L, R, post2, gpre, gpost, gfree, gmaxl, gmaxr, gfus, gch, gsz, gfr,
    gframe⟩ := fusion_run brk a hbrk fuel m pre post B hc hfuel
  refine ⟨m2, pre2, L, R, post2, gpre, gpost, gfree, gmaxl, gmaxr, gfus, gch, gsz, gfr,
    gframe, ?_, ?_⟩
  · cases post2 with
    | nil => exact Or.inl ((chain_post_nil m2 brk pre2 [] _ 0 a gch).mpr rfl)
    | cons d ds =>
      right
      obtain ⟨q, c, hsuf⟩ := chain_suffix m2 brk pre2 _ 0 a gch
      obtain ⟨_, _, _, hBn, _⟩ := chain_pair m2 brk _ d ds q c hsuf
      rw [hBn, (gframe d (by simp)).2]
      exact gmaxr d rfl
  · obtain ⟨hp, _⟩ := chain_prev m2 brk pre2 post2 _ a gch
    rcases List.eq_nil_or_concat pre2 with hnil | ⟨front, P, hP⟩
    · left
      rw [hp, hnil]
      rfl
    · right
      rw [List.concat_eq_append] at hP
      have hl : pre2.getLast? = some P := by rw [hP]; simp
      have hD : pre2.getLastD 0 = P := by rw [List.getLastD_eq_getLast?, hl]; rfl
      rw [hp, hD, (gframe P (by rw [hP]; simp)).2]
      exact gmaxl P hl

/-- On `sixBlockHeap`, as in `test_fusion_4_blocks`, `fusion` on the block at 4240
returns the block at 4144 with size 160. -/
theorem fusion_maximal_run_witness :
    chain sixBlockHeap.mem sixBlockHeap.brk 0 sixBlockHeap.base
      ([4096, 4144, 4192] ++ 4240 :: [4288, 4336]) ∧
    ∃ m2 pre2 L R post2,
      [4096, 4144, 4192] = pre2 ++ L ∧ [4288, 4336] = R ++ post2 ∧
      (∀ x, x ∈ L ++ R → free_of sixBlockHeap.mem x ≠ 0) ∧
      (∀ x, pre2.getLast? = some x → free_of sixBlockHeap.mem x = 0) ∧
      (∀ x, post2.head? = some x → free_of sixBlockHeap.mem x = 0) ∧
      fusion 6 sixBlockHeap.mem 4240 true = some (m2, (L ++ [4240]).headD 4240) ∧
      chain m2 sixBlockHeap.brk 0 sixBlockHeap.base
        (pre2 ++ (L ++ [4240]).headD 4240 :: post2) := by
  have hc : chain sixBlockHeap.mem sixBlockHeap.brk 0 sixBlockHeap.base
      ([4096, 4144, 4192] ++ 4240 :: [4288, 4336]) := by decide!
  obtain ⟨⟨m2, pre2, L, R, post2, e1, e2, e3, e4, e5, e6, e7, _⟩, _⟩ :=
    fusion_maximal_run sixBlockHeap.mem sixBlockHeap.brk sixBlockHeap.base 6 4240
      [4096, 4144, 4192] [4288, 4336] (by decide!) hc (by decide)
  exact ⟨hc, m2, pre2, L, R, post2, e1, e2, e3, e4, e5, e6, e7⟩

/-! ## Splitting a block -/

/-- The bytes `split_block(b, k)` leaves alone: everything outside the header of
`b`, the header of the new block and the `prev` field of the old successor. -/
theorem split_block_frame (m : Mem) (b k : Nat)
    (hk : k + BLOCK_SIZE + 8 ≤ size_of m b)
    (hb : b + BLOCK_SIZE + size_of m b < W)
    (hnx : next_of m b = 0 ∨ next_of m b = b + BLOCK_SIZE + size_of m b) (x : Nat)
    (h1 : ¬ (b ≤ x ∧ x < b + BLOCK_SIZE))
    (h2 : ¬ (b + BLOCK_SIZE + k ≤ x ∧ x < b + BLOCK_SIZE + k + BLOCK_SIZE))
    (h3 : ¬ (next_of m b ≠ 0 ∧ next_of m b + 16 ≤ x ∧ x < next_of m b + 24)) :
    split_block m b k x = m x := by
  have hM := size_of_lt m b
  have ha : anchor b = b + BLOCK_SIZE := anchor_eq b (by omega)
  generalize hMdef : size_of m b = M at *
  generalize hnxdef : next_of m b = nx at *
  have hnxlt : nx < W := hnxdef ▸ next_of_lt m b
  simp only [size_of, next_of] at hMdef hnxdef
  simp only [W, BLOCK_SIZE] at *
  rcases hnx with h0 | h0
  · subst h0
    simp (disch := omega) only [split_block, ha, size_of, next_of, prev_of, free_of, set_size,
      set_next, set_prev, set_free, rdN_wrN_disj, rd64_wr64, rd32_wr32, hMdef, hnxdef,
      W, BLOCK_SIZE, ne_eq, not_true_eq_false, if_false, Nat.zero_mod, Nat.mod_eq_of_lt,
      wrN_apply, if_neg]
  · have hnx0 : ¬ nx = 0 := by omega
    simp (disch := omega) only [split_block, ha, size_of, next_of, prev_of, free_of, set_size,
      set_next, set_prev, set_free, rdN_wrN_disj, rd64_wr64, rd32_wr32, hMdef, hnxdef,
      W, BLOCK_SIZE, ne_eq, not_true_eq_false, if_false, Nat.zero_mod, Nat.mod_eq_of_lt, hnx0,
      not_false_eq_true, if_true, wrN_apply, if_neg]

/-- C24: for a block `b` of size `m0` in a chain and `k` with `m0 >= k + 32 + 8`,
`split_block(b, k)` sets `b.size = k`, `b.free = 0` and `b.next = n`, where the
new block `n` at `b.payload + k` is free with size `m0 - k - 32`, `prev = b` and
`next =` the old successor of `b`, whose `prev` becomes `n`; `b.prev`, the
fields of every other block (but that `prev`) and all bytes outside the two
headers and that `prev` field are unchanged; the chain with `n` inserted after
`b` is again a chain up to the same break, `k + 32 + n.size = m0` and
`n.size >= 8`. In `splitHeap` the 64-byte block split at 16 gives sizes 16 and
16. -/
theorem split_block_spec (m : Mem) (brk a b k : Nat) (pre post : List Nat)
    (hbrk : brk < W) (hc : chain m brk 0 a (pre ++ b :: post))
    (hk : k + BLOCK_SIZE + 8 ≤ size_of m b) :
    size_of (split_block m b k) b = k ∧ free_of (split_block m b k) b = 0 ∧
    next_of (split_block m b k) b = anchor b + k ∧
    prev_of (split_block m b k) b = prev_of m b ∧
    size_of (split_block m b k) (anchor b + k) = size_of m b - k - BLOCK_SIZE ∧
    free_of (split_block m b k) (anchor b + k) = 1 ∧
    prev_of (split_block m b k) (anchor b + k) = b ∧
    next_of (split_block m b k) (anchor b + k) = next_of m b ∧
    (next_of m b ≠ 0 → prev_of (split_block m b k) (next_of m b) = anchor b + k) ∧
    (∀ x, x ∈ pre ++ post → size_of (split_block m b k) x = size_of m x ∧
      free_of (split_block m b k) x = free_of m x ∧
      next_of (split_block m b k) x = next_of m x ∧
      (x ≠ next_of m b → prev_of (split_block m b k) x = prev_of m x)) ∧
    (∀ x, ¬ (b ≤ x ∧ x < b + BLOCK_SIZE) →
      ¬ (anchor b + k ≤ x ∧ x < anchor b + k + BLOCK_SIZE) →
      ¬ (next_of m b ≠ 0 ∧ next_of m b + 16 ≤ x ∧ x < next_of m b + 24) →
      split_block m b k x = m x) ∧
    chain (split_block m b k) brk 0 a (pre ++ b :: (anchor b + k) :: post) ∧
    k + BLOCK_SIZE + size_of (split_block m b k) (anchor b + k) = size_of m b ∧
    8 ≤ size_of (split_block m b k) (anchor b + k) ∧
    (size_of (split_block splitHeap.mem 4136 16) 4136 = 16 ∧
      size_of (split_block splitHeap.mem 4136 16) (anchor 4136 + 16) = 16) := by
  have hbmem : b ∈ pre ++ b :: post := by simp
  obtain ⟨hb0, hbend, hbnx⟩ := chain_mem m brk _ 0 a hc b hbmem
  have hbW : b + BLOCK_SIZE + size_of m b < W := by omega
  have ha : anchor b = b + BLOCK_SIZE := anchor_eq b (by omega)
  rw [ha]
  obtain ⟨f1, f2, f3, f4, f5, f6, f7, f8, f9⟩ := split_block_fields m b k hk hbW hbnx
  have hframe := split_block_frame m b k hk hbW hbnx
  obtain ⟨q, c, hsuf⟩ := chain_suffix m brk pre (b :: post) 0 a hc
  -- the successor of `b` is the head of `post`
  have hnxpost : ∀ x, x ∈ pre ++ post → x = next_of m b → post.head? = some x := by
    intro x hx hxe
    cases post with
    | nil =>
      have h0 : next_of m b = 0 := hsuf.2.2.2.2
      have := (chain_mem m brk _ 0 a hc x (by
        rcases List.mem_append.mp hx with h | h
        · exact List.mem_append_left _ h
        · simp at h)).1
      omega
    | cons d ds =>
      have hd : next_of m b = d := hsuf.2.2.2.2.1
      simp [hxe, hd]
  -- the other blocks lie outside the extent of `b`
  have hsep : ∀ x, x ∈ pre ++ post →
      x + BLOCK_SIZE + size_of m x ≤ b ∨ b + BLOCK_SIZE + size_of m b ≤ x := by
    intro x hx
    rcases List.mem_append.mp hx with h | h
    · exact Or.inl (chain_lt m brk pre 0 a b post hc x h)
    · exact Or.inr (chain_gt m brk post q c b hsuf x h)
  have hother : ∀ x, x ∈ pre ++ post → size_of (split_block m b k) x = size_of m x ∧
      free_of (split_block m b k) x = free_of m x ∧
      next_of (split_block m b k) x = next_of m x ∧
      (x ≠ next_of m b → prev_of (split_block m b k) x = prev_of m x) := by
    intro x hx
    have hs := hsep x hx
    have hx0 : x ≠ 0 := (chain_mem m brk _ 0 a hc x (by
      rcases List.mem_append.mp hx with h | h
      · exact List.mem_append_left _ h
      · exact List.mem_append_right _ (List.mem_cons_of_mem _ h))).1
    have hnxcase : next_of m b = 0 ∨ next_of m b = x ∨
        (next_of m b + 32 ≤ x ∨ x + 32 ≤ next_of m b) := by
      rcases hbnx with h0 | h0
      · exact Or.inl h0
      · rcases hs with h | h
        · right; right; right
          simp only [BLOCK_SIZE] at *
          omega
        · by_cases hxe : next_of m b = x
          · exact Or.inr (Or.inl hxe)
          · right; right; left
            -- `x` comes after the successor of `b`
            cases post with
            | nil =>
              have h0n : next_of m b = 0 := hsuf.2.2.2.2
              simp only [BLOCK_SIZE] at *
              omega
            | cons d ds =>
              have hd : next_of m b = d := hsuf.2.2.2.2.1
              have hxpost : x ∈ d :: ds := by
                rcases List.mem_append.mp hx with h' | h'
                · have := chain_lt m brk pre 0 a b (d :: ds) hc x h'
                  simp only [BLOCK_SIZE] at *
                  omega
                · exact h'
              rcases List.mem_cons.mp hxpost with h' | h'
              · exact absurd (hd.trans h'.symm) hxe
              · have := chain_gt m brk ds b (next_of m b) d hsuf.2.2.2.2 x h'
                simp only [BLOCK_SIZE] at *
                omega
    refine ⟨?_, ?_, ?_, ?_⟩
    · refine rdN_congr 8 _ _ x (fun y h1 h2 => hframe y ?_ ?_ ?_) <;>
        simp only [BLOCK_SIZE] at * <;> omega
    · refine rdN_congr 4 _ _ (x + 24) (fun y h1 h2 => hframe y ?_ ?_ ?_) <;>
        simp only [BLOCK_SIZE] at * <;> omega
    · refine rdN_congr 8 _ _ (x + 8) (fun y h1 h2 => hframe y ?_ ?_ ?_) <;>
        simp only [BLOCK_SIZE] at * <;> omega
    · intro hne
      refine rdN_congr 8 _ _ (x + 16) (fun y h1 h2 => hframe y ?_ ?_ ?_) <;>
        simp only [BLOCK_SIZE] at * <;> omega
  refine ⟨f1, f2, f3, f4, f5, f6, f7, f8, f9, hother, hframe, ?_, ?_, ?_, by decide!⟩
  · -- the chain with the new block inserted
    refine chain_splice m (split_block m b k) brk pre (b :: post)
      (b :: (b + BLOCK_SIZE + k) :: post) ?_ ?_ 0 a hc
    · intro x hx
      obtain ⟨e1, _, e3, e4⟩ := hother x (List.mem_append_left _ hx)
      refine ⟨e1, e3, e4 ?_⟩
      have := chain_lt m brk pre 0 a b post hc x hx
      have hx0 := (chain_mem m brk _ 0 a hc x (List.mem_append_left _ hx)).1
      rcases hbnx with h0 | h0
      · omega
      · simp only [BLOCK_SIZE] at *
        omega
    · intro p2 a2 hc2
      obtain ⟨g1, g2, g3, g4, g5⟩ := hc2
      have hn0 : b + BLOCK_SIZE + k ≠ 0 := by simp only [BLOCK_SIZE]; omega
      refine ⟨g1, g2, by rw [f4]; exact g3, ?_, f3, hn0, f7, ?_, ?_⟩
      · rw [f3, if_neg hn0, f1]
      · rw [f8, f5]
        by_cases h0 : next_of m b = 0
        · rw [if_pos h0] at g4 ⊢
          simp only [BLOCK_SIZE] at *
          omega
        · rw [if_neg h0] at g4 ⊢
          simp only [BLOCK_SIZE] at *
          omega
      · rw [f8]
        cases post with
        | nil => exact g5
        | cons d ds =>
          obtain ⟨k1, k2, k3, k4, k5⟩ := g5
          have hdm : d ∈ pre ++ d :: ds := by simp
          obtain ⟨e1, _, e3, _⟩ := hother d hdm
          refine ⟨k1, k2, ?_, by rw [e1, e3]; exact k4, ?_⟩
          · have := f9 (by rw [k1]; exact k2)
            rw [k1] at this
            exact this
          · rw [e3]
            refine chain_congr m (split_block m b k) brk ds ?_ d (next_of m d) k5
            intro x hx
            obtain ⟨e1, _, e3, e4⟩ := hother x (by simp [hx])
            refine ⟨e1, e3, e4 ?_⟩
            have hgt := chain_gt m brk ds b (next_of m b) d ⟨k1, k2, k3, k4, k5⟩ x hx
            rw [k1]
            simp only [BLOCK_SIZE] at *
            omega
  · rw [f5]
    simp only [BLOCK_SIZE] at *
    omega
  · rw [f5]
    simp only [BLOCK_SIZE] at *
    omega

/-- The split of `test_split_block_size`: the 64-byte block at 4136 of
`splitHeap` split at 16. -/
theorem split_block_spec_witness :
    chain splitHeap.mem splitHeap.brk 0 splitHeap.base ([4096] ++ 4136 :: []) ∧
    size_of splitHeap.mem 4136 = 64 ∧
    size_of (split_block splitHeap.mem 4136 16) 4136 = 16 ∧
    free_of (split_block splitHeap.mem 4136 16) (anchor 4136 + 16) = 1 ∧
    chain (split_block splitHeap.mem 4136 16) splitHeap.brk 0 splitHeap.base
      ([4096] ++ 4136 :: (anchor 4136 + 16) :: []) := by
  have hc : chain splitHeap.mem splitHeap.brk 0 splitHeap.base ([4096] ++ 4136 :: []) := by
    decide!
  obtain ⟨e1, _, _, _, _, e6, _, _, _, _, _, e12, _⟩ :=
    split_block_spec splitHeap.mem splitHeap.brk splitHeap.base 4136 16 [4096] []
      (by decide!) hc (by decide!)
  exact ⟨hc, by decide!, e1, e6, e12⟩

/-! ## The search of `find_block` -/

theorem scan_no_fit (m : Mem) (size : Nat) (bs : List Nat) :
    ∀ last, (∀ x, x ∈ bs → fits m size x = false) →
      scan m size bs last = (0, bs.getLastD last) := by
  induction bs with
  | nil => intro last _; rfl
  | cons c cs ih =>
    intro last h
    have hc := h c (List.mem_cons_self c cs)
    simp only [scan, hc, Bool.false_eq_true, if_false, List.getLastD_cons]
    exact ih c (fun x hx => h x (List.mem_cons_of_mem c hx))

theorem scan_fit (m : Mem) (size B : Nat) (pre post : List Nat) :
    ∀ last, (∀ x, x ∈ pre → fits m size x = false) → fits m size B = true →
      scan m size (pre ++ B :: post) last = (B, pre.getLastD last) := by
  induction pre with
  | nil => intro last _ hB; simp [scan, hB]
  | cons c cs ih =>
    intro last h hB
    have hc := h c (List.mem_cons_self c cs)
    simp only [List.cons_append, scan, hc, Bool.false_eq_true, if_false, List.getLastD_cons]
    exact ih c (fun x hx => h x (List.mem_cons_of_mem c hx)) hB

/-- C25 (amended): on a chain, with fuel above the number of blocks and any
initial value `last0` of `*last`: when no block is free with `size` bytes,
`find_block` returns `NULL` and `*last` is the tail of the chain, or still
`last0` when the chain is empty; when the first such block is `B`, it returns
`B` and `*last` is the predecessor of `B`, or still `last0` when `B` is the
head. -/
theorem find_block_last (m : Mem) (brk size fuel a last0 : Nat) (bs : List Nat)
    (hc : chain m brk 0 a bs) (hfuel : bs.length < fuel) :
    ((∀ x, x ∈ bs → fits m size x = false) →
      find_block fuel m a last0 size = some (0, bs.getLastD last0) ∧
      (bs = [] → bs.getLastD last0 = last0) ∧
      (∀ hne : bs ≠ [], bs.getLastD last0 = bs.getLast hne ∧
        next_of m (bs.getLast hne) = 0)) ∧
    (∀ pre B post, bs = pre ++ B :: post → (∀ x, x ∈ pre → fits m size x = false) →
      fits m size B = true →
      find_block fuel m a last0 size = some (B, pre.getLastD last0) ∧
      (pre = [] → pre.getLastD last0 = last0) ∧
      (pre ≠ [] → pre.getLastD last0 = prev_of m B ∧ next_of m (prev_of m B) = B)) := by
  have hfb := find_block_chain m brk size bs fuel 0 a last0 hc hfuel
  constructor
  · intro hno
    refine ⟨by rw [hfb, scan_no_fit m size bs last0 hno], fun h => by rw [h]; rfl, ?_⟩
    intro hne
    obtain ⟨front, T, hT⟩ := List.eq_nil_or_concat bs |>.resolve_left hne
    rw [List.concat_eq_append] at hT
    subst hT
    have hlast : (front ++ [T]).getLast hne = T := by simp
    rw [hlast]
    refine ⟨by simp [List.getLastD_eq_getLast?], ?_⟩
    exact (chain_post_nil m brk front [] T 0 a hc).mpr rfl
  · intro pre B post hbs hno hB
    subst hbs
    refine ⟨by rw [hfb, scan_fit m size B pre post last0 hno hB],
      fun h => by rw [h]; rfl, ?_⟩
    intro hne
    obtain ⟨hp, _⟩ := chain_prev m brk pre post B a hc
    obtain ⟨front, P, hP⟩ := List.eq_nil_or_concat pre |>.resolve_left hne
    rw [List.concat_eq_append] at hP
    subst hP
    have hl : (front ++ [P]).getLastD last0 = P := by simp [List.getLastD_eq_getLast?]
    have hl0 : (front ++ [P]).getLastD 0 = P := by simp [List.getLastD_eq_getLast?]
    rw [hl0] at hp
    rw [hl, hp]
    refine ⟨rfl, ?_⟩
    have hc2 : chain m brk 0 a (front ++ P :: B :: post) := by
      simpa [List.append_assoc] using hc
    obtain ⟨p, b, hsuf⟩ := chain_suffix m brk front _ 0 a hc2
    exact (chain_pair m brk P B post p b hsuf).2.2.2.1

/-- On the two free blocks of `findHeap` (sizes 8 and 27) the search for 24 bytes
started with `last = 4096` returns the second block and leaves `last` at the
first, as in `test_find_second_block`. -/
theorem find_block_last_witness :
    chain findHeap.mem findHeap.brk 0 findHeap.base [4096, 4136] ∧
    find_block 3 findHeap.mem findHeap.base 4096 24 = some (4136, 4096) ∧
    prev_of findHeap.mem 4136 = 4096 := by
  have hc : chain findHeap.mem findHeap.brk 0 findHeap.base [4096, 4136] := by decide!
  obtain ⟨e1, _, e3⟩ := (find_block_last findHeap.mem findHeap.brk 24 3 findHeap.base 4096
    [4096, 4136] hc (by decide)).2 [4096] 4136 [] rfl
    (by intro x hx; rw [List.mem_singleton.mp hx]; decide!) (by decide!)
  exact ⟨hc, e1, (e3 (by simp)).1.symm⟩

/-- C25 as stated fails: on the empty chain `find_block` leaves `*last` at its
initial value, here 5, and does not set it to `NULL`. -/
theorem find_block_empty_keeps_last :
    chain (emptyHeap 4096 65536).mem 4096 0 (emptyHeap 4096 65536).base [] ∧
    find_block 1 (emptyHeap 4096 65536).mem (emptyHeap 4096 65536).base 5 10 = some (0, 5) := by
  decide!

end Alloc
